import Mathlib

/-!
# Arduino-SerialCommands: shallow embedding of `SerialCommands.cpp` / `SerialCommands.h`

Modelling conventions.

* A `char` in memory is a `Nat` below 256 (its bit pattern). A C string is the
  list of the bytes stored from a pointer on; it ends at the first `0`, and a
  read past the end of the list yields `0`.
* `buffer_` is the caller's array; pointers into it (`last_token_`, the value
  returned by `strtok_r`) are indices, `none` is `NULL`.
* `serial_` is `none` when no stream is attached, else the values that the
  successive `read()` calls will return (`available() > 0` iff the list is
  non-empty).
* The two intrusive linked lists are the lists `commands_` and `onek_cmds_`
  (head first); a descriptor object is assumed to be registered at most once.
* Handlers are function pointers in the source. A handler is embedded as the
  sequence of calls it makes on the instance during one run (`Next()` and
  `ProcessCommandLine(line)`); every run of a deterministic handler is such a
  sequence. `trace` is a ghost field recording handler invocations and the
  results the handlers observed.
* `strtok_r`, `strncmp`, `strlen`, `strncpy` are the C library functions.
-/

namespace ArduinoSerialCommands

/-- Return codes of `ReadSerial` (`SerialCommands.h`, lines 14-19). -/
inductive SERIAL_COMMANDS_ERRORS
  | SERIAL_COMMANDS_SUCCESS
  | SERIAL_COMMANDS_ERROR_NO_SERIAL
  | SERIAL_COMMANDS_ERROR_BUFFER_FULL
  deriving DecidableEq, Repr

/-- One call a handler makes on the `SerialCommands*` it receives. -/
inductive Action
  | Next
  | ProcessCommandLine (line : Option (List Nat))
  deriving DecidableEq, Repr

/-- Body of a handler: the calls it makes, in order. -/
abbrev Handler := List Action

/-- Ghost events. `command cx` / `one_key cx`: `cmd->function(this)` was called
for the descriptor at index `cx` of the regular / one-key list;
`default_handler tok`: `(*default_handler_)(this, command)` was called, `tok`
being the string at `command` (`none` for `NULL`); `next r`: a handler called
`Next()` and got the string `r` (`none` for `NULL`); `cmdline r`: a handler
called `ProcessCommandLine` and got `r`. -/
inductive Event
  | command (cx : Nat)
  | one_key (cx : Nat)
  | default_handler (tok : Option (List Nat))
  | next (r : Option (List Nat))
  | cmdline (r : Bool)
  deriving DecidableEq, Repr

/-- Class `SerialCommand` (`SerialCommands.h`, lines 24-39); `next` is the
list structure of the registry. -/
structure SerialCommand where
  command : List Nat
  function : Handler
  one_key : Bool
  deriving DecidableEq, Repr

/-- Class `SerialCommands` (`SerialCommands.h`, lines 124-140).
`char_signed` is the platform's signedness of plain `char`; `trace` is ghost. -/
structure SerialCommands where
  serial_ : Option (List Int)
  buffer_ : List Nat
  buffer_len_ : Nat
  term_ : List Nat
  delim_ : List Nat
  default_handler_ : Option Handler
  buffer_pos_ : Nat
  last_token_ : Option Nat
  term_pos_ : Int
  commands_ : List SerialCommand
  onek_cmds_ : List SerialCommand
  commands_count_ : Nat
  onek_cmds_count_ : Nat
  is_processing_cmdline_ : Bool
  char_signed : Bool
  trace : List Event
  deriving DecidableEq, Repr

/-! ## C library -/

/-- The C string stored at the start of `mem`. -/
def cstr (mem : List Nat) : List Nat := mem.takeWhile (fun c => c != 0)

/-- C `strlen`. -/
def strlen (mem : List Nat) : Nat := (cstr mem).length

/-- C `strspn(mem, delim)`: length of the initial run of bytes of the string
that occur in `delim`. -/
def strspn (delim : List Nat) : List Nat → Nat
  | [] => 0
  | c :: mem => if c != 0 && (cstr delim).contains c then strspn delim mem + 1 else 0

/-- C `strcspn(mem, delim)`: length of the initial run of bytes of the string
that do not occur in `delim`. -/
def strcspn (delim : List Nat) : List Nat → Nat
  | [] => 0
  | c :: mem => if c != 0 && !(cstr delim).contains c then strcspn delim mem + 1 else 0

/-- C `strtok_r(str, delim, &save)` on the array `buf`: returns the token
pointer, the array (a NUL is written over the delimiter that ends the token)
and the new save pointer. A `NULL` string with a `NULL` save pointer is outside
the C contract; it is modelled as returning `NULL`. -/
def strtok_r (buf : List Nat) (str : Option Nat) (delim : List Nat) (save : Option Nat) :
    Option Nat × List Nat × Option Nat :=
  match (str <|> save) with
  | none => (none, buf, save)
  | some p =>
    let b := p + strspn delim (buf.drop p)
    if buf.getD b 0 = 0 then (none, buf, some b)
    else
      let e := b + strcspn delim (buf.drop b)
      if buf.getD e 0 = 0 then (some b, buf, some e)
      else (some b, buf.set e 0, some (e + 1))

/-- C `strncmp(a, b, n) == 0`. -/
def strncmp_eq : List Nat → List Nat → Nat → Bool
  | _, _, 0 => true
  | a, b, n + 1 =>
    if a.headD 0 != b.headD 0 then false
    else if a.headD 0 = 0 then true
    else strncmp_eq a.tail b.tail n

/-- C `strncpy(dst, src, n)`: the first `n` bytes of `dst` become the string
at `src` padded with NULs. Bytes that would fall outside the array are
dropped: this is the C function when `n` is at most the size of the array
(`ProcessCommandLineChecked` tells when the call of the scanner is). -/
def strncpy (dst src : List Nat) (n : Nat) : List Nat :=
  (List.range dst.length).map (fun i => if i < n then (cstr src).getD i 0 else dst.getD i 0)

/-- Conversion of an `int` to `size_t` (16-bit on AVR). -/
def intToSize (x : Int) : Nat := (x % 65536).toNat

/-- Conversion of an `int` to `int8_t`. -/
def int8 (x : Int) : Int := (x + 128) % 256 - 128

/-- Integer promotion of a plain `char` with bit pattern `c`. -/
def charToInt (signed : Bool) (c : Nat) : Int :=
  if signed && 128 ≤ c then (c : Int) - 256 else (c : Int)

/-- The byte `term[tp]` of the terminator string (`0` outside the string). The
code reaches a negative index only when `term_pos_`, an `int8_t`, wraps on a
terminator of 128 bytes or more, and then reads before the string; the value 0
given here stands for the code on terminators of at most 127 bytes. -/
def termByte (term : List Nat) (tp : Int) : Nat :=
  if tp < 0 then 0 else term.getD tp.toNat 0

/-! ## Specification-level notions -/

/-- The terminator matching of `ReadSerial` (lines 101-107) run on its own
over stored bytes, from cursor `tp`: `none` when some byte completes the
terminator, else the final cursor. -/
def termScan (signed : Bool) (term : List Nat) : Int → List Nat → Option Int
  | tp, [] => some tp
  | tp, b :: rest =>
    if charToInt signed (termByte term tp) ≠ (b : Int) then termScan signed term 0 rest
    else if termByte term (int8 (tp + 1)) = 0 then none
    else termScan signed term (int8 (tp + 1)) rest

/-- Membership of a byte in the delimiter set of the C string `delim`. -/
def isDelim (delim : List Nat) (c : Nat) : Bool := (cstr delim).contains c

/-- The delimiter-separated tokens of the C string `line`: its maximal
non-empty runs of bytes that are not delimiters, in order. -/
def tokens (delim line : List Nat) : List (List Nat) :=
  ((cstr line).splitOnP (isDelim delim)).filter (fun t => !t.isEmpty)

/-- The array `buf` after `bytes` are stored from index `pos` on. -/
def storeAt (buf : List Nat) (pos : Nat) : List Nat → List Nat
  | [] => buf
  | b :: bs => storeAt (buf.set pos b) (pos + 1) bs

/-- Received bytes as the values `read()` returns. -/
def toStream (bytes : List Nat) : List Int := bytes.map (fun b => (b : Int))

/-- The tokenizer cursor `q` of `buf` points at the NUL-terminated, NUL-free
string `w`. -/
def TokState (buf : List Nat) (q : Nat) (w : List Nat) : Prop :=
  ∃ pre rest, buf = pre ++ (w ++ 0 :: rest) ∧ pre.length = q ∧ 0 ∉ w

namespace SerialCommands

/-- Constructor (`SerialCommands.h`, lines 44-62); `buffer = none` is `NULL`.
`buffer_len` is the value of the `int16_t` argument, from -32768 to 32767. -/
def new (serial : Option (List Int)) (buffer : Option (List Nat)) (buffer_len : Int)
    (term delim : List Nat) (char_signed : Bool) : SerialCommands where
  serial_ := serial
  buffer_ := buffer.getD []
  buffer_len_ := if buffer.isSome && 0 < buffer_len then (buffer_len - 1).toNat else 0
  term_ := term
  delim_ := delim
  default_handler_ := none
  buffer_pos_ := 0
  last_token_ := none
  term_pos_ := 0
  commands_ := []
  onek_cmds_ := []
  commands_count_ := 0
  onek_cmds_count_ := 0
  is_processing_cmdline_ := false
  char_signed := char_signed
  trace := []

/-- `AddCommand` (`SerialCommands.cpp`, lines 9-46) for a descriptor object
that is in neither list yet: it becomes the last element of its list. The
registry is held as two lists of descriptor values; for a descriptor that is
already linked the source cuts its list or makes it cyclic (lines 35, 42-43),
which a list of values does not express. The counts are `uint8_t`. -/
def AddCommand (s : SerialCommands) (command : SerialCommand) : SerialCommands :=
  if command.one_key then
    { s with onek_cmds_ := s.onek_cmds_ ++ [command],
             onek_cmds_count_ := (s.onek_cmds_count_ + 1) % 256 }
  else
    { s with commands_ := s.commands_ ++ [command],
             commands_count_ := (s.commands_count_ + 1) % 256 }

/-- `SetDefaultHandler` (`SerialCommands.cpp`, lines 246-249). -/
def SetDefaultHandler (s : SerialCommands) (function : Option Handler) : SerialCommands :=
  { s with default_handler_ := function }

/-- `AttachSerial` (`SerialCommands.cpp`, lines 236-239). -/
def AttachSerial (s : SerialCommands) (serial : List Int) : SerialCommands :=
  { s with serial_ := some serial }

/-- `DetachSerial` (`SerialCommands.cpp`, lines 241-244). -/
def DetachSerial (s : SerialCommands) : SerialCommands :=
  { s with serial_ := none }

/-- `ClearBuffer` (`SerialCommands.cpp`, lines 251-256). -/
def ClearBuffer (s : SerialCommands) : SerialCommands :=
  { s with buffer_ := s.buffer_.set 0 0, buffer_pos_ := 0, term_pos_ := 0 }

/-- `Next` (`SerialCommands.cpp`, lines 258-261): the returned pointer and the
new state. -/
def Next (s : SerialCommands) : Option Nat × SerialCommands :=
  let r := strtok_r s.buffer_ none s.delim_ s.last_token_
  (r.1, { s with buffer_ := r.2.1, last_token_ := r.2.2 })

/-- The string a `char*` into `buffer_` points to (`none` for `NULL`). -/
def strAt (s : SerialCommands) (p : Option Nat) : Option (List Nat) :=
  p.map (fun i => cstr (s.buffer_.drop i))

/-- The `for` loop of `ProcessBuffer` (lines 134-154): index and descriptor of
the first entry for which `strncmp(command, cmd->command, strlen(cmd->command) + 1) == 0`. -/
def matchCommand (command : List Nat) : List SerialCommand → Nat → Option (Nat × SerialCommand)
  | [], _ => none
  | cmd :: rest, cx =>
    if strncmp_eq command cmd.command (strlen cmd.command + 1) then some (cx, cmd)
    else matchCommand command rest (cx + 1)

/-- The `for` loop of `CheckOneKeyCmd` (lines 206-225): index and descriptor of
the first entry with `buffer_[0] == cmd->command[0]`. -/
def matchOneKey (c : Nat) : List SerialCommand → Nat → Option (Nat × SerialCommand)
  | [], _ => none
  | cmd :: rest, cx =>
    if c = cmd.command.getD 0 0 then some (cx, cmd)
    else matchOneKey c rest (cx + 1)

/-- `ProcessBuffer` (`SerialCommands.cpp`, lines 117-161); `run` executes a
handler body on the instance. -/
def ProcessBuffer (run : Handler → SerialCommands → SerialCommands) (s : SerialCommands) :
    SerialCommands :=
  let r := strtok_r s.buffer_ (some 0) s.delim_ s.last_token_
  let s1 := { s with buffer_ := r.2.1, last_token_ := r.2.2 }
  match r.1 with
  | none => ClearBuffer s1
  | some command =>
    match matchCommand (s1.buffer_.drop command) s1.commands_ 0 with
    | some (cx, cmd) =>
      ClearBuffer (run cmd.function { s1 with trace := s1.trace ++ [Event.command cx] })
    | none =>
      match s1.default_handler_ with
      | some h =>
        ClearBuffer (run h { s1 with
          trace := s1.trace ++ [Event.default_handler (s1.strAt (some command))] })
      | none => ClearBuffer s1

/-- `ProcessCommandLine` (`SerialCommands.cpp`, lines 167-196); `line = none`
is `NULL`. `buffer_len_ - 1` is an `int` that the comparison with `strlen` and
the `strncpy` call convert to `size_t`. With `buffer_len_ = 0` the guard lets
every non-empty line pass and the stores of `strncpy` (count `SIZE_MAX`) and
`buffer_[buffer_len_ - 1]` fall outside the array, undefined behaviour in C:
they are dropped here and reported by `ProcessCommandLineChecked`. With
`buffer_len_` at least 1 in an array that has a byte more, every store is
inside the array. -/
def ProcessCommandLineWith (run : Handler → SerialCommands → SerialCommands)
    (line : Option (List Nat)) (s : SerialCommands) : Bool × SerialCommands :=
  match line with
  | none => (false, s)
  | some l =>
    if strlen l = 0 then (false, s)
    else if intToSize ((s.buffer_len_ : Int) - 1) ≤ strlen l then (false, s)
    else if s.is_processing_cmdline_ then (false, s)
    else
      let s1 := { s with is_processing_cmdline_ := true }
      let s2 := ClearBuffer s1
      let s3 := { s2 with buffer_ := strncpy s2.buffer_ l (intToSize ((s2.buffer_len_ : Int) - 1)) }
      let s4 := { s3 with buffer_ :=
        if s3.buffer_len_ = 0 then s3.buffer_ else s3.buffer_.set (s3.buffer_len_ - 1) 0 }
      let s5 := ProcessBuffer run s4
      (true, { s5 with is_processing_cmdline_ := false })

/-- One call made by a handler, with the result it observes appended to the
trace. -/
def execAction (run : Handler → SerialCommands → SerialCommands) (s : SerialCommands) :
    Action → SerialCommands
  | Action.Next =>
    let r := Next s
    { r.2 with trace := r.2.trace ++ [Event.next (r.2.strAt r.1)] }
  | Action.ProcessCommandLine line =>
    let r := ProcessCommandLineWith run line s
    { r.2 with trace := r.2.trace ++ [Event.cmdline r.1] }

/-- Execution of a handler body. The first argument bounds the nesting of
dispatches: a handler called from `ReadSerial` runs at depth 2, the handlers
that its `ProcessCommandLine` calls dispatch run at depth 1 with
`is_processing_cmdline_` set, so their own `ProcessCommandLine` calls are
rejected before any dispatch and depth 0 is never executed: the run is the
same at every larger depth (`runHandler_depth`, `runHandler_depth_locked`). -/
def runHandler : Nat → Handler → SerialCommands → SerialCommands
  | 0, _, s => s
  | d + 1, h, s => h.foldl (execAction (runHandler d)) s

/-- `ProcessCommandLine` called by the sketch (outside any handler). -/
def ProcessCommandLine (s : SerialCommands) (line : Option (List Nat)) : Bool × SerialCommands :=
  ProcessCommandLineWith (runHandler 1) line s

/-- `CheckOneKeyCmd` (`SerialCommands.cpp`, lines 198-228). -/
def CheckOneKeyCmd (s : SerialCommands) : Bool × SerialCommands :=
  match matchOneKey (s.buffer_.getD 0 0) s.onek_cmds_ 0 with
  | some (cx, cmd) =>
    (true, ClearBuffer (runHandler 2 cmd.function { s with trace := s.trace ++ [Event.one_key cx] }))
  | none => (false, s)

/-- The byte `term_[term_pos_]`. -/
def termAt (s : SerialCommands) : Nat := termByte s.term_ s.term_pos_

/-- Body of the `while` loop of `ReadSerial` (`SerialCommands.cpp`, lines
57-111) for the value `ch` just read: `some r` when the body executes
`return r`, `none` when the loop goes on to its next iteration.
`buffer_pos_ - strlen(term_)` is never negative in a reachable state; the
model truncates at 0. -/
def ReadSerialBody (s : SerialCommands) (ch : Int) :
    Option SERIAL_COMMANDS_ERRORS × SerialCommands :=
  if ch ≤ 0 then (none, s)
  else if s.buffer_pos_ < s.buffer_len_ then
    let s1 := { s with buffer_ := s.buffer_.set s.buffer_pos_ (ch % 256).toNat,
                       buffer_pos_ := s.buffer_pos_ + 1 }
    let k := if s1.buffer_pos_ = 1 then CheckOneKeyCmd s1 else (false, s1)
    if k.1 then (some SERIAL_COMMANDS_ERRORS.SERIAL_COMMANDS_SUCCESS, k.2)
    else
      let s2 := k.2
      if charToInt s2.char_signed s2.termAt ≠ ch then
        (none, { s2 with term_pos_ := 0 })
      else
        let s3 := { s2 with term_pos_ := int8 (s2.term_pos_ + 1) }
        if s3.termAt = 0 then
          let s4 := { s3 with buffer_ := s3.buffer_.set (s3.buffer_pos_ - strlen s3.term_) 0 }
          (none, ProcessBuffer (runHandler 2) s4)
        else (none, s3)
  else (some SERIAL_COMMANDS_ERRORS.SERIAL_COMMANDS_ERROR_BUFFER_FULL, ClearBuffer s)

/-- The `while` loop of `ReadSerial` (`SerialCommands.cpp`, lines 55-114) over
the values the stream still holds: each iteration reads one value. -/
def ReadSerialLoop (s : SerialCommands) : List Int → SERIAL_COMMANDS_ERRORS × SerialCommands
  | [] => (SERIAL_COMMANDS_ERRORS.SERIAL_COMMANDS_SUCCESS, s)
  | ch :: rest =>
    match ReadSerialBody { s with serial_ := some rest } ch with
    | (some r, s1) => (r, s1)
    | (none, s1) => ReadSerialLoop s1 rest

/-- `ReadSerial` (`SerialCommands.cpp`, lines 48-115). -/
def ReadSerial (s : SerialCommands) : SERIAL_COMMANDS_ERRORS × SerialCommands :=
  match s.serial_ with
  | none => (SERIAL_COMMANDS_ERRORS.SERIAL_COMMANDS_ERROR_NO_SERIAL, s)
  | some avail => ReadSerialLoop s avail

/-- The stream receives `bytes` and the sketch calls `ReadSerial` once. -/
def feed (s : SerialCommands) (bytes : List Int) : SERIAL_COMMANDS_ERRORS × SerialCommands :=
  ReadSerial { s with serial_ := some ((s.serial_.getD []) ++ bytes) }

/-- The bytes arrive one at a time, with one `ReadSerial` call after each;
returns the return codes of the calls and the final state. -/
def feedEach (s : SerialCommands) : List Int → List SERIAL_COMMANDS_ERRORS × SerialCommands
  | [] => ([], s)
  | b :: rest =>
    let r := feed s [b]
    let q := feedEach r.2 rest
    (r.1 :: q.1, q.2)

end SerialCommands

/-- Scenario 3 of the specification: an array of 9 bytes (usable capacity 8),
terminator CR LF, delimiter space, a one-key command `h` and a command `LED`. -/
def scenario3 : SerialCommands :=
  ((SerialCommands.new (some []) (some (List.replicate 9 0)) 9 [13, 10] [32] true).AddCommand
    ⟨[104], [], true⟩).AddCommand ⟨[76, 69, 68], [Action.Next], false⟩

/-- A scanner in which the line `LED ON` has just been completed: commands
`LE`, `LED`, `LEDS` and a second `LED`, in this order, and a default handler. -/
def lookupDemo : SerialCommands :=
  { (((((SerialCommands.new (some []) (some (List.replicate 12 0)) 12 [13, 10] [32]
      true).AddCommand ⟨[76, 69], [], false⟩).AddCommand
      ⟨[76, 69, 68], [Action.Next, Action.Next], false⟩).AddCommand
      ⟨[76, 69, 68, 83], [], false⟩).AddCommand
      ⟨[76, 69, 68], [], false⟩).SetDefaultHandler (some [Action.Next]) with
    buffer_ := [76, 69, 68, 32, 79, 78, 0, 10, 0, 0, 0, 0], buffer_pos_ := 8, term_pos_ := 2 }

/-- Scenario 2 of the specification: the line `FOO` has just been completed,
command `LED` and a default handler are registered. -/
def scenario2 : SerialCommands :=
  { ((SerialCommands.new (some []) (some (List.replicate 12 0)) 12 [13, 10] [32]
      true).AddCommand ⟨[76, 69, 68], [Action.Next], false⟩).SetDefaultHandler
      (some [Action.Next]) with
    buffer_ := [70, 79, 79, 0, 10, 0, 0, 0, 0, 0, 0, 0], buffer_pos_ := 5, term_pos_ := 2 }

/-- A cleared scanner with command `LED` and a default handler registered. -/
def emptyLineDemo : SerialCommands :=
  ((SerialCommands.new (some []) (some (List.replicate 12 0)) 12 [13, 10] [32]
    true).AddCommand ⟨[76, 69, 68], [Action.Next], false⟩).SetDefaultHandler (some [Action.Next])

/-- A cleared scanner on an array of 10 bytes (usable capacity 9) with the
command `SET` registered. -/
def cmdlineDemo : SerialCommands :=
  (SerialCommands.new (some []) (some (List.replicate 10 0)) 10 [13, 10] [32] true).AddCommand
    ⟨[83, 69, 84], [Action.Next, Action.Next, Action.Next], false⟩

/-- A cleared scanner whose command `A` and one-key command `h` both call
`ProcessCommandLine("B")` from their handler; command `B` calls `Next()`. -/
def reentryDemo : SerialCommands :=
  (((SerialCommands.new (some []) (some (List.replicate 12 0)) 12 [13, 10] [32] true).AddCommand
    ⟨[65], [Action.ProcessCommandLine (some [66])], false⟩).AddCommand
    ⟨[66], [Action.Next], false⟩).AddCommand
    ⟨[104], [Action.ProcessCommandLine (some [66])], true⟩

/-- The bytes `t1 sep t2 sep ... tn` of a line made of the tokens `t1 .. tn`. -/
def joinTokens (sep : Nat) : List (List Nat) → List Nat
  | [] => []
  | [t] => t
  | t :: t2 :: ts => t ++ sep :: joinTokens sep (t2 :: ts)

/-- Scenario 1 of the specification: a cleared scanner on an array of 16
bytes, terminator CR LF, delimiter space, command `LED` whose handler calls
`Next()` twice, and a one-key command `h`. -/
def scenario1 : SerialCommands :=
  ((SerialCommands.new (some []) (some (List.replicate 16 0)) 16 [13, 10] [32] true).AddCommand
    ⟨[76, 69, 68], [Action.Next, Action.Next], false⟩).AddCommand ⟨[104], [], true⟩

/-- What no operation on the scanner changes between a state `s` and a later
state `t`: the stream, the configuration, the registry, the size of the array
and the re-entrancy flag; the trace only grows, by events that satisfy `P`. -/
structure Frame (P : Event → Prop) (s t : SerialCommands) : Prop where
  serial_eq : t.serial_ = s.serial_
  buffer_len_eq : t.buffer_len_ = s.buffer_len_
  length_eq : t.buffer_.length = s.buffer_.length
  term_eq : t.term_ = s.term_
  delim_eq : t.delim_ = s.delim_
  default_eq : t.default_handler_ = s.default_handler_
  commands_eq : t.commands_ = s.commands_
  onek_eq : t.onek_cmds_ = s.onek_cmds_
  count_eq : t.commands_count_ = s.commands_count_
  onek_count_eq : t.onek_cmds_count_ = s.onek_cmds_count_
  flag_eq : t.is_processing_cmdline_ = s.is_processing_cmdline_
  signed_eq : t.char_signed = s.char_signed
  trace_ext : ∃ evs, t.trace = s.trace ++ evs ∧ ∀ e ∈ evs, P e

/-- Any event. -/
def anyEvent (_ : Event) : Prop := True

/-- An event other than the call of a one-key handler. -/
def notOneKey (e : Event) : Prop := ∀ cx, e ≠ Event.one_key cx

/-- A cleared scanner with a one-key command `h`, a command `LED` and a
default handler. -/
def hotkeyDemo : SerialCommands :=
  (((SerialCommands.new (some []) (some (List.replicate 12 0)) 12 [13, 10] [32] true).AddCommand
    ⟨[104], [Action.Next], true⟩).AddCommand
    ⟨[76, 69, 68], [Action.Next], false⟩).SetDefaultHandler (some [Action.Next])

/-- A registry after the registration of 255 different regular commands, with
the one-byte names 1 to 255. -/
def fullRegistry : SerialCommands :=
  ((List.range 255).map (fun i => (⟨[i + 1], [], false⟩ : SerialCommand))).foldl
    SerialCommands.AddCommand
    (SerialCommands.new (some []) (some (List.replicate 12 0)) 12 [13, 10] [32] true)

/-- A cleared scanner with the terminator `aab`, no one-key command, on an
array of 16 bytes. -/
def aabDemo : SerialCommands :=
  (SerialCommands.new (some []) (some (List.replicate 16 0)) 16 [97, 97, 98] [32] true).AddCommand
    ⟨[76, 69, 68], [Action.Next], false⟩

/-- A cleared scanner with the one-byte terminator `0xFF` and the command `A`,
on an array of 8 bytes; `sg` is the signedness of plain `char` on the build. -/
def highTermDemo (sg : Bool) : SerialCommands :=
  (SerialCommands.new (some []) (some (List.replicate 8 0)) 8 [255] [32] sg).AddCommand
    ⟨[65], [], false⟩

/-- The store `buffer_[buffer_pos_++] = ch` of `ReadSerial` (line 85). -/
def storeByte (s : SerialCommands) (ch : Int) : SerialCommands :=
  { s with buffer_ := s.buffer_.set s.buffer_pos_ (ch % 256).toNat,
           buffer_pos_ := s.buffer_pos_ + 1 }

/-- The calls a sketch makes on an instance between construction and any later
moment; `AddCommand c` registers a descriptor object with the contents `c` that
is not registered yet; `ReadSerial src` is a call made when the source is
`src` (`none`: no source attached, `some avail`: the values `read()` will
return). -/
inductive Op where
  | AddCommand (c : SerialCommand)
  | SetDefaultHandler (h : Option Handler)
  | ReadSerial (src : Option (List Int))
  | ProcessCommandLine (line : Option (List Nat))
  | ClearBuffer

/-- The state after one call. -/
def Op.apply (s : SerialCommands) : Op → SerialCommands
  | Op.AddCommand c => s.AddCommand c
  | Op.SetDefaultHandler h => s.SetDefaultHandler h
  | Op.ReadSerial src => (SerialCommands.ReadSerial { s with serial_ := src }).2
  | Op.ProcessCommandLine line => (s.ProcessCommandLine line).2
  | Op.ClearBuffer => s.ClearBuffer

/-- The write cursor is inside the usable part of an array of `cap` bytes. -/
def Bounded (cap : Nat) (s : SerialCommands) : Prop :=
  s.buffer_len_ = cap - 1 ∧ s.buffer_.length = cap ∧ s.buffer_pos_ ≤ cap - 1

/-- Scenario 1 at the moment the line `LED A B C` has been completed (its
terminator is cut off, `ProcessBuffer` is about to run). -/
def unreadDemo : SerialCommands :=
  { scenario1 with
      buffer_ := [76, 69, 68, 32, 65, 32, 66, 32, 67, 0, 10, 0, 0, 0, 0, 0],
      buffer_pos_ := 11, term_pos_ := 2 }

/-- The terminator cursor `term_pos_` of `s` is inside the terminator `term`
and counts stored bytes: the last `term_pos_` stored bytes are the first
`term_pos_` bytes of the terminator. The array has a byte more than the usable
length. -/
def TermCursorOk (term : List Nat) (s : SerialCommands) : Prop :=
  s.term_ = term ∧ 0 ≤ s.term_pos_ ∧ s.term_pos_ < term.length ∧
  s.term_pos_.toNat ≤ s.buffer_pos_ ∧ s.buffer_pos_ ≤ s.buffer_len_ ∧
  s.buffer_len_ < s.buffer_.length ∧
  (s.buffer_.drop (s.buffer_pos_ - s.term_pos_.toNat)).take s.term_pos_.toNat =
    term.take s.term_pos_.toNat

/-- The state `s` with the contents of the source replaced by `x`. -/
def withSerial (x : Option (List Int)) (s : SerialCommands) : SerialCommands :=
  { s with serial_ := x }

/-- The loop body of `ReadSerial` run on the values `l` one after the other,
the source left aside. -/
def bodyAll (s : SerialCommands) (l : List Int) : SerialCommands :=
  l.foldl (fun st ch => (SerialCommands.ReadSerialBody st ch).2) s

/-- The sketch calls `ReadSerial` again and again until the source is empty
(at most `n` calls). -/
def drain : Nat → SerialCommands → SerialCommands
  | 0, s => s
  | n + 1, s =>
    match s.serial_ with
    | some (_ :: _) => drain n (SerialCommands.ReadSerial s).2
    | _ => s

/-- The source receives `bytes` and the sketch calls `ReadSerial` until the
source is empty; every call on a non-empty source reads at least one value,
so as many calls as there are values suffice. -/
def receive (s : SerialCommands) (bytes : List Int) : SerialCommands :=
  drain (s.serial_.getD [] ++ bytes).length
    { s with serial_ := some (s.serial_.getD [] ++ bytes) }

/-- The count `buffer_len_ - 1` that `ProcessCommandLine` passes to `strncpy`
(line 187), converted to `size_t`: `strncpy` writes that many bytes, from
index 0 on. -/
def cmdlineCopyLen (s : SerialCommands) : Nat := intToSize ((s.buffer_len_ : Int) - 1)

/-- The index `buffer_len_ - 1` at which `ProcessCommandLine` stores the final
NUL (line 188). -/
def cmdlineNulIndex (s : SerialCommands) : Int := (s.buffer_len_ : Int) - 1

/-- `ProcessCommandLine` with the stores of lines 183-188 checked against the
array: `none` when the call is accepted and `ClearBuffer`, `strncpy` or the
final NUL store writes outside the array, which is undefined behaviour in C
(`ProcessCommandLineWith` and `strncpy` drop such stores). The handlers run
on the same array and the same `buffer_len_`. -/
def ProcessCommandLineChecked (s : SerialCommands) (line : Option (List Nat)) :
    Option (Bool × SerialCommands) :=
  if (s.ProcessCommandLine line).1 = true ∧
      ¬ (0 < s.buffer_.length ∧ cmdlineCopyLen s ≤ s.buffer_.length ∧
          0 ≤ cmdlineNulIndex s ∧ cmdlineNulIndex s < s.buffer_.length) then none
  else some (s.ProcessCommandLine line)

/-- A scanner just constructed on an array of one byte (usable length 0). -/
def oneByteDemo : SerialCommands :=
  SerialCommands.new (some []) (some [0]) 1 [13, 10] [32] true

/-- A scanner just constructed on an array of two bytes (usable length 1). -/
def twoByteDemo : SerialCommands :=
  SerialCommands.new (some []) (some [0, 0]) 2 [13, 10] [32] true

/-- The first descriptor of a list, counted from index `cx`, whose name is the
string `name` byte for byte. -/
def lookupName (name : List Nat) : List SerialCommand → Nat → Option (Nat × SerialCommand)
  | [], _ => none
  | cmd :: rest, cx =>
    if cstr cmd.command = name then some (cx, cmd) else lookupName name rest (cx + 1)

/-- What the dispatch of the line `w` calls, by the words of the
specification: nothing for a line without token; else the first regular
command named by the first token; else the default handler, with that token,
if there is one. Given as the invocation event and the handler body. -/
def dispatchTarget (s : SerialCommands) (w : List Nat) : Option (Event × Handler) :=
  match (tokens s.delim_ w).head? with
  | none => none
  | some t1 =>
    match lookupName t1 s.commands_ 0 with
    | some (cx, cmd) => some (Event.command cx, cmd.function)
    | none => s.default_handler_.map (fun h => (Event.default_handler (some t1), h))

/-- The body of the handler that the dispatch of the line `w` calls (empty
when it calls none). -/
def dispatchHandler (s : SerialCommands) (w : List Nat) : Handler :=
  match dispatchTarget s w with
  | none => []
  | some (_, h) => h

/-- The number of `Next()` calls made during the dispatch of the line `w` when
the handler it calls only calls `Next()`. -/
def nextCalls (s : SerialCommands) (w : List Nat) : Nat := (dispatchHandler s w).length

/-- The events of the dispatch of the line `w` when the handler it calls only
calls `Next()`: the invocation, then the tokens after the first one, in
order, `NULL` once they are used up. -/
def dispatchEvents (s : SerialCommands) (w : List Nat) : List Event :=
  match dispatchTarget s w with
  | none => []
  | some (e, h) =>
    e :: (List.range h.length).map (fun i => Event.next ((tokens s.delim_ w)[i + 1]?))

/-- A token: a non-empty string without NUL and without delimiter. -/
def tokenOk (delim t : List Nat) : Prop :=
  t ≠ [] ∧ ∀ c ∈ t, c ≠ 0 ∧ isDelim delim c = false

/-- The string that an event hands to a handler is a token: the value of a
`Next()` call unless it is `NULL`, and the argument of the default handler. -/
def tokenEvent (delim : List Nat) : Event → Prop
  | Event.next (some t) => tokenOk delim t
  | Event.default_handler tok => ∃ t, tok = some t ∧ tokenOk delim t
  | _ => True

/-- Between the states `s` and `t` the delimiters are unchanged and every
recorded event hands over a token. -/
structure TokTrace (s t : SerialCommands) : Prop where
  delim_eq : t.delim_ = s.delim_
  trace_ext : ∃ evs, t.trace = s.trace ++ evs ∧ ∀ e ∈ evs, tokenEvent s.delim_ e

/-! # Lemmas and theorems -/

/-! ## The C library functions -/


theorem cstr_nil : cstr [] = [] := rfl

theorem isDelim_true {delim : List Nat} {c : Nat} : isDelim delim c = true ↔ c ∈ cstr delim := by
  simp [isDelim]

theorem isDelim_false {delim : List Nat} {c : Nat} : isDelim delim c = false ↔ c ∉ cstr delim := by
  simp [isDelim]

theorem cstr_of_not_mem {w : List Nat} (hw : 0 ∉ w) : cstr w = w := by
  unfold cstr
  rw [List.takeWhile_eq_self_iff]
  intro c hc
  have : c ≠ 0 := fun h => hw (h ▸ hc)
  simpa using this

theorem cstr_append_zero {w : List Nat} (hw : 0 ∉ w) (rest : List Nat) :
    cstr (w ++ 0 :: rest) = w := by
  induction w with
  | nil => simp [cstr]
  | cons c w ih =>
    have hc : c ≠ 0 := fun h => hw (by simp [h])
    have hw2 : 0 ∉ w := fun h => hw (List.mem_cons_of_mem _ h)
    have := ih hw2
    simp only [cstr] at this ⊢
    simp [List.takeWhile_cons, hc, this]

theorem strspn_append {delim ds : List Nat} (hds : ∀ c ∈ ds, c ≠ 0 ∧ isDelim delim c = true)
    (mem : List Nat) : strspn delim (ds ++ mem) = ds.length + strspn delim mem := by
  induction ds with
  | nil => simp
  | cons c ds ih =>
    have h1 := hds c (List.mem_cons_self _ _)
    have h2 := ih (fun x hx => hds x (List.mem_cons_of_mem _ hx))
    have h3 : c ∈ cstr delim := isDelim_true.1 h1.2
    simp only [List.cons_append, strspn, List.length_cons]
    simp [h1.1, h3, h2]; omega

theorem strcspn_append {delim tok : List Nat} (htok : ∀ c ∈ tok, c ≠ 0 ∧ isDelim delim c = false)
    (mem : List Nat) : strcspn delim (tok ++ mem) = tok.length + strcspn delim mem := by
  induction tok with
  | nil => simp
  | cons c tok ih =>
    have h1 := htok c (List.mem_cons_self _ _)
    have h2 := ih (fun x hx => htok x (List.mem_cons_of_mem _ hx))
    have h3 : c ∉ cstr delim := isDelim_false.1 h1.2
    simp only [List.cons_append, strcspn, List.length_cons]
    simp [h1.1, h3, h2]; omega

theorem strspn_zero (delim rest : List Nat) : strspn delim (0 :: rest) = 0 := by
  simp [strspn]

theorem strcspn_zero (delim rest : List Nat) : strcspn delim (0 :: rest) = 0 := by
  simp [strcspn]

theorem strspn_nondelim {delim : List Nat} {c : Nat} (h : isDelim delim c = false)
    (rest : List Nat) : strspn delim (c :: rest) = 0 := by
  have h3 : c ∉ cstr delim := isDelim_false.1 h
  simp [strspn, h3]

theorem strcspn_delim {delim : List Nat} {c : Nat} (h : isDelim delim c = true)
    (rest : List Nat) : strcspn delim (c :: rest) = 0 := by
  have h3 : c ∈ cstr delim := isDelim_true.1 h
  simp [strcspn, h3]

theorem getD_at (pre mem : List Nat) (i : Nat) :
    (pre ++ mem).getD (pre.length + i) 0 = mem.getD i 0 := by
  rw [List.getD_append_right _ _ _ _ (Nat.le_add_right _ _)]
  simp

theorem drop_at (pre mem : List Nat) (i : Nat) :
    (pre ++ mem).drop (pre.length + i) = mem.drop i := by
  rw [List.drop_append]

theorem set_at (pre mem : List Nat) (i v : Nat) :
    (pre ++ mem).set (pre.length + i) v = pre ++ mem.set i v := by
  rw [List.set_append_right _ _ (Nat.le_add_right _ _)]
  simp

theorem strtok_r_none (delim pre ds rest : List Nat) (str save : Option Nat)
    (hq : (str <|> save) = some pre.length)
    (hds : ∀ c ∈ ds, c ≠ 0 ∧ isDelim delim c = true) :
    strtok_r (pre ++ (ds ++ 0 :: rest)) str delim save =
      (none, pre ++ (ds ++ 0 :: rest), some (pre.length + ds.length)) := by
  unfold strtok_r
  rw [hq]
  have h0 := drop_at pre (ds ++ 0 :: rest) 0
  simp only [Nat.add_zero, List.drop_zero] at h0
  simp only [h0, strspn_append hds, strspn_zero, Nat.add_zero, getD_at]
  have : (ds ++ 0 :: rest).getD ds.length 0 = 0 := by
    have := getD_at ds (0 :: rest) 0
    simpa using this
  rw [if_pos this]

theorem strtok_r_last (delim pre ds tok rest : List Nat) (str save : Option Nat)
    (hq : (str <|> save) = some pre.length)
    (hds : ∀ c ∈ ds, c ≠ 0 ∧ isDelim delim c = true)
    (htok : ∀ c ∈ tok, c ≠ 0 ∧ isDelim delim c = false) (hne : tok ≠ []) :
    strtok_r (pre ++ (ds ++ (tok ++ 0 :: rest))) str delim save =
      (some (pre.length + ds.length), pre ++ (ds ++ (tok ++ 0 :: rest)),
        some (pre.length + ds.length + tok.length)) := by
  unfold strtok_r
  rw [hq]
  have h0 := drop_at pre (ds ++ (tok ++ 0 :: rest)) 0
  simp only [Nat.add_zero, List.drop_zero] at h0
  obtain ⟨c, tl, rfl⟩ := List.exists_cons_of_ne_nil hne
  have hc := htok c (List.mem_cons_self _ _)
  have hsp : strspn delim (ds ++ (c :: tl ++ 0 :: rest)) = ds.length := by
    rw [strspn_append hds]
    simp [strspn_nondelim hc.2]
  have hb : (pre ++ (ds ++ (c :: tl ++ 0 :: rest))).getD (pre.length + ds.length) 0 = c := by
    rw [getD_at]
    have := getD_at ds (c :: tl ++ 0 :: rest) 0
    simpa using this
  have hd : (pre ++ (ds ++ (c :: tl ++ 0 :: rest))).drop (pre.length + ds.length)
      = c :: tl ++ 0 :: rest := by
    rw [drop_at]
    have := drop_at ds (c :: tl ++ 0 :: rest) 0
    simp
  have hcs : strcspn delim (c :: tl ++ 0 :: rest) = (c :: tl).length := by
    rw [strcspn_append htok]
    simp [strcspn_zero]
  have he : (pre ++ (ds ++ (c :: tl ++ 0 :: rest))).getD
      (pre.length + ds.length + (c :: tl).length) 0 = 0 := by
    rw [Nat.add_assoc, getD_at, getD_at]
    have := getD_at (c :: tl) (0 :: rest) 0
    simpa using this
  simp only [h0, hsp, hb, hd, hcs, he]
  simp [hc.1]

theorem strtok_r_more (delim pre ds tok rest : List Nat) (d : Nat) (str save : Option Nat)
    (hq : (str <|> save) = some pre.length)
    (hds : ∀ c ∈ ds, c ≠ 0 ∧ isDelim delim c = true)
    (htok : ∀ c ∈ tok, c ≠ 0 ∧ isDelim delim c = false) (hne : tok ≠ [])
    (hd0 : d ≠ 0) (hdd : isDelim delim d = true) :
    strtok_r (pre ++ (ds ++ (tok ++ d :: rest))) str delim save =
      (some (pre.length + ds.length), pre ++ (ds ++ (tok ++ 0 :: rest)),
        some (pre.length + ds.length + tok.length + 1)) := by
  unfold strtok_r
  rw [hq]
  have h0 := drop_at pre (ds ++ (tok ++ d :: rest)) 0
  simp only [Nat.add_zero, List.drop_zero] at h0
  obtain ⟨c, tl, rfl⟩ := List.exists_cons_of_ne_nil hne
  have hc := htok c (List.mem_cons_self _ _)
  have hsp : strspn delim (ds ++ (c :: tl ++ d :: rest)) = ds.length := by
    rw [strspn_append hds]
    simp [strspn_nondelim hc.2]
  have hb : (pre ++ (ds ++ (c :: tl ++ d :: rest))).getD (pre.length + ds.length) 0 = c := by
    rw [getD_at]
    have := getD_at ds (c :: tl ++ d :: rest) 0
    simpa using this
  have hd : (pre ++ (ds ++ (c :: tl ++ d :: rest))).drop (pre.length + ds.length)
      = c :: tl ++ d :: rest := by
    rw [drop_at]
    have := drop_at ds (c :: tl ++ d :: rest) 0
    simp
  have hcs : strcspn delim (c :: tl ++ d :: rest) = (c :: tl).length := by
    rw [strcspn_append htok]
    simp [strcspn_delim hdd]
  have he : (pre ++ (ds ++ (c :: tl ++ d :: rest))).getD
      (pre.length + ds.length + (c :: tl).length) 0 = d := by
    rw [Nat.add_assoc, getD_at, getD_at]
    have := getD_at (c :: tl) (d :: rest) 0
    simpa using this
  have hs : (pre ++ (ds ++ (c :: tl ++ d :: rest))).set
      (pre.length + ds.length + (c :: tl).length) 0 = pre ++ (ds ++ (c :: tl ++ 0 :: rest)) := by
    rw [Nat.add_assoc, set_at, set_at]
    have := set_at (c :: tl) (d :: rest) 0 0
    simp only [Nat.add_zero] at this
    rw [this]
    simp
  simp only [h0, hsp, hb, hd, hcs, he, hs]
  simp [hc.1, hd0]

theorem tokens_eq {delim w : List Nat} (hw : 0 ∉ w) :
    tokens delim w = (w.splitOnP (isDelim delim)).filter (fun t => !t.isEmpty) := by
  simp [tokens, cstr_of_not_mem hw]

theorem tokens_nil (delim : List Nat) : tokens delim [] = [] := by
  simp [tokens, cstr, List.splitOnP_nil]

theorem tokens_delims_append {delim ds : List Nat}
    (hds : ∀ c ∈ ds, c ≠ 0 ∧ isDelim delim c = true) {w : List Nat} (hw : 0 ∉ w) :
    tokens delim (ds ++ w) = tokens delim w := by
  induction ds with
  | nil => rfl
  | cons c ds ih =>
    have hc := hds c (List.mem_cons_self _ _)
    have hds2 : ∀ x ∈ ds, x ≠ 0 ∧ isDelim delim x = true :=
      fun x hx => hds x (List.mem_cons_of_mem _ hx)
    have h0 : 0 ∉ ds ++ w := by
      intro h
      rcases List.mem_append.1 h with h | h
      · exact (hds2 0 h).1 rfl
      · exact hw h
    have h1 : 0 ∉ c :: (ds ++ w) := by
      intro h
      rcases List.mem_cons.1 h with h | h
      · exact hc.1 h.symm
      · exact h0 h
    rw [← ih hds2, List.cons_append, tokens_eq h1, tokens_eq h0, List.splitOnP_cons]
    simp [hc.2]

theorem tokens_single {delim tok : List Nat}
    (htok : ∀ c ∈ tok, c ≠ 0 ∧ isDelim delim c = false) (hne : tok ≠ []) :
    tokens delim tok = [tok] := by
  have h0 : 0 ∉ tok := fun h => (htok 0 h).1 rfl
  rw [tokens_eq h0, List.splitOnP_eq_single]
  · cases tok with
    | nil => exact absurd rfl hne
    | cons c tl => simp
  · intro x hx
    simp [(htok x hx).2]

theorem tokens_cons_token {delim tok : List Nat}
    (htok : ∀ c ∈ tok, c ≠ 0 ∧ isDelim delim c = false) (hne : tok ≠ [])
    {d : Nat} (hd0 : d ≠ 0) (hdd : isDelim delim d = true) {w : List Nat} (hw : 0 ∉ w) :
    tokens delim (tok ++ d :: w) = tok :: tokens delim w := by
  have h0 : 0 ∉ tok ++ d :: w := by
    intro h
    rcases List.mem_append.1 h with h | h
    · exact (htok 0 h).1 rfl
    · rcases List.mem_cons.1 h with h | h
      · exact hd0 h.symm
      · exact hw h
  rw [tokens_eq h0, tokens_eq hw, List.splitOnP_first]
  · cases tok with
    | nil => exact absurd rfl hne
    | cons c tl => simp
  · intro x hx
    simp [(htok x hx).2]
  · exact hdd

theorem mem_of_mem_takeWhile {p : Nat → Bool} {l : List Nat} {x : Nat}
    (hx : x ∈ l.takeWhile p) : x ∈ l :=
  (List.takeWhile_sublist p).subset hx

theorem mem_of_mem_dropWhile {p : Nat → Bool} {l : List Nat} {x : Nat}
    (hx : x ∈ l.dropWhile p) : x ∈ l :=
  (List.dropWhile_sublist p).subset hx

/-- Shape of a NUL-free line: only delimiters, delimiters and a last token, or
delimiters, a token, one delimiter and a remainder. -/
theorem line_cases (delim w : List Nat) (hw : 0 ∉ w) :
    (∀ c ∈ w, c ≠ 0 ∧ isDelim delim c = true) ∨
    (∃ ds tok, w = ds ++ tok ∧ (∀ c ∈ ds, c ≠ 0 ∧ isDelim delim c = true) ∧
      (∀ c ∈ tok, c ≠ 0 ∧ isDelim delim c = false) ∧ tok ≠ []) ∨
    (∃ ds tok d w3, w = ds ++ (tok ++ d :: w3) ∧ (∀ c ∈ ds, c ≠ 0 ∧ isDelim delim c = true) ∧
      (∀ c ∈ tok, c ≠ 0 ∧ isDelim delim c = false) ∧ tok ≠ [] ∧ d ≠ 0 ∧
      isDelim delim d = true ∧ 0 ∉ w3) := by
  have hne : ∀ c ∈ w, c ≠ 0 := fun c hc h => hw (h ▸ hc)
  have hsplit := List.takeWhile_append_dropWhile (isDelim delim) w
  have hds : ∀ c ∈ w.takeWhile (isDelim delim), c ≠ 0 ∧ isDelim delim c = true :=
    fun c hc => ⟨hne c (mem_of_mem_takeWhile hc), List.mem_takeWhile_imp hc⟩
  cases h1 : w.dropWhile (isDelim delim) with
  | nil =>
    left
    intro c hc
    exact ⟨hne c hc, List.dropWhile_eq_nil_iff.1 h1 c hc⟩
  | cons a w1 =>
    right
    have ha : isDelim delim a = false := by
      have := List.head?_dropWhile_not (isDelim delim) w
      rw [h1] at this
      simpa using this
    have hw1 : ∀ c ∈ a :: w1, c ≠ 0 := fun c hc => hne c (mem_of_mem_dropWhile (h1 ▸ hc))
    have hsplit2 := List.takeWhile_append_dropWhile (fun c => !isDelim delim c) (a :: w1)
    have htok : ∀ c ∈ (a :: w1).takeWhile (fun c => !isDelim delim c),
        c ≠ 0 ∧ isDelim delim c = false := by
      intro c hc
      refine ⟨hw1 c (mem_of_mem_takeWhile hc), ?_⟩
      have := List.mem_takeWhile_imp hc
      simpa using this
    have htne : (a :: w1).takeWhile (fun c => !isDelim delim c) ≠ [] := by
      simp [List.takeWhile_cons, ha]
    cases h2 : (a :: w1).dropWhile (fun c => !isDelim delim c) with
    | nil =>
      left
      refine ⟨_, _, ?_, hds, htok, htne⟩
      rw [h2, List.append_nil] at hsplit2
      rw [hsplit2, ← h1, hsplit]
    | cons d w3 =>
      right
      have hd : isDelim delim d = true := by
        have := List.head?_dropWhile_not (fun c => !isDelim delim c) (a :: w1)
        rw [h2] at this
        simpa using this
      have hmem : ∀ c ∈ d :: w3, c ∈ a :: w1 := fun c hc => mem_of_mem_dropWhile (h2 ▸ hc)
      refine ⟨_, _, d, w3, ?_, hds, htok, htne, hw1 d (hmem d (List.mem_cons_self _ _)), hd, ?_⟩
      · rw [h2] at hsplit2
        rw [hsplit2, ← h1, hsplit]
      · intro h
        exact hw1 0 (hmem 0 (List.mem_cons_of_mem _ h)) rfl


/-- One `strtok_r` call on a cursor at the line `w`: it returns the first token
of `w` (`NULL` when `w` has none) and leaves the cursor at a line holding the
remaining tokens. -/
theorem strtok_r_step (delim : List Nat) {buf w : List Nat} {q : Nat} (h : TokState buf q w)
    (str save : Option Nat) (hq : (str <|> save) = some q) :
    ∃ p buf1 q1 w1, strtok_r buf str delim save = (p, buf1, some q1) ∧
      TokState buf1 q1 w1 ∧ buf1.length = buf.length ∧
      p.map (fun b => cstr (buf1.drop b)) = (tokens delim w).head? ∧
      tokens delim w1 = (tokens delim w).tail := by
  obtain ⟨pre, rest, rfl, rfl, hw⟩ := h
  rcases line_cases delim w hw with hds | ⟨ds, tok, rfl, hds, htok, hne⟩ |
      ⟨ds, tok, d, w3, rfl, hds, htok, hne, hd0, hdd, hw3⟩
  · refine ⟨none, _, _, [], strtok_r_none delim pre w rest str save hq hds,
      ⟨pre ++ w, rest, by simp, by simp, by simp⟩, rfl, ?_, ?_⟩
    · have := tokens_delims_append hds (w := []) (by simp)
      rw [List.append_nil] at this
      rw [this, tokens_nil]; rfl
    · have := tokens_delims_append hds (w := []) (by simp)
      rw [List.append_nil] at this
      rw [this, tokens_nil]; rfl
  · have htk : tokens delim (ds ++ tok) = [tok] := by
      rw [tokens_delims_append hds (fun h => (htok 0 h).1 rfl), tokens_single htok hne]
    have hst := strtok_r_last delim pre ds tok rest str save hq hds htok hne
    rw [List.append_assoc]
    refine ⟨_, _, _, [], hst, ⟨pre ++ (ds ++ tok), rest, by simp, by simp [Nat.add_assoc], by simp⟩,
      rfl, ?_, ?_⟩
    · rw [htk]
      simp only [Option.map_some', List.head?_cons]
      rw [drop_at]
      have := drop_at ds (tok ++ 0 :: rest) 0
      simp only [Nat.add_zero, List.drop_zero] at this
      rw [this, cstr_append_zero (fun h => (htok 0 h).1 rfl)]
    · rw [htk, tokens_nil]; rfl
  · have h0 : 0 ∉ tok ++ d :: w3 := by
      intro h
      rcases List.mem_append.1 h with h | h
      · exact (htok 0 h).1 rfl
      · rcases List.mem_cons.1 h with h | h
        · exact hd0 h.symm
        · exact hw3 h
    have htk : tokens delim (ds ++ (tok ++ d :: w3)) = tok :: tokens delim w3 := by
      rw [tokens_delims_append hds h0, tokens_cons_token htok hne hd0 hdd hw3]
    have hst := strtok_r_more delim pre ds tok (w3 ++ 0 :: rest) d str save hq hds htok hne hd0 hdd
    have e1 : pre ++ ((ds ++ (tok ++ d :: w3)) ++ 0 :: rest)
        = pre ++ (ds ++ (tok ++ d :: (w3 ++ 0 :: rest))) := by simp
    rw [e1]
    refine ⟨_, _, _, w3, hst, ⟨pre ++ (ds ++ (tok ++ [0])), rest, by simp,
      by simp [Nat.add_assoc], hw3⟩, by simp, ?_, ?_⟩
    · rw [htk]
      simp only [Option.map_some', List.head?_cons]
      rw [drop_at]
      have := drop_at ds (tok ++ 0 :: (w3 ++ 0 :: rest)) 0
      simp only [Nat.add_zero, List.drop_zero] at this
      rw [this, cstr_append_zero (fun h => (htok 0 h).1 rfl)]
    · rw [htk]; rfl

/-! ## Dispatch: command lookup and token iteration -/

theorem cstr_cons_zero (mem : List Nat) : cstr (0 :: mem) = [] := by simp [cstr]

theorem cstr_cons_ne {c : Nat} (hc : c ≠ 0) (mem : List Nat) : cstr (c :: mem) = c :: cstr mem := by
  simp [cstr, List.takeWhile_cons, hc]

/-- `strncmp` over `strlen(name) + 1` bytes is equality of the two C strings. -/
theorem strncmp_eq_iff (name mem : List Nat) :
    strncmp_eq mem name (strlen name + 1) = true ↔ cstr mem = cstr name := by
  induction name generalizing mem with
  | nil =>
    cases mem with
    | nil => simp [strncmp_eq, strlen, cstr]
    | cons m mtl =>
      by_cases hm : m = 0
      · subst hm; simp [strncmp_eq, strlen, cstr]
      · simp [strncmp_eq, strlen, cstr, hm]
  | cons c tl ih =>
    by_cases hc : c = 0
    · subst hc
      cases mem with
      | nil => simp [strncmp_eq, strlen, cstr]
      | cons m mtl =>
        by_cases hm : m = 0
        · subst hm; simp [strncmp_eq, strlen, cstr]
        · simp [strncmp_eq, strlen, cstr, hm]
    · have hlen : strlen (c :: tl) + 1 = (strlen tl + 1) + 1 := by
        simp [strlen, cstr_cons_ne hc]
      rw [hlen]
      cases mem with
      | nil =>
        simp [strncmp_eq, cstr_cons_ne hc, cstr_nil, Ne.symm hc]
      | cons m mtl =>
        by_cases hm : m = c
        · subst hm
          have := ih mtl
          simp only [strncmp_eq, List.headD_cons, bne_self_eq_false, Bool.false_eq_true,
            if_false, hc, List.tail_cons, cstr_cons_ne hc, List.cons.injEq, true_and]
          exact this
        · by_cases hm0 : m = 0
          · subst hm0
            simp [strncmp_eq, cstr_cons_ne hc, cstr_cons_zero, hm]
          · simp [strncmp_eq, cstr_cons_ne hc, cstr_cons_ne hm0, hm]

namespace SerialCommands

theorem matchCommand_of_first (mem : List Nat) (cmds : List SerialCommand) (k i : Nat)
    (cmd : SerialCommand) (hi : cmds[i]? = some cmd) (hname : cstr cmd.command = cstr mem)
    (hfirst : ∀ j, j < i → ∀ c, cmds[j]? = some c → cstr c.command ≠ cstr mem) :
    matchCommand mem cmds k = some (k + i, cmd) := by
  induction cmds generalizing k i with
  | nil => simp at hi
  | cons c0 rest ih =>
    cases i with
    | zero =>
      simp only [List.getElem?_cons_zero, Option.some.injEq] at hi
      subst hi
      simp [matchCommand, (strncmp_eq_iff _ _).2 hname.symm]
    | succ i =>
      have h0 : cstr c0.command ≠ cstr mem := hfirst 0 (Nat.succ_pos _) c0 (by simp)
      have hn : strncmp_eq mem c0.command (strlen c0.command + 1) = false := by
        cases h : strncmp_eq mem c0.command (strlen c0.command + 1) with
        | false => rfl
        | true => exact absurd ((strncmp_eq_iff _ _).1 h).symm h0
      simp only [List.getElem?_cons_succ] at hi
      have := ih (k + 1) i hi (fun j hj c hc => hfirst (j + 1) (Nat.succ_lt_succ hj) c (by simpa using hc))
      simp only [matchCommand, hn, Bool.false_eq_true, if_false, this]
      congr 2
      omega

theorem matchCommand_none (mem : List Nat) (cmds : List SerialCommand) (k : Nat)
    (hno : ∀ c ∈ cmds, cstr c.command ≠ cstr mem) : matchCommand mem cmds k = none := by
  induction cmds generalizing k with
  | nil => rfl
  | cons c0 rest ih =>
    have h0 : cstr c0.command ≠ cstr mem := hno c0 (List.mem_cons_self _ _)
    have hn : strncmp_eq mem c0.command (strlen c0.command + 1) = false := by
      cases h : strncmp_eq mem c0.command (strlen c0.command + 1) with
      | false => rfl
      | true => exact absurd ((strncmp_eq_iff _ _).1 h).symm h0
    simp only [matchCommand, hn, Bool.false_eq_true, if_false]
    exact ih (k + 1) (fun c hc => hno c (List.mem_cons_of_mem _ hc))

theorem matchCommand_some_spec (mem : List Nat) (cmds : List SerialCommand) (k cx : Nat)
    (cmd : SerialCommand) (h : matchCommand mem cmds k = some (cx, cmd)) :
    ∃ i, cx = k + i ∧ cmds[i]? = some cmd ∧ cstr cmd.command = cstr mem ∧
      ∀ j, j < i → ∀ c, cmds[j]? = some c → cstr c.command ≠ cstr mem := by
  induction cmds generalizing k with
  | nil => simp [matchCommand] at h
  | cons c0 rest ih =>
    by_cases hc : strncmp_eq mem c0.command (strlen c0.command + 1) = true
    · simp only [matchCommand, hc, if_true, Option.some.injEq, Prod.mk.injEq] at h
      obtain ⟨rfl, rfl⟩ := h
      exact ⟨0, rfl, by simp, ((strncmp_eq_iff _ _).1 hc).symm, fun j hj => absurd hj (Nat.not_lt_zero _)⟩
    · simp only [matchCommand, hc, if_false] at h
      obtain ⟨i, hcx, hi, hname, hfirst⟩ := ih (k + 1) h
      refine ⟨i + 1, by omega, by simpa using hi, hname, ?_⟩
      intro j hj c hcj
      cases j with
      | zero =>
        simp only [List.getElem?_cons_zero, Option.some.injEq] at hcj
        subst hcj
        intro he
        exact hc ((strncmp_eq_iff _ _).2 he.symm)
      | succ j =>
        exact hfirst j (Nat.lt_of_succ_lt_succ hj) c (by simpa using hcj)

theorem runHandler_cons (d : Nat) (a : Action) (h : Handler) (s : SerialCommands) :
    runHandler (d + 1) (a :: h) s = runHandler (d + 1) h (execAction (runHandler d) s a) := rfl

theorem runHandler_nil (d : Nat) (s : SerialCommands) : runHandler (d + 1) [] s = s := rfl

theorem runHandler_append (d : Nat) (h1 h2 : Handler) (s : SerialCommands) :
    runHandler (d + 1) (h1 ++ h2) s = runHandler (d + 1) h2 (runHandler (d + 1) h1 s) := by
  simp [runHandler, List.foldl_append]

/-- A `Next()` call made with the cursor at the line `w`. -/
theorem execAction_Next (run : Handler → SerialCommands → SerialCommands) (s : SerialCommands)
    {q : Nat} {w : List Nat} (hq : s.last_token_ = some q) (ht : TokState s.buffer_ q w) :
    ∃ buf1 q1 w1, execAction run s Action.Next =
        { s with buffer_ := buf1, last_token_ := some q1,
                 trace := s.trace ++ [Event.next (tokens s.delim_ w).head?] } ∧
      TokState buf1 q1 w1 ∧ buf1.length = s.buffer_.length ∧
      tokens s.delim_ w1 = (tokens s.delim_ w).tail := by
  obtain ⟨p, buf1, q1, w1, hst, ht1, hlen, hp, htl⟩ :=
    strtok_r_step s.delim_ ht none s.last_token_ (by simp [hq])
  refine ⟨buf1, q1, w1, ?_, ht1, hlen, htl⟩
  simp only [execAction, Next, hst, strAt, hp]

/-- A handler that only calls `Next()` `k` times, started with the cursor at
the line `w`, reads the first `k` entries of `tokens w` (`NULL` past the end). -/
theorem runHandler_nexts (d k : Nat) (s : SerialCommands) {q : Nat} {w : List Nat}
    (hq : s.last_token_ = some q) (ht : TokState s.buffer_ q w) :
    ∃ buf1 q1, runHandler (d + 1) (List.replicate k Action.Next) s =
        { s with buffer_ := buf1, last_token_ := some q1,
                 trace := s.trace ++
                   (List.range k).map (fun i => Event.next ((tokens s.delim_ w)[i]?)) } ∧
      buf1.length = s.buffer_.length := by
  induction k generalizing s q w with
  | zero =>
    refine ⟨s.buffer_, q, ?_, rfl⟩
    rw [List.replicate_zero, runHandler_nil]
    cases s
    simp only at hq
    subst hq
    simp
  | succ k ih =>
    obtain ⟨buf1, q1, w1, hex, ht1, hlen, htl⟩ := execAction_Next (runHandler d) s hq ht
    rw [List.replicate_succ, runHandler_cons, hex]
    obtain ⟨buf2, q2, hrun, hlen2⟩ := ih
      { s with buffer_ := buf1, last_token_ := some q1,
               trace := s.trace ++ [Event.next (tokens s.delim_ w).head?] } (q := q1) (w := w1) rfl ht1
    refine ⟨buf2, q2, ?_, by simpa [hlen] using hlen2⟩
    rw [hrun]
    simp only [htl, List.append_assoc, List.singleton_append]
    congr 2
    rw [List.range_succ_eq_map, List.map_cons, List.map_map]
    congr 1
    · cases tokens s.delim_ w <;> simp
    · apply List.map_congr_left
      intro i _
      cases tokens s.delim_ w <;> simp

/-- `ProcessBuffer` on a line without tokens: nothing is called. -/
theorem ProcessBuffer_no_token (run : Handler → SerialCommands → SerialCommands)
    (s : SerialCommands) {w : List Nat} (ht : TokState s.buffer_ 0 w)
    (hw : tokens s.delim_ w = []) :
    ∃ buf1 q1, ProcessBuffer run s =
        ClearBuffer { s with buffer_ := buf1, last_token_ := some q1 } ∧
      buf1.length = s.buffer_.length := by
  obtain ⟨p, buf1, q1, w1, hst, _, hlen, hp, _⟩ :=
    strtok_r_step s.delim_ ht (some 0) s.last_token_ (by simp)
  rw [hw] at hp
  cases p with
  | some b => simp at hp
  | none =>
    refine ⟨buf1, q1, ?_, hlen⟩
    simp only [ProcessBuffer, hst]

/-- `ProcessBuffer` on a line whose first token is the name of a registered
command: the handler of the first such descriptor is called, with the cursor
at the rest of the line. -/
theorem ProcessBuffer_match (run : Handler → SerialCommands → SerialCommands)
    (s : SerialCommands) {w t1 : List Nat} {ts : List (List Nat)}
    (ht : TokState s.buffer_ 0 w) (hw : tokens s.delim_ w = t1 :: ts)
    {cx : Nat} {cmd : SerialCommand} (hi : s.commands_[cx]? = some cmd)
    (hname : cstr cmd.command = t1)
    (hfirst : ∀ j, j < cx → ∀ c, s.commands_[j]? = some c → cstr c.command ≠ t1) :
    ∃ buf1 q1 w1, ProcessBuffer run s =
        ClearBuffer (run cmd.function { s with buffer_ := buf1, last_token_ := some q1,
                                               trace := s.trace ++ [Event.command cx] }) ∧
      TokState buf1 q1 w1 ∧ tokens s.delim_ w1 = ts ∧ buf1.length = s.buffer_.length := by
  obtain ⟨p, buf1, q1, w1, hst, ht1, hlen, hp, htl⟩ :=
    strtok_r_step s.delim_ ht (some 0) s.last_token_ (by simp)
  rw [hw] at hp htl
  cases p with
  | none => simp at hp
  | some b =>
    simp only [Option.map_some', List.head?_cons, Option.some.injEq] at hp
    have hm := matchCommand_of_first (buf1.drop b) s.commands_ 0 cx cmd hi (hname.trans hp.symm)
      (fun j hj c hc => by rw [hp]; exact hfirst j hj c hc)
    rw [Nat.zero_add] at hm
    refine ⟨buf1, q1, w1, ?_, ht1, htl, hlen⟩
    simp only [ProcessBuffer, hst, hm]

/-- `ProcessBuffer` on a line whose first token is no registered name, with a
default handler: the default handler is called with that token. -/
theorem ProcessBuffer_default (run : Handler → SerialCommands → SerialCommands)
    (s : SerialCommands) {w t1 : List Nat} {ts : List (List Nat)}
    (ht : TokState s.buffer_ 0 w) (hw : tokens s.delim_ w = t1 :: ts)
    (hno : ∀ c ∈ s.commands_, cstr c.command ≠ t1)
    {h : Handler} (hd : s.default_handler_ = some h) :
    ∃ buf1 q1 w1, ProcessBuffer run s =
        ClearBuffer (run h { s with buffer_ := buf1, last_token_ := some q1,
                                    trace := s.trace ++ [Event.default_handler (some t1)] }) ∧
      TokState buf1 q1 w1 ∧ tokens s.delim_ w1 = ts ∧ buf1.length = s.buffer_.length := by
  obtain ⟨p, buf1, q1, w1, hst, ht1, hlen, hp, htl⟩ :=
    strtok_r_step s.delim_ ht (some 0) s.last_token_ (by simp)
  rw [hw] at hp htl
  cases p with
  | none => simp at hp
  | some b =>
    simp only [Option.map_some', List.head?_cons, Option.some.injEq] at hp
    have hm := matchCommand_none (buf1.drop b) s.commands_ 0
      (fun c hc => by rw [hp]; exact hno c hc)
    refine ⟨buf1, q1, w1, ?_, ht1, htl, hlen⟩
    simp only [ProcessBuffer, hst, hm, hd, strAt, Option.map_some', hp]

/-- `ProcessBuffer` on a line whose first token is no registered name, without
a default handler: nothing is called. -/
theorem ProcessBuffer_unmatched (run : Handler → SerialCommands → SerialCommands)
    (s : SerialCommands) {w t1 : List Nat} {ts : List (List Nat)}
    (ht : TokState s.buffer_ 0 w) (hw : tokens s.delim_ w = t1 :: ts)
    (hno : ∀ c ∈ s.commands_, cstr c.command ≠ t1)
    (hd : s.default_handler_ = none) :
    ∃ buf1 q1, ProcessBuffer run s =
        ClearBuffer { s with buffer_ := buf1, last_token_ := some q1 } ∧
      buf1.length = s.buffer_.length := by
  obtain ⟨p, buf1, q1, w1, hst, ht1, hlen, hp, htl⟩ :=
    strtok_r_step s.delim_ ht (some 0) s.last_token_ (by simp)
  rw [hw] at hp htl
  cases p with
  | none => simp at hp
  | some b =>
    simp only [Option.map_some', List.head?_cons, Option.some.injEq] at hp
    have hm := matchCommand_none (buf1.drop b) s.commands_ 0
      (fun c hc => by rw [hp]; exact hno c hc)
    refine ⟨buf1, q1, ?_, hlen⟩
    simp only [ProcessBuffer, hst, hm, hd]

end SerialCommands

/-! ## The scanner: one byte, several bytes -/

namespace SerialCommands

theorem byte_cast {b : Nat} (hb : b ≤ 255) : (((b : Int) % 256).toNat) = b := by
  omega

theorem byte_pos {b : Nat} (hb0 : 0 < b) : ¬ ((b : Int) ≤ 0) := by
  omega

theorem getD_set_zero (buf : List Nat) (b : Nat) (h : 0 < buf.length) :
    (buf.set 0 b).getD 0 0 = b := by
  cases buf with
  | nil => simp at h
  | cons a tl => simp

/-- The body for a byte that does not fit: `BUFFER_FULL`, buffer cleared. -/
theorem ReadSerialBody_full (s : SerialCommands) (b : Nat) (hb0 : 0 < b)
    (hfull : ¬ s.buffer_pos_ < s.buffer_len_) :
    ReadSerialBody s b =
      (some SERIAL_COMMANDS_ERRORS.SERIAL_COMMANDS_ERROR_BUFFER_FULL, ClearBuffer s) := by
  simp only [ReadSerialBody, byte_pos hb0, if_false, hfull]

/-- The body for a first byte that is a one-key command. -/
theorem ReadSerialBody_hotkey (s : SerialCommands) (b : Nat) (hb0 : 0 < b) (hb : b ≤ 255)
    (hpos : s.buffer_pos_ = 0) (hlen : 0 < s.buffer_len_) (hbuf : 0 < s.buffer_.length)
    {cx : Nat} {cmd : SerialCommand} (hm : matchOneKey b s.onek_cmds_ 0 = some (cx, cmd)) :
    ReadSerialBody s b =
      (some SERIAL_COMMANDS_ERRORS.SERIAL_COMMANDS_SUCCESS,
        ClearBuffer (runHandler 2 cmd.function
          { s with buffer_ := s.buffer_.set 0 b, buffer_pos_ := 1,
                   trace := s.trace ++ [Event.one_key cx] })) := by
  have hlt : s.buffer_pos_ < s.buffer_len_ := by omega
  simp only [ReadSerialBody, byte_pos hb0, if_false, hlt, if_true, byte_cast hb, hpos,
    Nat.zero_add, CheckOneKeyCmd, getD_set_zero _ _ hbuf, hm, hlen]

/-- The body for a stored byte that is no one-key command and does not
continue the terminator. -/
theorem ReadSerialBody_plain (s : SerialCommands) (b : Nat) (hb0 : 0 < b) (hb : b ≤ 255)
    (hlt : s.buffer_pos_ < s.buffer_len_) (hbuf : 0 < s.buffer_.length)
    (hkey : s.buffer_pos_ = 0 → matchOneKey b s.onek_cmds_ 0 = none)
    (hterm : charToInt s.char_signed (termByte s.term_ s.term_pos_) ≠ (b : Int)) :
    ReadSerialBody s b =
      (none, { s with buffer_ := s.buffer_.set s.buffer_pos_ b,
                      buffer_pos_ := s.buffer_pos_ + 1, term_pos_ := 0 }) := by
  by_cases hp : s.buffer_pos_ = 0
  · have hl0 : 0 < s.buffer_len_ := by omega
    simp only [hl0, ReadSerialBody, byte_pos hb0, if_false, hlt, if_true, byte_cast hb, hp,
      Nat.zero_add, CheckOneKeyCmd, getD_set_zero _ _ hbuf, hkey hp, termAt]
    simp [hterm]
  · have h1 : ¬ (s.buffer_pos_ + 1 = 1) := by omega
    simp only [ReadSerialBody, byte_pos hb0, if_false, hlt, if_true, byte_cast hb, h1, termAt]
    simp [hterm]

/-- The body for a stored byte that continues the terminator without
completing it. -/
theorem ReadSerialBody_advance (s : SerialCommands) (b : Nat) (hb0 : 0 < b) (hb : b ≤ 255)
    (hlt : s.buffer_pos_ < s.buffer_len_) (hbuf : 0 < s.buffer_.length)
    (hkey : s.buffer_pos_ = 0 → matchOneKey b s.onek_cmds_ 0 = none)
    (hterm : charToInt s.char_signed (termByte s.term_ s.term_pos_) = (b : Int))
    (hnz : termByte s.term_ (int8 (s.term_pos_ + 1)) ≠ 0) :
    ReadSerialBody s b =
      (none, { s with buffer_ := s.buffer_.set s.buffer_pos_ b,
                      buffer_pos_ := s.buffer_pos_ + 1,
                      term_pos_ := int8 (s.term_pos_ + 1) }) := by
  by_cases hp : s.buffer_pos_ = 0
  · have hl0 : 0 < s.buffer_len_ := by omega
    simp only [hl0, ReadSerialBody, byte_pos hb0, if_false, hlt, if_true, byte_cast hb, hp,
      Nat.zero_add, CheckOneKeyCmd, getD_set_zero _ _ hbuf, hkey hp, termAt]
    simp [hterm, hnz]
  · have h1 : ¬ (s.buffer_pos_ + 1 = 1) := by omega
    simp only [ReadSerialBody, byte_pos hb0, if_false, hlt, if_true, byte_cast hb, h1, termAt]
    simp [hterm, hnz]

/-- The body for a stored byte that completes the terminator: the terminator
is cut off and the line dispatched. -/
theorem ReadSerialBody_complete (s : SerialCommands) (b : Nat) (hb0 : 0 < b) (hb : b ≤ 255)
    (hlt : s.buffer_pos_ < s.buffer_len_) (hbuf : 0 < s.buffer_.length)
    (hkey : s.buffer_pos_ = 0 → matchOneKey b s.onek_cmds_ 0 = none)
    (hterm : charToInt s.char_signed (termByte s.term_ s.term_pos_) = (b : Int))
    (hz : termByte s.term_ (int8 (s.term_pos_ + 1)) = 0) :
    ReadSerialBody s b =
      (none, ProcessBuffer (runHandler 2)
        { s with buffer_ := (s.buffer_.set s.buffer_pos_ b).set
                              (s.buffer_pos_ + 1 - strlen s.term_) 0,
                 buffer_pos_ := s.buffer_pos_ + 1,
                 term_pos_ := int8 (s.term_pos_ + 1) }) := by
  by_cases hp : s.buffer_pos_ = 0
  · have hl0 : 0 < s.buffer_len_ := by omega
    simp only [hl0, ReadSerialBody, byte_pos hb0, if_false, hlt, if_true, byte_cast hb, hp,
      Nat.zero_add, CheckOneKeyCmd, getD_set_zero _ _ hbuf, hkey hp, termAt]
    simp [hterm, hz]
  · have h1 : ¬ (s.buffer_pos_ + 1 = 1) := by omega
    simp only [ReadSerialBody, byte_pos hb0, if_false, hlt, if_true, byte_cast hb, h1, termAt]
    simp [hterm, hz]

theorem termScan_single (sg : Bool) (term : List Nat) (tp : Int) (b : Nat) :
    termScan sg term tp [b] =
      if charToInt sg (termByte term tp) ≠ (b : Int) then some 0
      else if termByte term (int8 (tp + 1)) = 0 then none else some (int8 (tp + 1)) := by
  simp only [termScan]

theorem termScan_cons_eq (sg : Bool) (term : List Nat) (tp : Int) (b : Nat) (bs : List Nat) :
    termScan sg term tp (b :: bs) =
      (termScan sg term tp [b]).bind (fun tp1 => termScan sg term tp1 bs) := by
  rw [termScan_single]
  conv_lhs => unfold termScan
  split_ifs <;> rfl

theorem termScan_cons {sg : Bool} {term : List Nat} {tp tp2 : Int} {b : Nat} {bs : List Nat}
    (h : termScan sg term tp (b :: bs) = some tp2) :
    ∃ tp1, termScan sg term tp [b] = some tp1 ∧ termScan sg term tp1 bs = some tp2 := by
  rw [termScan_cons_eq] at h
  cases h1 : termScan sg term tp [b] with
  | none => simp [h1] at h
  | some tp1 => exact ⟨tp1, rfl, by simpa [h1] using h⟩

/-- The body for a stored byte that is no one-key command and does not
complete the terminator. -/
theorem ReadSerialBody_scan (s : SerialCommands) (b : Nat) (tp1 : Int)
    (hb0 : 0 < b) (hb : b ≤ 255)
    (hlt : s.buffer_pos_ < s.buffer_len_) (hbuf : 0 < s.buffer_.length)
    (hkey : s.buffer_pos_ = 0 → matchOneKey b s.onek_cmds_ 0 = none)
    (hscan : termScan s.char_signed s.term_ s.term_pos_ [b] = some tp1) :
    ReadSerialBody s b =
      (none, { s with buffer_ := s.buffer_.set s.buffer_pos_ b,
                      buffer_pos_ := s.buffer_pos_ + 1, term_pos_ := tp1 }) := by
  rw [termScan_single] at hscan
  by_cases h1 : charToInt s.char_signed (termByte s.term_ s.term_pos_) ≠ (b : Int)
  · rw [if_pos h1, Option.some.injEq] at hscan
    rw [ReadSerialBody_plain s b hb0 hb hlt hbuf hkey h1, hscan]
  · rw [if_neg h1] at hscan
    by_cases h2 : termByte s.term_ (int8 (s.term_pos_ + 1)) = 0
    · rw [if_pos h2] at hscan
      exact absurd hscan (by simp)
    · rw [if_neg h2, Option.some.injEq] at hscan
      rw [ReadSerialBody_advance s b hb0 hb hlt hbuf hkey (not_not.1 h1) h2, hscan]

theorem storeAt_length (bytes : List Nat) (buf : List Nat) (pos : Nat) :
    (storeAt buf pos bytes).length = buf.length := by
  induction bytes generalizing buf pos with
  | nil => rfl
  | cons b bs ih => simp [storeAt, ih]

/-- One `ReadSerial` call over bytes none of which is a one-key command or
completes the terminator: they are stored. -/
theorem ReadSerialLoop_scan (bs : List Nat) (b : Nat) (s : SerialCommands) (rest : List Int)
    (tp : Int) (hb : ∀ x ∈ b :: bs, 0 < x ∧ x ≤ 255)
    (hfit : s.buffer_pos_ + (bs.length + 1) ≤ s.buffer_len_) (hbuf : 0 < s.buffer_.length)
    (hkey : s.buffer_pos_ = 0 → matchOneKey b s.onek_cmds_ 0 = none)
    (hscan : termScan s.char_signed s.term_ s.term_pos_ (b :: bs) = some tp) :
    ReadSerialLoop s (toStream (b :: bs) ++ rest) =
      ReadSerialLoop { s with serial_ := some rest,
                              buffer_ := storeAt s.buffer_ s.buffer_pos_ (b :: bs),
                              buffer_pos_ := s.buffer_pos_ + (bs.length + 1),
                              term_pos_ := tp } rest := by
  induction bs generalizing b s with
  | nil =>
    have hbb := hb b (List.mem_cons_self _ _)
    have := ReadSerialBody_scan { s with serial_ := some rest } b tp hbb.1 hbb.2
      (by simpa using hfit) hbuf hkey hscan
    have e : toStream [b] ++ rest = (b : Int) :: rest := rfl
    rw [e, ReadSerialLoop, this]
    simp only [storeAt, List.length_nil, Nat.zero_add]
  | cons b2 bs ih =>
    have hbb := hb b (List.mem_cons_self _ _)
    obtain ⟨tp1, hs1, hs2⟩ := termScan_cons hscan
    have hlt : s.buffer_pos_ < s.buffer_len_ := by simp only [List.length_cons] at hfit; omega
    have := ReadSerialBody_scan { s with serial_ := some (toStream (b2 :: bs) ++ rest) } b tp1
      hbb.1 hbb.2 hlt hbuf hkey hs1
    have e : toStream (b :: b2 :: bs) ++ rest = (b : Int) :: (toStream (b2 :: bs) ++ rest) := rfl
    rw [e, ReadSerialLoop, this]
    simp only
    rw [ih b2 _ (fun x hx => hb x (List.mem_cons_of_mem _ hx))
      (by simp only [List.length_cons] at hfit ⊢; omega) (by simpa using hbuf)
      (by intro h; simp at h) hs2]
    simp only [storeAt, List.length_cons]
    congr 2
    omega

theorem feed_eq (s : SerialCommands) (bytes : List Int) (hser : s.serial_.getD [] = []) :
    feed s bytes = ReadSerialLoop { s with serial_ := some bytes } bytes := by
  simp [feed, ReadSerial, hser]

theorem feedEach_append (a b : List Int) (s : SerialCommands) :
    feedEach s (a ++ b) =
      ((feedEach s a).1 ++ (feedEach (feedEach s a).2 b).1, (feedEach (feedEach s a).2 b).2) := by
  induction a generalizing s with
  | nil => simp [feedEach]
  | cons x a ih => simp [feedEach, ih]

/-- One `ReadSerial` call on a stream holding bytes none of which is a one-key
command or completes the terminator. -/
theorem feed_scan (bs : List Nat) (b : Nat) (s : SerialCommands)
    (tp : Int) (hb : ∀ x ∈ b :: bs, 0 < x ∧ x ≤ 255)
    (hfit : s.buffer_pos_ + (bs.length + 1) ≤ s.buffer_len_) (hbuf : 0 < s.buffer_.length)
    (hkey : s.buffer_pos_ = 0 → matchOneKey b s.onek_cmds_ 0 = none)
    (hscan : termScan s.char_signed s.term_ s.term_pos_ (b :: bs) = some tp)
    (hser : s.serial_.getD [] = []) :
    feed s (toStream (b :: bs)) =
      (SERIAL_COMMANDS_ERRORS.SERIAL_COMMANDS_SUCCESS,
        { s with serial_ := some [],
                 buffer_ := storeAt s.buffer_ s.buffer_pos_ (b :: bs),
                 buffer_pos_ := s.buffer_pos_ + (bs.length + 1),
                 term_pos_ := tp }) := by
  rw [feed_eq s _ hser]
  have := ReadSerialLoop_scan bs b { s with serial_ := some (toStream (b :: bs)) } [] tp hb hfit
    hbuf hkey hscan
  rw [List.append_nil] at this
  rw [this]
  rfl

/-- The same bytes arriving one per `ReadSerial` call. -/
theorem feedEach_scan (bs : List Nat) (b : Nat) (s : SerialCommands)
    (tp : Int) (hb : ∀ x ∈ b :: bs, 0 < x ∧ x ≤ 255)
    (hfit : s.buffer_pos_ + (bs.length + 1) ≤ s.buffer_len_) (hbuf : 0 < s.buffer_.length)
    (hkey : s.buffer_pos_ = 0 → matchOneKey b s.onek_cmds_ 0 = none)
    (hscan : termScan s.char_signed s.term_ s.term_pos_ (b :: bs) = some tp)
    (hser : s.serial_.getD [] = []) :
    feedEach s (toStream (b :: bs)) =
      (List.replicate (bs.length + 1) SERIAL_COMMANDS_ERRORS.SERIAL_COMMANDS_SUCCESS,
        { s with serial_ := some [],
                 buffer_ := storeAt s.buffer_ s.buffer_pos_ (b :: bs),
                 buffer_pos_ := s.buffer_pos_ + (bs.length + 1),
                 term_pos_ := tp }) := by
  induction bs generalizing b s with
  | nil =>
    have h1 := feed_scan [] b s tp hb hfit hbuf hkey hscan hser
    have e : toStream [b] = [(b : Int)] := rfl
    rw [e] at h1 ⊢
    simp only [feedEach, h1, List.length_nil, Nat.zero_add, List.replicate_one]
  | cons b2 bs ih =>
    obtain ⟨tp1, hs1, hs2⟩ := termScan_cons hscan
    have hbb : ∀ x ∈ [b], 0 < x ∧ x ≤ 255 := fun x hx =>
      hb x (by simp only [List.mem_singleton] at hx; simp [hx])
    have h1 := feed_scan [] b s tp1 hbb
      (by simp only [List.length_cons] at hfit; simp only [List.length_nil]; omega) hbuf hkey hs1 hser
    have e1 : toStream [b] = [(b : Int)] := rfl
    have e : toStream (b :: b2 :: bs) = (b : Int) :: toStream (b2 :: bs) := rfl
    rw [e1] at h1
    rw [e, feedEach, h1]
    simp only
    rw [ih b2 _ (fun x hx => hb x (List.mem_cons_of_mem _ hx))
      (by simp only [List.length_cons, List.length_nil] at hfit ⊢; omega)
      (by simpa [storeAt] using hbuf) (by intro h; simp at h) hs2 (by rfl)]
    simp only [storeAt, List.length_cons, List.length_nil, Nat.zero_add, List.replicate_succ]
    congr 2
    omega

end SerialCommands

/-! ## Buffer overflow -/

namespace SerialCommands

theorem termScan_append (sg : Bool) (term : List Nat) (tp : Int) (a b : List Nat) :
    termScan sg term tp (a ++ b) =
      (termScan sg term tp a).bind (fun t => termScan sg term t b) := by
  induction a generalizing tp with
  | nil => simp [termScan]
  | cons x a ih =>
    rw [List.cons_append, termScan_cons_eq, termScan_cons_eq sg term tp x a]
    cases termScan sg term tp [x] with
    | none => rfl
    | some t => simp [ih]

/-- Claim C3 (buffer overflow). A cleared scanner of usable capacity `N ≥ 1`
receives `N + 1` bytes (`bytes` and then `x`, all in `1..255`), the first of
which is no one-key command and none of which completes the terminator. With
one `ReadSerial` call per byte the first `N` calls return `SUCCESS` and the
last one `BUFFER_FULL`; a single `ReadSerial` call over all of them returns
`BUFFER_FULL`. In the final state the trace is that of the start (no handler
was called), the array holds the first `N` bytes with `buffer_[0]` zeroed (the
extra byte `x` was not stored), and `buffer_pos_ = 0`, `term_pos_ = 0`. -/
theorem buffer_overflow_reported_once (s : SerialCommands) (bytes : List Nat) (x : Nat)
    (hN : 1 ≤ s.buffer_len_) (hpos : s.buffer_pos_ = 0) (htp : s.term_pos_ = 0)
    (hbuf : s.buffer_len_ < s.buffer_.length) (hser : s.serial_ = some [])
    (hlen : bytes.length = s.buffer_len_)
    (hb : ∀ b ∈ bytes ++ [x], 0 < b ∧ b ≤ 255)
    (hkey : matchOneKey (bytes.headD 0) s.onek_cmds_ 0 = none)
    (hscan : termScan s.char_signed s.term_ 0 (bytes ++ [x]) ≠ none) :
    feedEach s (toStream (bytes ++ [x])) =
      (List.replicate s.buffer_len_ SERIAL_COMMANDS_ERRORS.SERIAL_COMMANDS_SUCCESS ++
          [SERIAL_COMMANDS_ERRORS.SERIAL_COMMANDS_ERROR_BUFFER_FULL],
        { s with serial_ := some [], buffer_ := (storeAt s.buffer_ 0 bytes).set 0 0,
                 buffer_pos_ := 0, term_pos_ := 0, trace := s.trace }) ∧
    feed s (toStream (bytes ++ [x])) =
      (SERIAL_COMMANDS_ERRORS.SERIAL_COMMANDS_ERROR_BUFFER_FULL,
        { s with serial_ := some [], buffer_ := (storeAt s.buffer_ 0 bytes).set 0 0,
                 buffer_pos_ := 0, term_pos_ := 0, trace := s.trace }) := by
  obtain ⟨b, bs, rfl⟩ : ∃ b bs, bytes = b :: bs := by
    cases bytes with
    | nil => simp at hlen; omega
    | cons b bs => exact ⟨b, bs, rfl⟩
  have hscan1 : ∃ tp, termScan s.char_signed s.term_ s.term_pos_ (b :: bs) = some tp := by
    rw [termScan_append] at hscan
    rw [htp]
    cases h : termScan s.char_signed s.term_ 0 (b :: bs) with
    | none => rw [h] at hscan; exact absurd rfl hscan
    | some tp => exact ⟨tp, rfl⟩
  obtain ⟨tp, hscan1⟩ := hscan1
  have hb1 : ∀ y ∈ b :: bs, 0 < y ∧ y ≤ 255 := fun y hy => hb y (List.mem_append_left _ hy)
  have hx : 0 < x := (hb x (by simp)).1
  have hfit : s.buffer_pos_ + (bs.length + 1) ≤ s.buffer_len_ := by
    simp only [List.length_cons] at hlen; omega
  have hbuf0 : 0 < s.buffer_.length := by omega
  have hk : s.buffer_pos_ = 0 → matchOneKey b s.onek_cmds_ 0 = none := fun _ => hkey
  have hser0 : s.serial_.getD [] = [] := by rw [hser]; rfl
  have hfull : ¬ (s.buffer_pos_ + (bs.length + 1) < s.buffer_len_) := by
    simp only [List.length_cons] at hlen; omega
  have hstream : toStream (b :: bs ++ [x]) = toStream (b :: bs) ++ [(x : Int)] := by
    simp [toStream]
  constructor
  · rw [hstream, feedEach_append, feedEach_scan bs b s tp hb1 hfit hbuf0 hk hscan1 hser0]
    simp only [feedEach, feed, Option.getD_some, List.nil_append, ReadSerial, ReadSerialLoop]
    rw [ReadSerialBody_full _ x hx hfull]
    simp only [ClearBuffer, hpos]
    simp only [List.length_cons] at hlen
    rw [← hlen]
  · rw [hstream, feed_eq s _ hser0,
      ReadSerialLoop_scan bs b { s with serial_ := some (toStream (b :: bs) ++ [(x : Int)]) }
        [(x : Int)] tp hb1 hfit hbuf0 hk hscan1]
    simp only [ReadSerialLoop]
    rw [ReadSerialBody_full _ x hx hfull]
    simp only [ClearBuffer, hpos]

end SerialCommands

namespace SerialCommands

set_option maxRecDepth 8000 in
theorem buffer_overflow_reported_once_witness :
    feedEach scenario3 (toStream (List.replicate 8 65 ++ [66])) =
      (List.replicate scenario3.buffer_len_ SERIAL_COMMANDS_ERRORS.SERIAL_COMMANDS_SUCCESS ++
          [SERIAL_COMMANDS_ERRORS.SERIAL_COMMANDS_ERROR_BUFFER_FULL],
        { scenario3 with serial_ := some [],
                         buffer_ := (storeAt scenario3.buffer_ 0 (List.replicate 8 65)).set 0 0,
                         buffer_pos_ := 0, term_pos_ := 0, trace := scenario3.trace }) ∧
    feed scenario3 (toStream (List.replicate 8 65 ++ [66])) =
      (SERIAL_COMMANDS_ERRORS.SERIAL_COMMANDS_ERROR_BUFFER_FULL,
        { scenario3 with serial_ := some [],
                         buffer_ := (storeAt scenario3.buffer_ 0 (List.replicate 8 65)).set 0 0,
                         buffer_pos_ := 0, term_pos_ := 0, trace := scenario3.trace }) :=
  buffer_overflow_reported_once scenario3 (List.replicate 8 65) 66 (by decide) (by decide)
    (by decide) (by decide) (by decide) (by decide) (by decide) (by decide) (by decide)

end SerialCommands

/-! ## One-key commands -/

namespace SerialCommands

theorem matchOneKey_of_first (b : Nat) (cmds : List SerialCommand) (k i : Nat)
    (cmd : SerialCommand) (hi : cmds[i]? = some cmd) (hname : cmd.command.getD 0 0 = b)
    (hfirst : ∀ j, j < i → ∀ c, cmds[j]? = some c → c.command.getD 0 0 ≠ b) :
    matchOneKey b cmds k = some (k + i, cmd) := by
  induction cmds generalizing k i with
  | nil => simp at hi
  | cons c0 rest ih =>
    cases i with
    | zero =>
      simp only [List.getElem?_cons_zero, Option.some.injEq] at hi
      subst hi
      simp only [matchOneKey]
      rw [if_pos hname.symm, Nat.add_zero]
    | succ i =>
      have h0 : c0.command.getD 0 0 ≠ b := hfirst 0 (Nat.succ_pos _) c0 (by simp)
      simp only [List.getElem?_cons_succ] at hi
      have := ih (k + 1) i hi
        (fun j hj c hc => hfirst (j + 1) (Nat.succ_lt_succ hj) c (by simpa using hc))
      simp only [matchOneKey, Ne.symm h0, if_false, this]
      congr 2
      omega

/-- A handler that only calls `Next()`, started in any state: it appends `k`
`next` events and changes nothing but the array and the tokenizer cursor. -/
theorem runHandler_nexts_any (d k : Nat) (s : SerialCommands) :
    ∃ (buf1 : List Nat) (lt : Option Nat) (rs : List (Option (List Nat))),
      runHandler (d + 1) (List.replicate k Action.Next) s =
        { s with buffer_ := buf1, last_token_ := lt,
                 trace := s.trace ++ rs.map Event.next } ∧ rs.length = k := by
  induction k generalizing s with
  | zero => exact ⟨s.buffer_, s.last_token_, [], by simp [runHandler_nil], rfl⟩
  | succ k ih =>
    rw [List.replicate_succ, runHandler_cons]
    obtain ⟨buf1, lt, rs, h, hl⟩ := ih (execAction (runHandler d) s Action.Next)
    rw [h]
    refine ⟨buf1, lt, (Next s).2.strAt (Next s).1 :: rs, ?_, by simp [hl]⟩
    simp [execAction, Next]

/-- Claim C2 (hotkey short-circuit). In a state with `buffer_pos_ = 0` and
usable capacity at least 1, a `ReadSerial` call that reads a byte `b` in
`1..255` equal to the first byte of the name of a one-key descriptor calls the
handler of the first such descriptor (index `cx`) right away, clears the
buffer and returns `SUCCESS`, leaving the bytes after `b` unread; afterwards
`buffer_pos_ = 0` and `term_pos_ = 0`. When that handler only calls `Next()`
`k` times, the events of the call are the `one_key cx` invocation followed by
the `k` results it read: no `command` and no `default_handler` event. -/
theorem hotkey_short_circuit (s : SerialCommands) (b : Nat) (rest : List Int)
    (cx : Nat) (cmd : SerialCommand)
    (hpos : s.buffer_pos_ = 0) (hcap : 1 ≤ s.buffer_len_)
    (hbuf : s.buffer_len_ < s.buffer_.length) (hb0 : 0 < b) (hb : b ≤ 255)
    (hi : s.onek_cmds_[cx]? = some cmd) (hname : cmd.command.getD 0 0 = b)
    (hfirst : ∀ j, j < cx → ∀ c, s.onek_cmds_[j]? = some c → c.command.getD 0 0 ≠ b)
    (hser : s.serial_ = some ((b : Int) :: rest)) :
    ReadSerial s =
      (SERIAL_COMMANDS_ERRORS.SERIAL_COMMANDS_SUCCESS,
        ClearBuffer (runHandler 2 cmd.function
          { s with serial_ := some rest, buffer_ := s.buffer_.set 0 b, buffer_pos_ := 1,
                   trace := s.trace ++ [Event.one_key cx] })) ∧
    (ReadSerial s).2.buffer_pos_ = 0 ∧ (ReadSerial s).2.term_pos_ = 0 ∧
    (∀ k, cmd.function = List.replicate k Action.Next →
      ∃ rs : List (Option (List Nat)), rs.length = k ∧
        (ReadSerial s).2.trace = s.trace ++ Event.one_key cx :: rs.map Event.next) := by
  have hm := matchOneKey_of_first b s.onek_cmds_ 0 cx cmd hi hname hfirst
  rw [Nat.zero_add] at hm
  have hbody := ReadSerialBody_hotkey { s with serial_ := some rest } b hb0 hb hpos
    (by simpa using hcap) (by simp only; omega) hm
  have hrs : ReadSerial s =
      (SERIAL_COMMANDS_ERRORS.SERIAL_COMMANDS_SUCCESS,
        ClearBuffer (runHandler 2 cmd.function
          { s with serial_ := some rest, buffer_ := s.buffer_.set 0 b, buffer_pos_ := 1,
                   trace := s.trace ++ [Event.one_key cx] })) := by
    simp only [ReadSerial, hser, ReadSerialLoop, hbody]
  refine ⟨hrs, ?_, ?_, ?_⟩
  · rw [hrs]; rfl
  · rw [hrs]; rfl
  · intro k hk
    obtain ⟨buf1, lt, rs, h, hl⟩ := runHandler_nexts_any 1 k
      { s with serial_ := some rest, buffer_ := s.buffer_.set 0 b, buffer_pos_ := 1,
               trace := s.trace ++ [Event.one_key cx] }
    refine ⟨rs, hl, ?_⟩
    rw [hrs, hk, h]
    simp [ClearBuffer]

theorem hotkey_short_circuit_witness :
    ReadSerial { scenario3 with serial_ := some [104, 65] } =
      (SERIAL_COMMANDS_ERRORS.SERIAL_COMMANDS_SUCCESS,
        ClearBuffer (runHandler 2 []
          { scenario3 with serial_ := some [65], buffer_ := scenario3.buffer_.set 0 104,
                           buffer_pos_ := 1,
                           trace := scenario3.trace ++ [Event.one_key 0] })) ∧
    (ReadSerial { scenario3 with serial_ := some [104, 65] }).2.buffer_pos_ = 0 ∧
    (ReadSerial { scenario3 with serial_ := some [104, 65] }).2.term_pos_ = 0 ∧
    (∀ k, ([] : Handler) = List.replicate k Action.Next →
      ∃ rs : List (Option (List Nat)), rs.length = k ∧
        (ReadSerial { scenario3 with serial_ := some [104, 65] }).2.trace =
          scenario3.trace ++ Event.one_key 0 :: rs.map Event.next) :=
  hotkey_short_circuit { scenario3 with serial_ := some [104, 65] } 104 [65] 0 ⟨[104], [], true⟩
    (by decide) (by decide) (by decide) (by decide) (by decide) (by decide) (by decide)
    (fun j hj => absurd hj (Nat.not_lt_zero j)) rfl

end SerialCommands

/-! ## Command lookup -/

namespace SerialCommands

theorem matchCommand_none_spec (mem : List Nat) (cmds : List SerialCommand) (k : Nat)
    (h : matchCommand mem cmds k = none) : ∀ c ∈ cmds, cstr c.command ≠ cstr mem := by
  induction cmds generalizing k with
  | nil => intro c hc; simp at hc
  | cons c0 rest ih =>
    by_cases hc : strncmp_eq mem c0.command (strlen c0.command + 1) = true
    · simp [matchCommand, hc] at h
    · simp only [matchCommand, hc, if_false] at h
      intro c hmem
      rcases List.mem_cons.1 hmem with rfl | hmem
      · intro he
        exact hc ((strncmp_eq_iff _ _).2 he.symm)
      · exact ih (k + 1) h c hmem

/-- `ProcessBuffer` on a line with a first token: the call is decided by the
lookup of that token. -/
theorem ProcessBuffer_first_token (run : Handler → SerialCommands → SerialCommands)
    (s : SerialCommands) {w tok : List Nat} {ts : List (List Nat)}
    (ht : TokState s.buffer_ 0 w) (hw : tokens s.delim_ w = tok :: ts) :
    ∃ buf1 q1 w1 b, TokState buf1 q1 w1 ∧ tokens s.delim_ w1 = ts ∧
      buf1.length = s.buffer_.length ∧ cstr (buf1.drop b) = tok ∧
      ProcessBuffer run s =
        match matchCommand (buf1.drop b) s.commands_ 0 with
        | some (cx, cmd) =>
          ClearBuffer (run cmd.function { s with buffer_ := buf1, last_token_ := some q1,
                                                 trace := s.trace ++ [Event.command cx] })
        | none =>
          match s.default_handler_ with
          | some h =>
            ClearBuffer (run h { s with buffer_ := buf1, last_token_ := some q1,
                                        trace := s.trace ++ [Event.default_handler (some tok)] })
          | none => ClearBuffer { s with buffer_ := buf1, last_token_ := some q1 } := by
  obtain ⟨p, buf1, q1, w1, hst, ht1, hlen, hp, htl⟩ :=
    strtok_r_step s.delim_ ht (some 0) s.last_token_ (by simp)
  rw [hw] at hp htl
  cases p with
  | none => simp at hp
  | some b =>
    simp only [Option.map_some', List.head?_cons, Option.some.injEq] at hp
    refine ⟨buf1, q1, w1, b, ht1, htl, hlen, hp, ?_⟩
    simp only [ProcessBuffer, hst, strAt, Option.map_some', hp]

/-- Claim C8 (exact-match, first-match-wins lookup). For a dispatched line `w`
with first token `tok` and any handler semantics `run`: either some registered
descriptor has the name `tok`, and then `ProcessBuffer` calls the handler of
the descriptor at the least index `cx` whose name is `tok` byte for byte (so a
descriptor whose name is a proper part of `tok` or extends it, or a later
descriptor of the same name, is not the one called); or no descriptor has the
name `tok` and no regular handler is called (the call goes to the default
handler, if any). -/
theorem exact_first_match_lookup (run : Handler → SerialCommands → SerialCommands)
    (s : SerialCommands) (w tok : List Nat) (ts : List (List Nat))
    (ht : TokState s.buffer_ 0 w) (hw : tokens s.delim_ w = tok :: ts) :
    (∃ cx cmd buf1 q1, s.commands_[cx]? = some cmd ∧ cstr cmd.command = tok ∧
        (∀ j, j < cx → ∀ c, s.commands_[j]? = some c → cstr c.command ≠ tok) ∧
        ProcessBuffer run s =
          ClearBuffer (run cmd.function { s with buffer_ := buf1, last_token_ := some q1,
                                                 trace := s.trace ++ [Event.command cx] })) ∨
    ((∀ c ∈ s.commands_, cstr c.command ≠ tok) ∧
      ∃ buf1 q1, ProcessBuffer run s =
        match s.default_handler_ with
        | some h =>
          ClearBuffer (run h { s with buffer_ := buf1, last_token_ := some q1,
                                      trace := s.trace ++ [Event.default_handler (some tok)] })
        | none => ClearBuffer { s with buffer_ := buf1, last_token_ := some q1 }) := by
  obtain ⟨buf1, q1, w1, b, _, _, _, htok, hpb⟩ := ProcessBuffer_first_token run s ht hw
  cases hm : matchCommand (buf1.drop b) s.commands_ 0 with
  | some r =>
    obtain ⟨cx, cmd⟩ := r
    obtain ⟨i, hcx, hi, hname, hfirst⟩ := matchCommand_some_spec _ _ _ _ _ hm
    rw [Nat.zero_add] at hcx
    subst hcx
    rw [htok] at hname hfirst
    left
    refine ⟨cx, cmd, buf1, q1, hi, hname, hfirst, ?_⟩
    rw [hpb, hm]
  | none =>
    right
    have hno := matchCommand_none_spec _ _ _ hm
    rw [htok] at hno
    refine ⟨hno, buf1, q1, ?_⟩
    rw [hpb, hm]

end SerialCommands

namespace SerialCommands

theorem exact_first_match_lookup_witness :
    (∃ cx cmd buf1 q1, lookupDemo.commands_[cx]? = some cmd ∧ cstr cmd.command = [76, 69, 68] ∧
        (∀ j, j < cx → ∀ c, lookupDemo.commands_[j]? = some c → cstr c.command ≠ [76, 69, 68]) ∧
        ProcessBuffer (runHandler 2) lookupDemo =
          ClearBuffer (runHandler 2 cmd.function
            { lookupDemo with buffer_ := buf1, last_token_ := some q1,
                              trace := lookupDemo.trace ++ [Event.command cx] })) ∨
    ((∀ c ∈ lookupDemo.commands_, cstr c.command ≠ [76, 69, 68]) ∧
      ∃ buf1 q1, ProcessBuffer (runHandler 2) lookupDemo =
        match lookupDemo.default_handler_ with
        | some h =>
          ClearBuffer (runHandler 2 h
            { lookupDemo with buffer_ := buf1, last_token_ := some q1,
                              trace := lookupDemo.trace ++
                                [Event.default_handler (some [76, 69, 68])] })
        | none => ClearBuffer { lookupDemo with buffer_ := buf1, last_token_ := some q1 }) :=
  exact_first_match_lookup (runHandler 2) lookupDemo [76, 69, 68, 32, 79, 78] [76, 69, 68]
    [[79, 78]] ⟨[], [10, 0, 0, 0, 0], by decide, rfl, by decide⟩ (by decide)

end SerialCommands

/-! ## Unmatched and empty lines -/

namespace SerialCommands

/-- `ProcessBuffer` applies `run` at most once, after exactly one invocation
event. -/
theorem ProcessBuffer_at_most_one (run : Handler → SerialCommands → SerialCommands)
    (s : SerialCommands) :
    (∃ buf1 lt, ProcessBuffer run s = ClearBuffer { s with buffer_ := buf1, last_token_ := lt }) ∨
    (∃ h buf1 lt e, ((∃ cx, e = Event.command cx) ∨ (∃ tok, e = Event.default_handler tok)) ∧
      ProcessBuffer run s =
        ClearBuffer (run h { s with buffer_ := buf1, last_token_ := lt,
                                    trace := s.trace ++ [e] })) := by
  unfold ProcessBuffer
  simp only
  cases (strtok_r s.buffer_ (some 0) s.delim_ s.last_token_).1 with
  | none => exact Or.inl ⟨_, _, rfl⟩
  | some b =>
    simp only
    cases matchCommand (List.drop b (strtok_r s.buffer_ (some 0) s.delim_ s.last_token_).2.1)
        s.commands_ 0 with
    | some r => exact Or.inr ⟨_, _, _, _, Or.inl ⟨r.1, rfl⟩, rfl⟩
    | none =>
      simp only
      cases s.default_handler_ with
      | none => exact Or.inl ⟨_, _, rfl⟩
      | some h => exact Or.inr ⟨_, _, _, _, Or.inr ⟨_, rfl⟩, rfl⟩

/-- Claim C9 (unmatched command falls through to the default handler). For a
dispatched line `w` whose first token `tok` is the name of no registered
command and any handler semantics `run`: with a default handler `h`
registered, `ProcessBuffer` calls `h` once with the string `tok` and calls no
command handler; with none registered it calls nothing (the trace is
unchanged). And every dispatch, from any state, either calls nothing or
records one invocation (a command or the default handler) and runs that one
handler. -/
theorem unmatched_falls_to_default (run : Handler → SerialCommands → SerialCommands)
    (s : SerialCommands) (w tok : List Nat) (ts : List (List Nat))
    (ht : TokState s.buffer_ 0 w) (hw : tokens s.delim_ w = tok :: ts)
    (hno : ∀ c ∈ s.commands_, cstr c.command ≠ tok) :
    (∀ h, s.default_handler_ = some h →
      ∃ buf1 q1, ProcessBuffer run s =
        ClearBuffer (run h { s with buffer_ := buf1, last_token_ := some q1,
                                    trace := s.trace ++ [Event.default_handler (some tok)] })) ∧
    (s.default_handler_ = none →
      ∃ buf1 q1, ProcessBuffer run s =
        ClearBuffer { s with buffer_ := buf1, last_token_ := some q1 }) ∧
    (∀ s1 : SerialCommands,
      (∃ buf1 lt, ProcessBuffer run s1 =
          ClearBuffer { s1 with buffer_ := buf1, last_token_ := lt }) ∨
      (∃ h buf1 lt e, ((∃ cx, e = Event.command cx) ∨ (∃ t, e = Event.default_handler t)) ∧
        ProcessBuffer run s1 =
          ClearBuffer (run h { s1 with buffer_ := buf1, last_token_ := lt,
                                       trace := s1.trace ++ [e] }))) := by
  refine ⟨?_, ?_, fun s1 => ProcessBuffer_at_most_one run s1⟩
  · intro h hd
    obtain ⟨buf1, q1, _, hpb, _⟩ := ProcessBuffer_default run s ht hw hno hd
    exact ⟨buf1, q1, hpb⟩
  · intro hd
    obtain ⟨buf1, q1, hpb, _⟩ := ProcessBuffer_unmatched run s ht hw hno hd
    exact ⟨buf1, q1, hpb⟩

end SerialCommands

namespace SerialCommands

theorem unmatched_falls_to_default_witness :
    (∀ h, scenario2.default_handler_ = some h →
      ∃ buf1 q1, ProcessBuffer (runHandler 2) scenario2 =
        ClearBuffer (runHandler 2 h
          { scenario2 with buffer_ := buf1, last_token_ := some q1,
                           trace := scenario2.trace ++
                             [Event.default_handler (some [70, 79, 79])] })) ∧
    (scenario2.default_handler_ = none →
      ∃ buf1 q1, ProcessBuffer (runHandler 2) scenario2 =
        ClearBuffer { scenario2 with buffer_ := buf1, last_token_ := some q1 }) ∧
    (∀ s1 : SerialCommands,
      (∃ buf1 lt, ProcessBuffer (runHandler 2) s1 =
          ClearBuffer { s1 with buffer_ := buf1, last_token_ := lt }) ∨
      (∃ h buf1 lt e, ((∃ cx, e = Event.command cx) ∨ (∃ t, e = Event.default_handler t)) ∧
        ProcessBuffer (runHandler 2) s1 =
          ClearBuffer (runHandler 2 h { s1 with buffer_ := buf1, last_token_ := lt,
                                                trace := s1.trace ++ [e] }))) :=
  unmatched_falls_to_default (runHandler 2) scenario2 [70, 79, 79] [70, 79, 79] []
    ⟨[], [10, 0, 0, 0, 0, 0, 0, 0], by decide, rfl, by decide⟩ (by decide) (by decide)

end SerialCommands

namespace SerialCommands

/-- Claim C10 fails on the code: with a default handler registered, the
terminator CR LF received with no preceding byte completes an empty line, and
the dispatch calls nothing: the default handler is not called with an absent
token. -/
theorem empty_line_default_counterexample :
    emptyLineDemo.default_handler_ = some [Action.Next] ∧
    (feed emptyLineDemo (toStream [13, 10])).2.trace = [] ∧
    ¬ (Event.default_handler none ∈ (feed emptyLineDemo (toStream [13, 10])).2.trace) := by
  decide

/-- Claim C10 as amended. For a dispatched line `w` without a first token
(empty, or made of delimiter bytes only) and any handler semantics `run`:
`ProcessBuffer` calls no handler at all, neither a command handler nor the
default handler, whether or not one is registered (the trace is unchanged),
and it clears the buffer: `buffer_[0] = 0`, `buffer_pos_ = 0`, `term_pos_ = 0`. -/
theorem empty_line_invokes_nothing (run : Handler → SerialCommands → SerialCommands)
    (s : SerialCommands) (w : List Nat) (ht : TokState s.buffer_ 0 w)
    (hw : ∀ c ∈ w, isDelim s.delim_ c = true) :
    (ProcessBuffer run s).trace = s.trace ∧
    (ProcessBuffer run s).buffer_.getD 0 0 = 0 ∧
    (ProcessBuffer run s).buffer_pos_ = 0 ∧
    (ProcessBuffer run s).term_pos_ = 0 := by
  have h0 : 0 ∉ w := by
    obtain ⟨_, _, _, _, h⟩ := ht
    exact h
  have hds : ∀ c ∈ w, c ≠ 0 ∧ isDelim s.delim_ c = true :=
    fun c hc => ⟨fun h => h0 (h ▸ hc), hw c hc⟩
  have htk : tokens s.delim_ w = [] := by
    have := tokens_delims_append hds (w := []) (by simp)
    rw [List.append_nil] at this
    rw [this, tokens_nil]
  obtain ⟨buf1, q1, hpb, _⟩ := ProcessBuffer_no_token run s ht htk
  rw [hpb]
  refine ⟨rfl, ?_, rfl, rfl⟩
  simp only [ClearBuffer]
  cases buf1 <;> simp

theorem empty_line_invokes_nothing_witness :
    (ProcessBuffer (runHandler 2) { emptyLineDemo with
        buffer_ := [32, 32, 0, 10, 0, 0, 0, 0, 0, 0, 0, 0], buffer_pos_ := 4,
        term_pos_ := 2 }).trace = emptyLineDemo.trace ∧
    (ProcessBuffer (runHandler 2) { emptyLineDemo with
        buffer_ := [32, 32, 0, 10, 0, 0, 0, 0, 0, 0, 0, 0], buffer_pos_ := 4,
        term_pos_ := 2 }).buffer_.getD 0 0 = 0 ∧
    (ProcessBuffer (runHandler 2) { emptyLineDemo with
        buffer_ := [32, 32, 0, 10, 0, 0, 0, 0, 0, 0, 0, 0], buffer_pos_ := 4,
        term_pos_ := 2 }).buffer_pos_ = 0 ∧
    (ProcessBuffer (runHandler 2) { emptyLineDemo with
        buffer_ := [32, 32, 0, 10, 0, 0, 0, 0, 0, 0, 0, 0], buffer_pos_ := 4,
        term_pos_ := 2 }).term_pos_ = 0 :=
  empty_line_invokes_nothing (runHandler 2) { emptyLineDemo with
      buffer_ := [32, 32, 0, 10, 0, 0, 0, 0, 0, 0, 0, 0], buffer_pos_ := 4, term_pos_ := 2 }
    [32, 32] ⟨[], [10, 0, 0, 0, 0, 0, 0, 0, 0], by decide, rfl, by decide⟩ (by decide)

end SerialCommands

/-! ## ProcessCommandLine -/

namespace SerialCommands

/-- While `is_processing_cmdline_` is set, `ProcessCommandLine` returns false
and changes nothing, whatever the line. -/
theorem ProcessCommandLineWith_locked (run : Handler → SerialCommands → SerialCommands)
    (line : Option (List Nat)) (s : SerialCommands) (h : s.is_processing_cmdline_ = true) :
    ProcessCommandLineWith run line s = (false, s) := by
  unfold ProcessCommandLineWith
  cases line with
  | none => rfl
  | some l =>
    simp only
    split_ifs <;> rfl

/-- A rejected `ProcessCommandLine` call leaves the state as it was. -/
theorem ProcessCommandLineWith_rejected (run : Handler → SerialCommands → SerialCommands)
    (line : Option (List Nat)) (s : SerialCommands)
    (h : (ProcessCommandLineWith run line s).1 = false) :
    ProcessCommandLineWith run line s = (false, s) := by
  unfold ProcessCommandLineWith at h ⊢
  cases line with
  | none => rfl
  | some l =>
    simp only at h ⊢
    split_ifs at h ⊢ <;> rfl

/-- The acceptance condition of `ProcessCommandLine` as coded, for a usable
capacity of at least 1: the line must be shorter than the usable capacity
minus one. -/
theorem ProcessCommandLineWith_true_iff (run : Handler → SerialCommands → SerialCommands)
    (line : Option (List Nat)) (s : SerialCommands) (hcap : 1 ≤ s.buffer_len_)
    (hsz : s.buffer_len_ ≤ 65536) :
    (ProcessCommandLineWith run line s).1 = true ↔
      ∃ l, line = some l ∧ 0 < strlen l ∧ strlen l + 1 < s.buffer_len_ ∧
        s.is_processing_cmdline_ = false := by
  have hconv : intToSize ((s.buffer_len_ : Int) - 1) = s.buffer_len_ - 1 := by
    unfold intToSize
    omega
  unfold ProcessCommandLineWith
  cases line with
  | none => simp
  | some l =>
    simp only [hconv]
    by_cases h1 : strlen l = 0
    · rw [if_pos h1]
      simp only [Bool.false_eq_true, Option.some.injEq, exists_eq_left', false_iff]
      omega
    · rw [if_neg h1]
      by_cases h2 : s.buffer_len_ - 1 ≤ strlen l
      · rw [if_pos h2]
        simp only [Bool.false_eq_true, Option.some.injEq, exists_eq_left', false_iff]
        omega
      · rw [if_neg h2]
        by_cases h3 : s.is_processing_cmdline_ = true
        · rw [if_pos h3]
          simp [h3]
        · rw [if_neg h3]
          simp only [Option.some.injEq, exists_eq_left', true_iff]
          exact ⟨by omega, by omega, by simpa using h3⟩

/-- Claim C5 fails on the code at the boundary: with usable capacity 9 and the
re-entrancy flag clear, the 8-byte line `SET X 12` (shorter than the usable
capacity) is rejected. -/
theorem cmdline_rejects_line_that_fits :
    cmdlineDemo.buffer_len_ = 9 ∧ cmdlineDemo.is_processing_cmdline_ = false ∧
    strlen [83, 69, 84, 32, 88, 32, 49, 50] = 8 ∧
    (ProcessCommandLine cmdlineDemo (some [83, 69, 84, 32, 88, 32, 49, 50])).1 = false := by
  decide

/-- Claim C7 fails on the code: a `ProcessCommandLine("B")` call made by the
handler of command `A` dispatched by `ReadSerial`, and one made by the handler
of the one-key command `h`, both return true and dispatch command `B`. -/
theorem cmdline_accepted_inside_ReadSerial_handlers :
    (feed reentryDemo (toStream [65, 13, 10])).2.trace =
      [Event.command 0, Event.command 1, Event.next none, Event.cmdline true] ∧
    (feed reentryDemo (toStream [104])).2.trace =
      [Event.one_key 0, Event.command 1, Event.next none, Event.cmdline true] := by
  decide

end SerialCommands

theorem strncpy_length (dst src : List Nat) (n : Nat) : (strncpy dst src n).length = dst.length := by
  simp [strncpy]

theorem strncpy_take (dst src : List Nat) (n : Nat) (hn : strlen src < n)
    (hd : n ≤ dst.length) :
    (strncpy dst src n).take (strlen src + 1) = cstr src ++ [0] := by
  apply List.ext_getElem?
  intro i
  by_cases hi : i < strlen src + 1
  · rw [List.getElem?_take_of_lt hi]
    have hin : i < n := by omega
    have hil : i < dst.length := by omega
    simp only [strncpy, List.getElem?_map, List.getElem?_range hil, Option.map_some', hin, if_true]
    by_cases hi2 : i < strlen src
    · have hi3 : i < (cstr src).length := hi2
      rw [List.getElem?_append_left hi3, List.getD_eq_getElem?_getD, List.getElem?_eq_getElem hi3]
      rfl
    · have hi3 : (cstr src).length ≤ i := Nat.le_of_not_lt hi2
      have hi4 : i = (cstr src).length := by
        have : strlen src = (cstr src).length := rfl
        omega
      rw [List.getElem?_append_right hi3, List.getD_eq_getElem?_getD,
        List.getElem?_eq_none hi3, hi4]
      simp
  · have h1 : strlen src + 1 ≤ i := Nat.le_of_not_lt hi
    rw [List.getElem?_take_eq_none h1, List.getElem?_eq_none]
    simp only [List.length_append, List.length_singleton]
    exact h1

theorem take_set_of_le (l : List Nat) (a : Nat) {m j : Nat} (h : m ≤ j) :
    (l.set j a).take m = l.take m := by
  apply List.ext_getElem?
  intro i
  rw [List.getElem?_take, List.getElem?_take]
  split
  · next h1 => rw [List.getElem?_set_ne (by omega)]
  · rfl

theorem zero_not_mem_cstr (mem : List Nat) : 0 ∉ cstr mem := by
  intro h
  have := List.mem_takeWhile_imp h
  simp at this

/-- The array after `strncpy(buffer_, line, n)` and a NUL stored at an index
not below `strlen(line) + 1` holds the string of `line` at its start. -/
theorem TokState_strncpy (dst src : List Nat) (n j : Nat) (hn : strlen src < n)
    (hd : n ≤ dst.length) (hj : strlen src + 1 ≤ j) :
    TokState ((strncpy dst src n).set j 0) 0 (cstr src) := by
  have h1 : ((strncpy dst src n).set j 0).take (strlen src + 1) = cstr src ++ [0] := by
    rw [take_set_of_le _ _ hj, strncpy_take dst src n hn hd]
  have h2 := List.take_append_drop (strlen src + 1) ((strncpy dst src n).set j 0)
  rw [h1] at h2
  refine ⟨[], ((strncpy dst src n).set j 0).drop (strlen src + 1), ?_, rfl, ?_⟩
  · rw [List.nil_append]
    exact h2.symm.trans (by simp)
  · exact zero_not_mem_cstr src

theorem tokens_cstr (delim line : List Nat) : tokens delim (cstr line) = tokens delim line := by
  have : cstr (cstr line) = cstr line := cstr_of_not_mem (zero_not_mem_cstr line)
  simp [tokens, this]

namespace SerialCommands

/-- An accepted `ProcessCommandLine` call dispatches a buffer that holds the
string of `line` at its start, with the flag set, and clears the flag. -/
theorem ProcessCommandLineWith_accepted (run : Handler → SerialCommands → SerialCommands)
    (l : List Nat) (s : SerialCommands) (hcap : 1 ≤ s.buffer_len_) (hsz : s.buffer_len_ ≤ 32766)
    (hbuf : s.buffer_len_ < s.buffer_.length)
    (hacc : (ProcessCommandLineWith run (some l) s).1 = true) :
    ∃ buf0, TokState buf0 0 (cstr l) ∧ buf0.length = s.buffer_.length ∧
      ProcessCommandLineWith run (some l) s =
        (true, { ProcessBuffer run { s with is_processing_cmdline_ := true, buffer_ := buf0,
                                            buffer_pos_ := 0, term_pos_ := 0 } with
                 is_processing_cmdline_ := false }) := by
  obtain ⟨l1, hl, h0, h1, h2⟩ :=
    (ProcessCommandLineWith_true_iff run (some l) s hcap (by omega)).1 hacc
  simp only [Option.some.injEq] at hl
  subst hl
  have hconv : intToSize ((s.buffer_len_ : Int) - 1) = s.buffer_len_ - 1 := by
    unfold intToSize
    omega
  refine ⟨(strncpy (s.buffer_.set 0 0) l (s.buffer_len_ - 1)).set (s.buffer_len_ - 1) 0,
    TokState_strncpy _ _ _ _ (by omega) (by simp only [List.length_set]; omega) (by omega),
    by simp [strncpy_length], ?_⟩
  have hne : ¬ (s.buffer_len_ = 0) := by omega
  have h3 : ¬ (strlen l = 0) := by omega
  have h4 : ¬ (s.buffer_len_ - 1 ≤ strlen l) := by omega
  simp only [ProcessCommandLineWith, hconv, h3, h4, h2, if_false, ClearBuffer, hne,
    Bool.false_eq_true]

/-- Claim C4 (injected line dispatch). In a state with the re-entrancy flag
clear (whatever is buffered from the stream), on an array that holds
`buffer_len_ + 1` bytes with `1 ≤ buffer_len_ ≤ 32766`, for a line `l` that
`ProcessCommandLine` accepts and whose first token `t1` is the name of a
registered command (first such descriptor at index `cx`) whose handler calls
`Next()` `k` times: the call returns true; the only handler called is that of
descriptor `cx`; its `Next()` calls return the tokens of `l` after the first,
in order, and then `NULL` (nothing of the bytes buffered before takes part);
afterwards `buffer_pos_ = 0`, `term_pos_ = 0` and the flag is clear. -/
theorem injected_line_dispatch (s : SerialCommands) (l t1 : List Nat) (ts : List (List Nat))
    (cx k : Nat) (cmd : SerialCommand)
    (_hflag : s.is_processing_cmdline_ = false)
    (hacc : (ProcessCommandLine s (some l)).1 = true)
    (hcap : 1 ≤ s.buffer_len_) (hsz : s.buffer_len_ ≤ 32766)
    (hbuf : s.buffer_len_ < s.buffer_.length)
    (htok : tokens s.delim_ l = t1 :: ts)
    (hi : s.commands_[cx]? = some cmd) (hname : cstr cmd.command = t1)
    (hfirst : ∀ j, j < cx → ∀ c, s.commands_[j]? = some c → cstr c.command ≠ t1)
    (hfun : cmd.function = List.replicate k Action.Next) :
    ∃ buf1 q1, ProcessCommandLine s (some l) =
      (true, { s with buffer_ := buf1, last_token_ := some q1, buffer_pos_ := 0, term_pos_ := 0,
                      is_processing_cmdline_ := false,
                      trace := s.trace ++ Event.command cx ::
                        (List.range k).map (fun i => Event.next (ts[i]?)) }) := by
  obtain ⟨buf0, ht0, _, hpcl⟩ :=
    ProcessCommandLineWith_accepted (runHandler 1) l s hcap hsz hbuf hacc
  have htok0 : tokens s.delim_ (cstr l) = t1 :: ts := by rw [tokens_cstr]; exact htok
  obtain ⟨buf1, q1, w1, hpb, ht1, htk1, _⟩ := ProcessBuffer_match (runHandler 1)
    { s with is_processing_cmdline_ := true, buffer_ := buf0, buffer_pos_ := 0, term_pos_ := 0 }
    ht0 htok0 hi hname hfirst
  obtain ⟨buf2, q2, hrun, _⟩ := runHandler_nexts 0 k
    { s with is_processing_cmdline_ := true, buffer_ := buf1, buffer_pos_ := 0, term_pos_ := 0,
             last_token_ := some q1, trace := s.trace ++ [Event.command cx] }
    (q := q1) (w := w1) rfl ht1
  refine ⟨buf2.set 0 0, q2, ?_⟩
  unfold ProcessCommandLine
  rw [hpcl, hpb, hfun]
  simp only [Nat.zero_add] at hrun
  rw [hrun]
  simp only [ClearBuffer, htk1, List.append_assoc, List.singleton_append]

theorem injected_line_dispatch_witness :
    ∃ buf1 q1, ProcessCommandLine
        { cmdlineDemo with buffer_ := [65, 66, 0, 0, 0, 0, 0, 0, 0, 0], buffer_pos_ := 2 }
        (some [83, 69, 84, 32, 88, 32, 49]) =
      (true, { cmdlineDemo with
                 buffer_ := buf1, last_token_ := some q1, buffer_pos_ := 0, term_pos_ := 0,
                 is_processing_cmdline_ := false,
                 trace := cmdlineDemo.trace ++ Event.command 0 ::
                   (List.range 3).map (fun i => Event.next ([[88], [49]][i]?)) }) :=
  injected_line_dispatch
    { cmdlineDemo with buffer_ := [65, 66, 0, 0, 0, 0, 0, 0, 0, 0], buffer_pos_ := 2 }
    [83, 69, 84, 32, 88, 32, 49] [83, 69, 84] [[88], [49]] 0 3
    ⟨[83, 69, 84], [Action.Next, Action.Next, Action.Next], false⟩
    (by decide) (by decide) (by decide) (by decide) (by decide) (by decide) (by decide)
    (by decide) (fun j hj => absurd hj (Nat.not_lt_zero j)) (by decide)

end SerialCommands

/-! ## The re-entrancy guard -/

namespace SerialCommands

/-- The one handler call of a dispatch (if any) does not depend on how
handlers are executed. -/
theorem ProcessBuffer_shape (s : SerialCommands) :
    (∃ buf1 lt, ∀ run : Handler → SerialCommands → SerialCommands,
      ProcessBuffer run s = ClearBuffer { s with buffer_ := buf1, last_token_ := lt }) ∨
    (∃ h buf1 lt e, ((∃ cx, e = Event.command cx) ∨ (∃ tok, e = Event.default_handler tok)) ∧
      ∀ run : Handler → SerialCommands → SerialCommands, ProcessBuffer run s =
        ClearBuffer (run h { s with buffer_ := buf1, last_token_ := lt,
                                    trace := s.trace ++ [e] })) := by
  cases h1 : (strtok_r s.buffer_ (some 0) s.delim_ s.last_token_).1 with
  | none =>
    refine Or.inl ⟨(strtok_r s.buffer_ (some 0) s.delim_ s.last_token_).2.1,
      (strtok_r s.buffer_ (some 0) s.delim_ s.last_token_).2.2, fun run => ?_⟩
    simp only [ProcessBuffer, h1]
  | some b =>
    cases h2 : matchCommand (List.drop b (strtok_r s.buffer_ (some 0) s.delim_ s.last_token_).2.1)
        s.commands_ 0 with
    | some r =>
      refine Or.inr ⟨r.2.function, (strtok_r s.buffer_ (some 0) s.delim_ s.last_token_).2.1,
        (strtok_r s.buffer_ (some 0) s.delim_ s.last_token_).2.2, Event.command r.1,
        Or.inl ⟨r.1, rfl⟩, fun run => ?_⟩
      simp only [ProcessBuffer, h1, h2]
    | none =>
      cases h3 : s.default_handler_ with
      | none =>
        refine Or.inl ⟨(strtok_r s.buffer_ (some 0) s.delim_ s.last_token_).2.1,
          (strtok_r s.buffer_ (some 0) s.delim_ s.last_token_).2.2, fun run => ?_⟩
        simp only [ProcessBuffer, h1, h2, h3]
      | some h =>
        refine Or.inr ⟨h, (strtok_r s.buffer_ (some 0) s.delim_ s.last_token_).2.1,
          (strtok_r s.buffer_ (some 0) s.delim_ s.last_token_).2.2,
          Event.default_handler
            (some (cstr (List.drop b (strtok_r s.buffer_ (some 0) s.delim_ s.last_token_).2.1))),
          Or.inr ⟨_, rfl⟩, fun run => ?_⟩
        simp only [ProcessBuffer, h1, h2, h3, strAt, Option.map_some']

/-- An accepted `ProcessCommandLine` call is one dispatch with the flag set. -/
theorem ProcessCommandLineWith_shape (run0 : Handler → SerialCommands → SerialCommands)
    (line : Option (List Nat)) (s : SerialCommands)
    (hacc : (ProcessCommandLineWith run0 line s).1 = true) :
    ∃ s4 : SerialCommands, s4.is_processing_cmdline_ = true ∧ s4.trace = s.trace ∧
      ∀ run : Handler → SerialCommands → SerialCommands,
        ProcessCommandLineWith run line s =
          (true, { ProcessBuffer run s4 with is_processing_cmdline_ := false }) := by
  unfold ProcessCommandLineWith at hacc
  cases line with
  | none => simp at hacc
  | some l =>
    simp only at hacc
    by_cases h1 : strlen l = 0
    · rw [if_pos h1] at hacc; simp at hacc
    · rw [if_neg h1] at hacc
      by_cases h2 : intToSize ((s.buffer_len_ : Int) - 1) ≤ strlen l
      · rw [if_pos h2] at hacc; simp at hacc
      · rw [if_neg h2] at hacc
        by_cases h3 : s.is_processing_cmdline_ = true
        · rw [if_pos h3] at hacc; simp at hacc
        · refine ⟨{ s with
              is_processing_cmdline_ := true,
              buffer_ :=
                if s.buffer_len_ = 0 then
                  strncpy (s.buffer_.set 0 0) l (intToSize ((s.buffer_len_ : Int) - 1))
                else (strncpy (s.buffer_.set 0 0) l
                  (intToSize ((s.buffer_len_ : Int) - 1))).set (s.buffer_len_ - 1) 0,
              buffer_pos_ := 0, term_pos_ := 0 }, rfl, rfl, fun run => ?_⟩
          unfold ProcessCommandLineWith
          simp only [if_neg h1, if_neg h2, if_neg h3]
          rfl

end SerialCommands

namespace SerialCommands

end SerialCommands

/-! ## Complete lines -/

theorem joinTokens_cons_cons (sep : Nat) (t t2 : List Nat) (ts : List (List Nat)) :
    joinTokens sep (t :: t2 :: ts) = t ++ sep :: joinTokens sep (t2 :: ts) := rfl

theorem joinTokens_mem {sep : Nat} {toks : List (List Nat)} {c : Nat}
    (h : c ∈ joinTokens sep toks) : c = sep ∨ ∃ t ∈ toks, c ∈ t := by
  induction toks with
  | nil => simp [joinTokens] at h
  | cons t ts ih =>
    cases ts with
    | nil => exact Or.inr ⟨t, by simp, by simpa [joinTokens] using h⟩
    | cons t2 ts =>
      rw [joinTokens_cons_cons] at h
      rcases List.mem_append.1 h with h | h
      · exact Or.inr ⟨t, by simp, h⟩
      · rcases List.mem_cons.1 h with h | h
        · exact Or.inl h
        · rcases ih h with h | ⟨u, hu, hc⟩
          · exact Or.inl h
          · exact Or.inr ⟨u, List.mem_cons_of_mem _ hu, hc⟩

theorem joinTokens_ne_nil {sep : Nat} {t : List Nat} (ts : List (List Nat)) (ht : t ≠ []) :
    joinTokens sep (t :: ts) ≠ [] := by
  cases ts with
  | nil => simpa [joinTokens] using ht
  | cons t2 ts =>
    rw [joinTokens_cons_cons]
    intro h
    exact ht (List.append_eq_nil.1 h).1

theorem joinTokens_headD {sep : Nat} {t : List Nat} (ts : List (List Nat)) (ht : t ≠ []) :
    (joinTokens sep (t :: ts)).headD 0 = t.headD 0 := by
  cases t with
  | nil => exact absurd rfl ht
  | cons c tl =>
    cases ts with
    | nil => rfl
    | cons t2 ts => rfl

/-- The tokens of `t1 sep t2 sep ... tn` are `t1, ..., tn`, when the `ti` are
non-empty and hold neither NUL nor `sep`. -/
theorem tokens_joinTokens (sep : Nat) (hsep : sep ≠ 0) (toks : List (List Nat))
    (h : ∀ t ∈ toks, t ≠ [] ∧ ∀ c ∈ t, c ≠ 0 ∧ c ≠ sep) :
    tokens [sep] (joinTokens sep toks) = toks := by
  have hcs : cstr [sep] = [sep] := cstr_of_not_mem (by simpa using hsep.symm)
  have hD : ∀ c, isDelim [sep] c = true ↔ c = sep := by
    intro c; simp [isDelim, hcs]
  have hT : ∀ t ∈ toks, ∀ c ∈ t, c ≠ 0 ∧ isDelim [sep] c = false := by
    intro t ht c hc
    refine ⟨((h t ht).2 c hc).1, ?_⟩
    cases hd : isDelim [sep] c with
    | false => rfl
    | true => exact absurd ((hD c).1 hd) ((h t ht).2 c hc).2
  induction toks with
  | nil => exact tokens_nil _
  | cons t ts ih =>
    have ht := h t (List.mem_cons_self _ _)
    have htT := hT t (List.mem_cons_self _ _)
    cases ts with
    | nil => exact tokens_single htT ht.1
    | cons t2 ts =>
      have hrest := ih (fun u hu => h u (List.mem_cons_of_mem _ hu))
        (fun u hu => hT u (List.mem_cons_of_mem _ hu))
      have h0 : 0 ∉ joinTokens sep (t2 :: ts) := by
        intro hm
        rcases joinTokens_mem hm with hm | ⟨u, hu, hc⟩
        · exact hsep hm.symm
        · exact ((h u (List.mem_cons_of_mem _ hu)).2 0 hc).1 rfl
      rw [joinTokens_cons_cons, tokens_cons_token htT ht.1 hsep ((hD sep).2 rfl) h0, hrest]

theorem charToInt_small (sg : Bool) {c : Nat} (hc : c ≤ 127) : charToInt sg c = (c : Int) := by
  unfold charToInt
  have : ¬ (128 ≤ c) := by omega
  simp [this]

/-- Bytes below 128 other than CR never advance the matching of CR LF. -/
theorem termScan_no_cr (sg : Bool) (bytes : List Nat)
    (h : ∀ c ∈ bytes, c ≠ 13) :
    termScan sg [13, 10] 0 bytes = some 0 := by
  induction bytes with
  | nil => rfl
  | cons b bs ih =>
    have hb : b ≠ 13 := h b (List.mem_cons_self _ _)
    have h1 : charToInt sg (termByte [13, 10] 0) ≠ (b : Int) := by
      have : termByte [13, 10] 0 = 13 := by decide
      rw [this, charToInt_small sg (by omega)]
      omega
    unfold termScan
    rw [if_pos h1]
    exact ih (fun c hc => h c (List.mem_cons_of_mem _ hc))

theorem storeAt_eq (bytes buf : List Nat) (pos : Nat) (h : pos + bytes.length ≤ buf.length) :
    storeAt buf pos bytes = buf.take pos ++ bytes ++ buf.drop (pos + bytes.length) := by
  induction bytes generalizing buf pos with
  | nil => simp [storeAt]
  | cons b bs ih =>
    simp only [List.length_cons] at h
    have hlt : pos < buf.length := by omega
    rw [storeAt, ih (buf.set pos b) (pos + 1) (by simp only [List.length_set]; omega)]
    rw [List.set_eq_take_append_cons_drop, if_pos hlt]
    have hl : (List.take pos buf).length = pos := by
      rw [List.length_take]; omega
    have e1 : List.take (pos + 1) (List.take pos buf ++ b :: List.drop (pos + 1) buf)
        = List.take pos buf ++ [b] := by
      rw [List.take_append_eq_append_take, hl]
      simp [List.take_of_length_le (Nat.le_succ_of_le (Nat.le_of_eq hl))]
    have e2 : List.drop (pos + 1 + bs.length) (List.take pos buf ++ b :: List.drop (pos + 1) buf)
        = List.drop (pos + (bs.length + 1)) buf := by
      rw [List.drop_append_eq_append_drop, hl]
      have : List.drop (pos + 1 + bs.length) (List.take pos buf) = [] := by
        apply List.drop_of_length_le
        rw [hl]; omega
      rw [this, List.nil_append]
      have e3 : pos + 1 + bs.length - pos = bs.length + 1 := by omega
      rw [e3, List.drop_succ_cons, List.drop_drop]
      congr 1
      omega
    rw [e1, e2]
    simp [List.length_cons]

theorem storeAt_zero (bytes buf : List Nat) (h : bytes.length ≤ buf.length) :
    storeAt buf 0 bytes = bytes ++ buf.drop bytes.length := by
  have := storeAt_eq bytes buf 0 (by omega)
  simpa using this

namespace SerialCommands

/-- The body for CR after at least one stored byte, terminator CR LF. -/
theorem ReadSerialBody_cr (u : SerialCommands) (hterm : u.term_ = [13, 10])
    (htp : u.term_pos_ = 0) (hpos : u.buffer_pos_ ≠ 0) (hlt : u.buffer_pos_ < u.buffer_len_)
    (hbuf : 0 < u.buffer_.length) :
    ReadSerialBody u ((13 : Nat) : Int) =
      (none, { u with buffer_ := u.buffer_.set u.buffer_pos_ 13,
                      buffer_pos_ := u.buffer_pos_ + 1, term_pos_ := 1 }) := by
  have h1 : charToInt u.char_signed (termByte u.term_ u.term_pos_) = ((13 : Nat) : Int) := by
    rw [hterm, htp]
    have : termByte [13, 10] 0 = 13 := by decide
    rw [this, charToInt_small _ (by omega)]
  have h2 : termByte u.term_ (int8 (u.term_pos_ + 1)) ≠ 0 := by
    rw [hterm, htp]
    decide
  rw [ReadSerialBody_advance u 13 (by omega) (by omega) hlt hbuf (fun h => absurd h hpos) h1 h2,
    htp]
  rfl

/-- The body for LF after a line and CR, terminator CR LF and delimiter space:
the line is dispatched to the command named by its first token, whose handler
reads the other tokens. -/
theorem ReadSerialBody_lf (v : SerialCommands) (line rest : List Nat) (x : Nat)
    (t1 : List Nat) (ts : List (List Nat)) (cx k : Nat) (cmd : SerialCommand)
    (hterm : v.term_ = [13, 10]) (hdelim : v.delim_ = [32]) (htp : v.term_pos_ = 1)
    (hbufv : v.buffer_ = line ++ 13 :: x :: rest) (hpos : v.buffer_pos_ = line.length + 1)
    (hlt : v.buffer_pos_ < v.buffer_len_) (h0 : 0 ∉ line)
    (htok : tokens [32] line = t1 :: ts)
    (hi : v.commands_[cx]? = some cmd) (hname : cstr cmd.command = t1)
    (hfirst : ∀ j, j < cx → ∀ c, v.commands_[j]? = some c → cstr c.command ≠ t1)
    (hfun : cmd.function = List.replicate k Action.Next) :
    ∃ buf1 q1, ReadSerialBody v ((10 : Nat) : Int) =
      (none, { v with buffer_ := buf1, last_token_ := some q1, buffer_pos_ := 0, term_pos_ := 0,
                      trace := v.trace ++ Event.command cx ::
                        (List.range k).map (fun i => Event.next (ts[i]?)) }) := by
  have h1 : charToInt v.char_signed (termByte v.term_ v.term_pos_) = ((10 : Nat) : Int) := by
    rw [hterm, htp]
    have : termByte [13, 10] 1 = 10 := by decide
    rw [this, charToInt_small _ (by omega)]
  have h2 : termByte v.term_ (int8 (v.term_pos_ + 1)) = 0 := by
    rw [hterm, htp]
    decide
  have hbuf : 0 < v.buffer_.length := by rw [hbufv]; simp
  have hset : (v.buffer_.set v.buffer_pos_ 10).set (v.buffer_pos_ + 1 - strlen v.term_) 0
      = line ++ 0 :: 10 :: rest := by
    have hs : strlen v.term_ = 2 := by rw [hterm]; decide
    have e1 : v.buffer_pos_ + 1 - strlen v.term_ = line.length + 0 := by rw [hs, hpos]; omega
    rw [e1, hbufv, hpos, set_at, set_at]
    rfl
  rw [ReadSerialBody_complete v 10 (by omega) (by omega) hlt hbuf
    (fun h => by rw [hpos] at h; omega) h1 h2, hset]
  have htokv : tokens v.delim_ line = t1 :: ts := by rw [hdelim]; exact htok
  obtain ⟨buf1, q1, w1, hpb, ht1, htk1, _⟩ := ProcessBuffer_match (runHandler 2)
    { v with buffer_ := line ++ 0 :: 10 :: rest, buffer_pos_ := v.buffer_pos_ + 1,
             term_pos_ := int8 (v.term_pos_ + 1) }
    (w := line) ⟨[], 10 :: rest, rfl, rfl, h0⟩ htokv hi hname hfirst
  obtain ⟨buf2, q2, hrun, _⟩ := runHandler_nexts 1 k
    { v with buffer_ := buf1, buffer_pos_ := v.buffer_pos_ + 1,
             term_pos_ := int8 (v.term_pos_ + 1), last_token_ := some q1,
             trace := v.trace ++ [Event.command cx] }
    (q := q1) (w := w1) rfl ht1
  refine ⟨buf2.set 0 0, q2, ?_⟩
  rw [hpb, hfun, hrun]
  simp only [ClearBuffer, htk1, List.append_assoc, List.singleton_append]

end SerialCommands

namespace SerialCommands

theorem replicate_append_two (n : Nat) (a : SERIAL_COMMANDS_ERRORS) :
    List.replicate (n + 1) a ++ [a, a] = List.replicate (n + 1 + (0 + 1 + 1)) a := by
  induction n with
  | zero => rfl
  | succ n ih =>
    rw [List.replicate_succ, List.cons_append, ih]
    rfl

/-- CR LF after a stored line, read by one `ReadSerial` call or by two: the
line is dispatched to the command named by its first token. -/
theorem crlf_dispatch (u : SerialCommands) (line rest : List Nat) (y x : Nat)
    (t1 : List Nat) (ts : List (List Nat)) (cx k : Nat) (cmd : SerialCommand)
    (hterm : u.term_ = [13, 10]) (hdelim : u.delim_ = [32]) (htp : u.term_pos_ = 0)
    (hbufu : u.buffer_ = line ++ y :: x :: rest) (hpos : u.buffer_pos_ = line.length)
    (hne : line ≠ []) (hfit : line.length + 2 ≤ u.buffer_len_) (h0 : 0 ∉ line)
    (htok : tokens [32] line = t1 :: ts)
    (hi : u.commands_[cx]? = some cmd) (hname : cstr cmd.command = t1)
    (hfirst : ∀ j, j < cx → ∀ c, u.commands_[j]? = some c → cstr c.command ≠ t1)
    (hfun : cmd.function = List.replicate k Action.Next) :
    ∃ buf1 q1, ∀ sr,
      ReadSerialLoop { u with serial_ := sr } [((13 : Nat) : Int), ((10 : Nat) : Int)] =
        (SERIAL_COMMANDS_ERRORS.SERIAL_COMMANDS_SUCCESS,
          { u with serial_ := some [], buffer_ := buf1, last_token_ := some q1,
                   buffer_pos_ := 0, term_pos_ := 0,
                   trace := u.trace ++ Event.command cx ::
                     (List.range k).map (fun i => Event.next (ts[i]?)) }) ∧
      feedEach { u with serial_ := some [] } [((13 : Nat) : Int), ((10 : Nat) : Int)] =
        ([SERIAL_COMMANDS_ERRORS.SERIAL_COMMANDS_SUCCESS,
            SERIAL_COMMANDS_ERRORS.SERIAL_COMMANDS_SUCCESS],
          { u with serial_ := some [], buffer_ := buf1, last_token_ := some q1,
                   buffer_pos_ := 0, term_pos_ := 0,
                   trace := u.trace ++ Event.command cx ::
                     (List.range k).map (fun i => Event.next (ts[i]?)) }) := by
  have hlen : 0 < line.length := List.length_pos.2 hne
  have hset : u.buffer_.set u.buffer_pos_ 13 = line ++ 13 :: x :: rest := by
    rw [hbufu, hpos]
    simp
  obtain ⟨buf1, q1, hlf⟩ := ReadSerialBody_lf
    { u with serial_ := some [], buffer_ := line ++ 13 :: x :: rest,
             buffer_pos_ := line.length + 1, term_pos_ := 1 }
    line rest x t1 ts cx k cmd hterm hdelim rfl rfl rfl
    (by simp only; omega) h0 htok hi hname hfirst hfun
  have hcr : ∀ sr, ReadSerialBody { u with serial_ := sr } ((13 : Nat) : Int) =
      (none, { u with serial_ := sr, buffer_ := line ++ 13 :: x :: rest,
                      buffer_pos_ := line.length + 1, term_pos_ := 1 }) := by
    intro sr
    rw [ReadSerialBody_cr { u with serial_ := sr } hterm htp (by simp only; omega)
      (by simp only; omega) (by simp only; rw [hbufu]; simp)]
    rw [hpos] at hset
    simp only [hset, hpos]
  refine ⟨buf1, q1, fun sr => ⟨?_, ?_⟩⟩
  · simp only [ReadSerialLoop, hcr, hlf]
  · simp only [feedEach, feed, ReadSerial, Option.getD_some, List.nil_append, ReadSerialLoop,
      hcr, hlf]

/-- Claim C1 (complete-line dispatch). A cleared scanner (terminator CR LF,
delimiter space, stream attached and empty, array of `buffer_len_ + 1` bytes)
receives `t1 ' ' t2 ' ' ... tn CR LF`, where the tokens are non-empty with
bytes in `1..127` other than space, CR and LF, `t1` is the name of a registered
command (first such descriptor at index `cx`, its handler calling `Next()` `k`
times), the first byte of `t1` is no one-key command and the whole line fits
the usable capacity. Whether the bytes are read by one `ReadSerial` call or by
one call per byte, every call returns `SUCCESS`, the only handler called is
that of descriptor `cx`, its `Next()` calls return `t2, ..., tn` in order and
then `NULL`, and afterwards `buffer_pos_ = 0` and `term_pos_ = 0`. -/
theorem complete_line_dispatch (s : SerialCommands) (t1 : List Nat) (ts : List (List Nat))
    (cx k : Nat) (cmd : SerialCommand)
    (hpos : s.buffer_pos_ = 0) (htp : s.term_pos_ = 0)
    (hterm : s.term_ = [13, 10]) (hdelim : s.delim_ = [32]) (hser : s.serial_ = some [])
    (hbuf : s.buffer_len_ < s.buffer_.length)
    (htoks : ∀ t ∈ t1 :: ts, t ≠ [] ∧ ∀ c ∈ t, 1 ≤ c ∧ c ≤ 127 ∧ c ≠ 32 ∧ c ≠ 13 ∧ c ≠ 10)
    (hi : s.commands_[cx]? = some cmd) (hname : cstr cmd.command = t1)
    (hfirst : ∀ j, j < cx → ∀ c, s.commands_[j]? = some c → cstr c.command ≠ t1)
    (hfun : cmd.function = List.replicate k Action.Next)
    (hkey : matchOneKey (t1.headD 0) s.onek_cmds_ 0 = none)
    (hfit : (joinTokens 32 (t1 :: ts) ++ [13, 10]).length ≤ s.buffer_len_) :
    ∃ buf1 q1,
      feed s (toStream (joinTokens 32 (t1 :: ts) ++ [13, 10])) =
        (SERIAL_COMMANDS_ERRORS.SERIAL_COMMANDS_SUCCESS,
          { s with serial_ := some [], buffer_ := buf1, last_token_ := some q1,
                   buffer_pos_ := 0, term_pos_ := 0,
                   trace := s.trace ++ Event.command cx ::
                     (List.range k).map (fun i => Event.next (ts[i]?)) }) ∧
      feedEach s (toStream (joinTokens 32 (t1 :: ts) ++ [13, 10])) =
        (List.replicate (joinTokens 32 (t1 :: ts) ++ [13, 10]).length
            SERIAL_COMMANDS_ERRORS.SERIAL_COMMANDS_SUCCESS,
          { s with serial_ := some [], buffer_ := buf1, last_token_ := some q1,
                   buffer_pos_ := 0, term_pos_ := 0,
                   trace := s.trace ++ Event.command cx ::
                     (List.range k).map (fun i => Event.next (ts[i]?)) }) := by
  -- facts about the line
  have ht1 := htoks t1 (List.mem_cons_self _ _)
  have hline_ne : joinTokens 32 (t1 :: ts) ≠ [] := joinTokens_ne_nil ts ht1.1
  have hmem : ∀ c ∈ joinTokens 32 (t1 :: ts), 0 < c ∧ c ≤ 255 ∧ c ≠ 13 ∧ c ≠ 0 := by
    intro c hc
    rcases joinTokens_mem hc with h | ⟨t, ht, hct⟩
    · subst h; decide
    · have := (htoks t ht).2 c hct
      omega
  have h0 : 0 ∉ joinTokens 32 (t1 :: ts) := fun h => (hmem 0 h).2.2.2 rfl
  have htok : tokens [32] (joinTokens 32 (t1 :: ts)) = t1 :: ts :=
    tokens_joinTokens 32 (by decide) (t1 :: ts)
      (fun t ht => ⟨(htoks t ht).1, fun c hc => by have := (htoks t ht).2 c hc; omega⟩)
  have hhead : (joinTokens 32 (t1 :: ts)).headD 0 = t1.headD 0 := joinTokens_headD ts ht1.1
  generalize hl : joinTokens 32 (t1 :: ts) = line at *
  obtain ⟨b, bs, rfl⟩ := List.exists_cons_of_ne_nil hline_ne
  simp only [List.headD_cons] at hhead
  have hscan : termScan s.char_signed s.term_ s.term_pos_ (b :: bs) = some 0 := by
    rw [hterm, htp]
    exact termScan_no_cr _ _ (fun c hc => (hmem c hc).2.2.1)
  have hb : ∀ x ∈ b :: bs, 0 < x ∧ x ≤ 255 := fun x hx => ⟨(hmem x hx).1, (hmem x hx).2.1⟩
  simp only [List.length_append, List.length_cons, List.length_nil] at hfit
  have hfit1 : s.buffer_pos_ + (bs.length + 1) ≤ s.buffer_len_ := by omega
  have hbuf0 : 0 < s.buffer_.length := by omega
  have hk : s.buffer_pos_ = 0 → matchOneKey b s.onek_cmds_ 0 = none := fun _ => hhead ▸ hkey
  have hser0 : s.serial_.getD [] = [] := by rw [hser]; rfl
  have hst : storeAt s.buffer_ s.buffer_pos_ (b :: bs) =
      (b :: bs) ++ s.buffer_.drop (bs.length + 1) := by
    rw [hpos]
    exact storeAt_zero (b :: bs) s.buffer_ (by simp only [List.length_cons]; omega)
  -- the array after the line and CR
  obtain ⟨y, x, rest, hdrop⟩ : ∃ y x rest, s.buffer_.drop (bs.length + 1) = y :: x :: rest := by
    have hlen : (s.buffer_.drop (bs.length + 1)).length = s.buffer_.length - (bs.length + 1) :=
      List.length_drop _ _
    match hd : s.buffer_.drop (bs.length + 1), hlen with
    | [], h => simp at h; omega
    | [y], h => simp at h; omega
    | y :: x :: rest, _ => exact ⟨y, x, rest, rfl⟩
  rw [hdrop] at hst
  have hcr : ((b :: bs) ++ y :: x :: rest).set (bs.length + 1) 13 =
      (b :: bs) ++ 13 :: x :: rest := by
    simp
  -- the dispatch on CR LF
  obtain ⟨buf1, q1, hcrlf⟩ := crlf_dispatch
    { s with serial_ := some [], buffer_ := storeAt s.buffer_ s.buffer_pos_ (b :: bs),
             buffer_pos_ := s.buffer_pos_ + (bs.length + 1), term_pos_ := 0 }
    (b :: bs) rest y x t1 ts cx k cmd hterm hdelim rfl hst
    (by simp only [hpos, List.length_cons]; omega) hline_ne
    (by simp only [List.length_cons]; omega) h0 htok hi hname hfirst hfun
  have hstream : toStream ((b :: bs) ++ [13, 10]) =
      toStream (b :: bs) ++ [((13 : Nat) : Int), ((10 : Nat) : Int)] := by
    simp [toStream]
  refine ⟨buf1, q1, ?_, ?_⟩
  · rw [hstream, feed_eq s _ hser0,
      ReadSerialLoop_scan bs b
        { s with serial_ := some (toStream (b :: bs) ++ [((13 : Nat) : Int), ((10 : Nat) : Int)]) }
        [((13 : Nat) : Int), ((10 : Nat) : Int)] 0 hb hfit1 hbuf0 hk hscan]
    exact (hcrlf (some [((13 : Nat) : Int), ((10 : Nat) : Int)])).1
  · rw [hstream, feedEach_append, feedEach_scan bs b s 0 hb hfit1 hbuf0 hk hscan hser0]
    simp only
    rw [(hcrlf none).2]
    simp only [List.length_append, List.length_cons, List.length_nil, Prod.mk.injEq, and_true]
    exact replicate_append_two _ _

end SerialCommands

namespace SerialCommands

theorem complete_line_dispatch_witness :
    ∃ buf1 q1,
      feed scenario1 (toStream (joinTokens 32 ([76, 69, 68] :: [[79, 78]]) ++ [13, 10])) =
        (SERIAL_COMMANDS_ERRORS.SERIAL_COMMANDS_SUCCESS,
          { scenario1 with
              serial_ := some [], buffer_ := buf1, last_token_ := some q1,
              buffer_pos_ := 0, term_pos_ := 0,
              trace := scenario1.trace ++ Event.command 0 ::
                (List.range 2).map (fun i => Event.next ([[79, 78]][i]?)) }) ∧
      feedEach scenario1 (toStream (joinTokens 32 ([76, 69, 68] :: [[79, 78]]) ++ [13, 10])) =
        (List.replicate (joinTokens 32 ([76, 69, 68] :: [[79, 78]]) ++ [13, 10]).length
            SERIAL_COMMANDS_ERRORS.SERIAL_COMMANDS_SUCCESS,
          { scenario1 with
              serial_ := some [], buffer_ := buf1, last_token_ := some q1,
              buffer_pos_ := 0, term_pos_ := 0,
              trace := scenario1.trace ++ Event.command 0 ::
                (List.range 2).map (fun i => Event.next ([[79, 78]][i]?)) }) :=
  complete_line_dispatch scenario1 [76, 69, 68] [[79, 78]] 0 2
    ⟨[76, 69, 68], [Action.Next, Action.Next], false⟩
    (by decide) (by decide) (by decide) (by decide) (by decide) (by decide) (by decide)
    (by decide) (by decide) (fun j hj => absurd hj (Nat.not_lt_zero j)) (by decide) (by decide)
    (by decide)

end SerialCommands

/-! ## Adequacy of the depth bound of the handler runs -/

namespace SerialCommands

theorem execAction_flag_Next (run : Handler → SerialCommands → SerialCommands)
    (a : SerialCommands) :
    (execAction run a Action.Next).is_processing_cmdline_ = a.is_processing_cmdline_ := rfl

theorem execAction_Next_indep (run run2 : Handler → SerialCommands → SerialCommands)
    (a : SerialCommands) :
    execAction run a Action.Next = execAction run2 a Action.Next := rfl

/-- With the flag set, a handler body runs the same at every depth. -/
theorem runHandler_depth_locked (d : Nat) (h : Handler) (a : SerialCommands)
    (hflag : a.is_processing_cmdline_ = true) :
    runHandler (d + 1) h a = runHandler 1 h a ∧
      (runHandler 1 h a).is_processing_cmdline_ = true := by
  induction h generalizing a with
  | nil => exact ⟨rfl, hflag⟩
  | cons act h ih =>
    rw [runHandler_cons, runHandler_cons]
    cases act with
    | Next =>
      rw [execAction_Next_indep (runHandler d) (runHandler 0) a]
      exact ih _ (by rw [execAction_flag_Next]; exact hflag)
    | ProcessCommandLine line =>
      have e : ∀ run, execAction run a (Action.ProcessCommandLine line) =
          { a with trace := a.trace ++ [Event.cmdline false] } := by
        intro run
        simp [execAction, ProcessCommandLineWith_locked _ _ _ hflag]
      rw [e, e]
      exact ih _ hflag

/-- `ProcessCommandLine` does not depend on the depth given to the handlers it
dispatches. -/
theorem ProcessCommandLineWith_depth (d : Nat) (line : Option (List Nat)) (a : SerialCommands) :
    ProcessCommandLineWith (runHandler (d + 1)) line a =
      ProcessCommandLineWith (runHandler 1) line a := by
  cases hacc : (ProcessCommandLineWith (runHandler 1) line a).1 with
  | false =>
    have h1 := ProcessCommandLineWith_rejected _ _ _ hacc
    have h2 : (ProcessCommandLineWith (runHandler (d + 1)) line a).1 = false := by
      cases h : (ProcessCommandLineWith (runHandler (d + 1)) line a).1 with
      | false => rfl
      | true =>
        obtain ⟨_, _, _, hall⟩ := ProcessCommandLineWith_shape _ _ _ h
        rw [hall (runHandler 1)] at hacc
        exact absurd hacc (by simp)
    rw [h1, ProcessCommandLineWith_rejected _ _ _ h2]
  | true =>
    obtain ⟨s4, hs4, _, hall⟩ := ProcessCommandLineWith_shape _ _ _ hacc
    rw [hall (runHandler (d + 1)), hall (runHandler 1)]
    rcases ProcessBuffer_shape s4 with ⟨buf1, lt, hpb⟩ | ⟨h, buf1, lt, e, _, hpb⟩
    · rw [hpb, hpb]
    · rw [hpb, hpb, (runHandler_depth_locked d h
        { s4 with buffer_ := buf1, last_token_ := lt, trace := s4.trace ++ [e] } hs4).1]

theorem runHandler_succ (d : Nat) (h : Handler) (s : SerialCommands) :
    runHandler (d + 1) h s = h.foldl (execAction (runHandler d)) s := rfl

theorem execAction_depth (d : Nat) :
    execAction (runHandler (d + 1)) = execAction (runHandler 1) := by
  funext a act
  cases act with
  | Next => exact execAction_Next_indep _ _ a
  | ProcessCommandLine line => simp only [execAction, ProcessCommandLineWith_depth]

/-- Depth 2 is enough for a handler called from `ReadSerial`: more depth gives
the same run. -/
theorem runHandler_depth (d : Nat) (h : Handler) (a : SerialCommands) :
    runHandler (d + 2) h a = runHandler 2 h a := by
  rw [runHandler_succ (d + 1) h a, runHandler_succ 1 h a, execAction_depth]

end SerialCommands

/-! ## Frame conditions -/

theorem Frame.refl (P : Event → Prop) (s : SerialCommands) : Frame P s s :=
  ⟨rfl, rfl, rfl, rfl, rfl, rfl, rfl, rfl, rfl, rfl, rfl, rfl, [], by simp, by simp⟩

theorem Frame.trans {P : Event → Prop} {s t u : SerialCommands} (h1 : Frame P s t)
    (h2 : Frame P t u) : Frame P s u := by
  obtain ⟨e1, he1, hp1⟩ := h1.trace_ext
  obtain ⟨e2, he2, hp2⟩ := h2.trace_ext
  exact ⟨h2.serial_eq.trans h1.serial_eq, h2.buffer_len_eq.trans h1.buffer_len_eq,
    h2.length_eq.trans h1.length_eq, h2.term_eq.trans h1.term_eq,
    h2.delim_eq.trans h1.delim_eq, h2.default_eq.trans h1.default_eq,
    h2.commands_eq.trans h1.commands_eq, h2.onek_eq.trans h1.onek_eq,
    h2.count_eq.trans h1.count_eq, h2.onek_count_eq.trans h1.onek_count_eq,
    h2.flag_eq.trans h1.flag_eq, h2.signed_eq.trans h1.signed_eq,
    e1 ++ e2, by rw [he2, he1, List.append_assoc],
    fun e he => (List.mem_append.1 he).elim (hp1 e) (hp2 e)⟩

theorem Frame.mono {P Q : Event → Prop} {s t : SerialCommands} (h : Frame P s t)
    (hpq : ∀ e, P e → Q e) : Frame Q s t := by
  obtain ⟨e1, he1, hp1⟩ := h.trace_ext
  exact ⟨h.serial_eq, h.buffer_len_eq, h.length_eq, h.term_eq, h.delim_eq, h.default_eq,
    h.commands_eq, h.onek_eq, h.count_eq, h.onek_count_eq, h.flag_eq, h.signed_eq,
    e1, he1, fun e he => hpq e (hp1 e he)⟩

theorem strtok_r_length (buf : List Nat) (str : Option Nat) (delim : List Nat)
    (save : Option Nat) : (strtok_r buf str delim save).2.1.length = buf.length := by
  unfold strtok_r
  cases (str <|> save) with
  | none => rfl
  | some p =>
    simp only
    split_ifs <;> simp

namespace SerialCommands

/-- A change of the array that keeps its size, of the cursors and of the
tokenizer cursor is within the frame. -/
theorem Frame_buffer (P : Event → Prop) (s : SerialCommands) (buf : List Nat) (pos : Nat)
    (tp : Int) (lt : Option Nat) (h : buf.length = s.buffer_.length) :
    Frame P s { s with buffer_ := buf, buffer_pos_ := pos, term_pos_ := tp, last_token_ := lt } :=
  ⟨rfl, rfl, h, rfl, rfl, rfl, rfl, rfl, rfl, rfl, rfl, rfl, [], by simp, by simp⟩

/-- Recording one event that satisfies `P` is within the frame. -/
theorem Frame_event (P : Event → Prop) (s : SerialCommands) (e : Event) (he : P e) :
    Frame P s { s with trace := s.trace ++ [e] } :=
  ⟨rfl, rfl, rfl, rfl, rfl, rfl, rfl, rfl, rfl, rfl, rfl, rfl, [e], rfl, by simpa using he⟩

theorem Frame_ClearBuffer (P : Event → Prop) (s : SerialCommands) : Frame P s (ClearBuffer s) :=
  ⟨rfl, rfl, by simp [ClearBuffer], rfl, rfl, rfl, rfl, rfl, rfl, rfl, rfl, rfl, [], by simp [ClearBuffer],
    by simp⟩

theorem Frame_Next (P : Event → Prop) (s : SerialCommands) : Frame P s (Next s).2 :=
  ⟨rfl, rfl, strtok_r_length _ _ _ _, rfl, rfl, rfl, rfl, rfl, rfl, rfl, rfl, rfl, [],
    by simp [Next], by simp⟩

/-- A dispatch is within the frame when the handler runs are. -/
theorem Frame_ProcessBuffer (P : Event → Prop) (hc : ∀ cx, P (Event.command cx))
    (hd : ∀ t, P (Event.default_handler t))
    (run : Handler → SerialCommands → SerialCommands)
    (hrun : ∀ h t, Frame P t (run h t)) (s : SerialCommands) :
    Frame P s (ProcessBuffer run s) := by
  have h1 : Frame P s { s with
      buffer_ := (strtok_r s.buffer_ (some 0) s.delim_ s.last_token_).2.1,
      last_token_ := (strtok_r s.buffer_ (some 0) s.delim_ s.last_token_).2.2 } :=
    Frame_buffer P s _ s.buffer_pos_ s.term_pos_ _ (strtok_r_length _ _ _ _)
  have h2 : ∀ e, P e → Frame P s { s with
      buffer_ := (strtok_r s.buffer_ (some 0) s.delim_ s.last_token_).2.1,
      last_token_ := (strtok_r s.buffer_ (some 0) s.delim_ s.last_token_).2.2,
      trace := s.trace ++ [e] } :=
    fun e he => ⟨rfl, rfl, strtok_r_length _ _ _ _, rfl, rfl, rfl, rfl, rfl, rfl, rfl, rfl, rfl,
      [e], rfl, by simpa using he⟩
  unfold ProcessBuffer
  simp only
  split
  · exact h1.trans (Frame_ClearBuffer P _)
  · split
    · exact ((h2 _ (hc _)).trans (hrun _ _)).trans (Frame_ClearBuffer P _)
    · split
      · exact ((h2 _ (hd _)).trans (hrun _ _)).trans (Frame_ClearBuffer P _)
      · exact h1.trans (Frame_ClearBuffer P _)

/-- A `ProcessCommandLine` call is within the frame when the handler runs are. -/
theorem Frame_ProcessCommandLineWith (P : Event → Prop) (hc : ∀ cx, P (Event.command cx))
    (hd : ∀ t, P (Event.default_handler t))
    (run : Handler → SerialCommands → SerialCommands)
    (hrun : ∀ h t, Frame P t (run h t)) (line : Option (List Nat)) (s : SerialCommands) :
    Frame P s (ProcessCommandLineWith run line s).2 := by
  cases hacc : (ProcessCommandLineWith run line s).1 with
  | false =>
    rw [ProcessCommandLineWith_rejected run line s hacc]
    exact Frame.refl P s
  | true =>
    unfold ProcessCommandLineWith at hacc ⊢
    cases line with
    | none => simp at hacc
    | some l =>
      simp only at hacc ⊢
      by_cases h1 : strlen l = 0
      · rw [if_pos h1] at hacc; simp at hacc
      · rw [if_neg h1] at hacc ⊢
        by_cases h2 : intToSize ((s.buffer_len_ : Int) - 1) ≤ strlen l
        · rw [if_pos h2] at hacc; simp at hacc
        · rw [if_neg h2] at hacc ⊢
          by_cases h3 : s.is_processing_cmdline_ = true
          · rw [if_pos h3] at hacc; simp at hacc
          · rw [if_neg h3]
            have hpb := Frame_ProcessBuffer P hc hd run hrun
              { s with
                is_processing_cmdline_ := true,
                buffer_ :=
                  if s.buffer_len_ = 0 then
                    strncpy (s.buffer_.set 0 0) l (intToSize ((s.buffer_len_ : Int) - 1))
                  else (strncpy (s.buffer_.set 0 0) l
                    (intToSize ((s.buffer_len_ : Int) - 1))).set (s.buffer_len_ - 1) 0,
                buffer_pos_ := 0, term_pos_ := 0 }
            obtain ⟨evs, hevs, hp⟩ := hpb.trace_ext
            have hlen : (if s.buffer_len_ = 0 then
                    strncpy (s.buffer_.set 0 0) l (intToSize ((s.buffer_len_ : Int) - 1))
                  else (strncpy (s.buffer_.set 0 0) l
                    (intToSize ((s.buffer_len_ : Int) - 1))).set (s.buffer_len_ - 1) 0).length
                = s.buffer_.length := by
              split_ifs <;> simp [strncpy_length]
            exact ⟨hpb.serial_eq, hpb.buffer_len_eq, hpb.length_eq.trans hlen, hpb.term_eq,
              hpb.delim_eq, hpb.default_eq, hpb.commands_eq, hpb.onek_eq, hpb.count_eq,
              hpb.onek_count_eq, by simpa using h3, hpb.signed_eq, evs, hevs, hp⟩

/-- One call made by a handler is within the frame when nested handler runs
are. -/
theorem Frame_execAction (P : Event → Prop) (hc : ∀ cx, P (Event.command cx))
    (hd : ∀ t, P (Event.default_handler t)) (hn : ∀ r, P (Event.next r))
    (hl : ∀ r, P (Event.cmdline r))
    (run : Handler → SerialCommands → SerialCommands)
    (hrun : ∀ h t, Frame P t (run h t)) (s : SerialCommands) (act : Action) :
    Frame P s (execAction run s act) := by
  cases act with
  | Next => exact (Frame_Next P s).trans (Frame_event P _ _ (hn _))
  | ProcessCommandLine line =>
    exact (Frame_ProcessCommandLineWith P hc hd run hrun line s).trans
      (Frame_event P _ _ (hl _))

/-- A handler run, at any depth, is within the frame. -/
theorem Frame_runHandler (P : Event → Prop) (hc : ∀ cx, P (Event.command cx))
    (hd : ∀ t, P (Event.default_handler t)) (hn : ∀ r, P (Event.next r))
    (hl : ∀ r, P (Event.cmdline r)) (d : Nat) :
    ∀ (h : Handler) (s : SerialCommands), Frame P s (runHandler d h s) := by
  induction d with
  | zero => exact fun h s => Frame.refl P s
  | succ d ih =>
    intro h
    induction h with
    | nil => exact fun s => Frame.refl P s
    | cons act h ihh =>
      intro s
      rw [runHandler_cons]
      exact (Frame_execAction P hc hd hn hl (runHandler d) ih s act).trans (ihh _)

theorem Frame_CheckOneKeyCmd (s : SerialCommands) : Frame anyEvent s (CheckOneKeyCmd s).2 := by
  unfold CheckOneKeyCmd
  split
  · exact ((Frame_event anyEvent _ _ trivial).trans
      (Frame_runHandler anyEvent (fun _ => trivial) (fun _ => trivial) (fun _ => trivial)
        (fun _ => trivial) 2 _ _)).trans (Frame_ClearBuffer anyEvent _)
  · exact Frame.refl _ s

/-- The loop body of `ReadSerial` is within the frame. -/
theorem Frame_ReadSerialBody (s : SerialCommands) (ch : Int) :
    Frame anyEvent s (ReadSerialBody s ch).2 := by
  have hrun := Frame_runHandler anyEvent (fun _ => trivial) (fun _ => trivial)
    (fun _ => trivial) (fun _ => trivial) 2
  unfold ReadSerialBody
  by_cases h0 : ch ≤ 0
  · rw [if_pos h0]
    exact Frame.refl _ s
  · rw [if_neg h0]
    by_cases hlt : s.buffer_pos_ < s.buffer_len_
    · rw [if_pos hlt]
      simp only
      have h1 : Frame anyEvent s { s with
          buffer_ := s.buffer_.set s.buffer_pos_ (ch % 256).toNat,
          buffer_pos_ := s.buffer_pos_ + 1 } :=
        Frame_buffer anyEvent s _ _ s.term_pos_ s.last_token_ (by simp)
      have hk : Frame anyEvent s
          (if s.buffer_pos_ + 1 = 1 then
            CheckOneKeyCmd { s with buffer_ := s.buffer_.set s.buffer_pos_ (ch % 256).toNat,
                                    buffer_pos_ := s.buffer_pos_ + 1 }
          else (false, { s with buffer_ := s.buffer_.set s.buffer_pos_ (ch % 256).toNat,
                                buffer_pos_ := s.buffer_pos_ + 1 })).2 := by
        split_ifs
        · exact h1.trans (Frame_CheckOneKeyCmd _)
        · exact h1
      generalize (if s.buffer_pos_ + 1 = 1 then
            CheckOneKeyCmd { s with buffer_ := s.buffer_.set s.buffer_pos_ (ch % 256).toNat,
                                    buffer_pos_ := s.buffer_pos_ + 1 }
          else (false, { s with buffer_ := s.buffer_.set s.buffer_pos_ (ch % 256).toNat,
                                buffer_pos_ := s.buffer_pos_ + 1 })) = k at hk ⊢
      split_ifs
      · exact hk
      · exact hk.trans (Frame_buffer anyEvent k.2 k.2.buffer_ k.2.buffer_pos_ 0 k.2.last_token_ rfl)
      · refine (hk.trans (?_ : Frame anyEvent k.2 _)).trans
          (Frame_ProcessBuffer anyEvent (fun _ => trivial) (fun _ => trivial) _ hrun _)
        exact Frame_buffer anyEvent k.2 _ k.2.buffer_pos_ _ k.2.last_token_ (by simp)
      · exact hk.trans (Frame_buffer anyEvent k.2 k.2.buffer_ k.2.buffer_pos_ _ k.2.last_token_ rfl)
    · rw [if_neg hlt]
      exact Frame_ClearBuffer _ s

end SerialCommands

/-! ## One-key commands and injected lines -/

namespace SerialCommands

theorem Frame_runHandler_notOneKey (d : Nat) (h : Handler) (s : SerialCommands) :
    Frame notOneKey s (runHandler d h s) :=
  Frame_runHandler notOneKey (fun _ _ hh => by cases hh) (fun _ _ hh => by cases hh)
    (fun _ _ hh => by cases hh) (fun _ _ hh => by cases hh) d h s

/-- The dispatch of a line with first token `tok`: the first descriptor named
`tok`, else the default handler, else nothing. -/
theorem ProcessBuffer_lookup (run : Handler → SerialCommands → SerialCommands)
    (s : SerialCommands) (w tok : List Nat) (ts : List (List Nat))
    (ht : TokState s.buffer_ 0 w) (hw : tokens s.delim_ w = tok :: ts) :
    (∃ cx cmd buf1 q1, s.commands_[cx]? = some cmd ∧ cstr cmd.command = tok ∧
        (∀ j, j < cx → ∀ c, s.commands_[j]? = some c → cstr c.command ≠ tok) ∧
        ProcessBuffer run s =
          ClearBuffer (run cmd.function { s with buffer_ := buf1, last_token_ := some q1,
                                                 trace := s.trace ++ [Event.command cx] })) ∨
    ((∀ c ∈ s.commands_, cstr c.command ≠ tok) ∧
      ∃ buf1 q1, ProcessBuffer run s =
        match s.default_handler_ with
        | some h =>
          ClearBuffer (run h { s with buffer_ := buf1, last_token_ := some q1,
                                      trace := s.trace ++ [Event.default_handler (some tok)] })
        | none => ClearBuffer { s with buffer_ := buf1, last_token_ := some q1 }) := by
  obtain ⟨buf1, q1, w1, b, _, _, _, htok, hpb⟩ := ProcessBuffer_first_token run s ht hw
  cases hm : matchCommand (buf1.drop b) s.commands_ 0 with
  | some r =>
    obtain ⟨cx, cmd⟩ := r
    obtain ⟨i, hcx, hi, hname, hfirst⟩ := matchCommand_some_spec _ _ _ _ _ hm
    rw [Nat.zero_add] at hcx
    subst hcx
    rw [htok] at hname hfirst
    left
    refine ⟨cx, cmd, buf1, q1, hi, hname, hfirst, ?_⟩
    rw [hpb, hm]
  | none =>
    right
    have hno := matchCommand_none_spec _ _ _ hm
    rw [htok] at hno
    refine ⟨hno, buf1, q1, ?_⟩
    rw [hpb, hm]

/-- Claim C11 (hotkeys are unreachable through injection). For a line `l` that
`ProcessCommandLine` accepts (array of `buffer_len_ + 1` bytes,
`1 ≤ buffer_len_ ≤ 32766`): no event recorded during the call is the call of a
one-key handler, whatever the one-key list holds; and when `l` has a first
token `t1`, the call goes to the first descriptor of the regular list named
`t1`, or, when the regular list has no such descriptor, to the default handler
with `t1` (to nothing when there is none). -/
theorem hotkeys_unreachable_through_injection (s : SerialCommands) (l : List Nat)
    (hacc : (ProcessCommandLine s (some l)).1 = true)
    (hcap : 1 ≤ s.buffer_len_) (hsz : s.buffer_len_ ≤ 32766)
    (hbuf : s.buffer_len_ < s.buffer_.length) :
    (∃ evs, (ProcessCommandLine s (some l)).2.trace = s.trace ++ evs ∧
      ∀ e ∈ evs, ∀ cx, e ≠ Event.one_key cx) ∧
    (∀ t1 ts, tokens s.delim_ l = t1 :: ts →
      (∃ cx cmd evs, s.commands_[cx]? = some cmd ∧ cstr cmd.command = t1 ∧
        (∀ j, j < cx → ∀ c, s.commands_[j]? = some c → cstr c.command ≠ t1) ∧
        (ProcessCommandLine s (some l)).2.trace = s.trace ++ Event.command cx :: evs) ∨
      ((∀ c ∈ s.commands_, cstr c.command ≠ t1) ∧
        ((∃ h evs, s.default_handler_ = some h ∧
            (ProcessCommandLine s (some l)).2.trace =
              s.trace ++ Event.default_handler (some t1) :: evs) ∨
          (s.default_handler_ = none ∧ (ProcessCommandLine s (some l)).2.trace = s.trace)))) := by
  constructor
  · obtain ⟨evs, h1, h2⟩ := (Frame_ProcessCommandLineWith notOneKey
      (fun _ _ hh => by cases hh) (fun _ _ hh => by cases hh) (runHandler 1)
      (fun h t => Frame_runHandler_notOneKey 1 h t) (some l) s).trace_ext
    exact ⟨evs, h1, h2⟩
  · intro t1 ts htok
    obtain ⟨buf0, ht0, _, hpcl⟩ :=
      ProcessCommandLineWith_accepted (runHandler 1) l s hcap hsz hbuf hacc
    have htok0 : tokens s.delim_ (cstr l) = t1 :: ts := by rw [tokens_cstr]; exact htok
    unfold ProcessCommandLine
    rw [hpcl]
    rcases ProcessBuffer_lookup (runHandler 1)
      { s with is_processing_cmdline_ := true, buffer_ := buf0, buffer_pos_ := 0, term_pos_ := 0 }
      (cstr l) t1 ts ht0 htok0 with ⟨cx, cmd, buf1, q1, hi, hname, hfirst, hpb⟩ | ⟨hno, buf1, q1, hpb⟩
    · left
      obtain ⟨evs, he, _⟩ := (Frame_runHandler_notOneKey 1 cmd.function
        { s with is_processing_cmdline_ := true, buffer_ := buf1, buffer_pos_ := 0,
                 term_pos_ := 0, last_token_ := some q1,
                 trace := s.trace ++ [Event.command cx] }).trace_ext
      refine ⟨cx, cmd, evs, hi, hname, hfirst, ?_⟩
      rw [hpb]
      simp only [ClearBuffer]
      rw [he]
      simp
    · right
      refine ⟨hno, ?_⟩
      simp only at hpb
      rw [hpb]
      cases hd : s.default_handler_ with
      | none =>
        right
        exact ⟨rfl, rfl⟩
      | some h =>
        left
        obtain ⟨evs, he, _⟩ := (Frame_runHandler_notOneKey 1 h
          { s with is_processing_cmdline_ := true, buffer_ := buf1, buffer_pos_ := 0,
                   term_pos_ := 0, last_token_ := some q1, default_handler_ := some h,
                   trace := s.trace ++ [Event.default_handler (some t1)] }).trace_ext
        refine ⟨h, evs, rfl, ?_⟩
        simp only [ClearBuffer]
        rw [he]
        simp

theorem hotkeys_unreachable_through_injection_witness :
    (∃ evs, (ProcessCommandLine hotkeyDemo (some [104])).2.trace = hotkeyDemo.trace ++ evs ∧
      ∀ e ∈ evs, ∀ cx, e ≠ Event.one_key cx) ∧
    (∀ t1 ts, tokens hotkeyDemo.delim_ [104] = t1 :: ts →
      (∃ cx cmd evs, hotkeyDemo.commands_[cx]? = some cmd ∧ cstr cmd.command = t1 ∧
        (∀ j, j < cx → ∀ c, hotkeyDemo.commands_[j]? = some c → cstr c.command ≠ t1) ∧
        (ProcessCommandLine hotkeyDemo (some [104])).2.trace =
          hotkeyDemo.trace ++ Event.command cx :: evs) ∨
      ((∀ c ∈ hotkeyDemo.commands_, cstr c.command ≠ t1) ∧
        ((∃ h evs, hotkeyDemo.default_handler_ = some h ∧
            (ProcessCommandLine hotkeyDemo (some [104])).2.trace =
              hotkeyDemo.trace ++ Event.default_handler (some t1) :: evs) ∨
          (hotkeyDemo.default_handler_ = none ∧
            (ProcessCommandLine hotkeyDemo (some [104])).2.trace = hotkeyDemo.trace)))) :=
  hotkeys_unreachable_through_injection hotkeyDemo [104] (by decide) (by decide) (by decide)
    (by decide)

end SerialCommands

/-! ## Rejected injections and registration -/

namespace SerialCommands

/-- Claim C14 (rejected injection is atomic). When `ProcessCommandLine`
returns false (line `NULL`, empty or too long, or flag set), the state after
the call is the state before it in every field: array, `buffer_pos_`,
`term_pos_`, tokenizer cursor, flag, both lists, default handler, and the
trace (no handler was called); hence a following `ReadSerial` does what it
would have done without the call. -/
theorem rejected_injection_is_atomic (s : SerialCommands) (line : Option (List Nat))
    (hrej : (ProcessCommandLine s line).1 = false) :
    ProcessCommandLine s line = (false, s) ∧
    ReadSerial (ProcessCommandLine s line).2 = ReadSerial s := by
  have h := ProcessCommandLineWith_rejected (runHandler 1) line s hrej
  unfold ProcessCommandLine
  rw [h]
  exact ⟨rfl, rfl⟩

theorem rejected_injection_is_atomic_witness :
    ProcessCommandLine
        { cmdlineDemo with buffer_ := [83, 69, 0, 0, 0, 0, 0, 0, 0, 0], buffer_pos_ := 2,
                           serial_ := some [84, 13, 10] }
        (some [83, 69, 84, 32, 88, 32, 49, 50, 51]) =
      (false, { cmdlineDemo with buffer_ := [83, 69, 0, 0, 0, 0, 0, 0, 0, 0], buffer_pos_ := 2,
                                 serial_ := some [84, 13, 10] }) ∧
    ReadSerial (ProcessCommandLine
        { cmdlineDemo with buffer_ := [83, 69, 0, 0, 0, 0, 0, 0, 0, 0], buffer_pos_ := 2,
                           serial_ := some [84, 13, 10] }
        (some [83, 69, 84, 32, 88, 32, 49, 50, 51])).2 =
      ReadSerial { cmdlineDemo with buffer_ := [83, 69, 0, 0, 0, 0, 0, 0, 0, 0],
                                    buffer_pos_ := 2, serial_ := some [84, 13, 10] } :=
  rejected_injection_is_atomic
    { cmdlineDemo with buffer_ := [83, 69, 0, 0, 0, 0, 0, 0, 0, 0], buffer_pos_ := 2,
                       serial_ := some [84, 13, 10] }
    (some [83, 69, 84, 32, 88, 32, 49, 50, 51]) (by decide)

set_option maxRecDepth 100000 in
/-- Claim C17 fails on the code when the count is 255: the counts are
`uint8_t`. After 255 different regular commands have been registered,
registering one more, which is not registered yet, puts it at the end of the
regular list (256 entries) and leaves `commands_count_` at 0, not at
`255 + 1`. -/
theorem registration_count_counterexample :
    fullRegistry.commands_count_ = 255 ∧ fullRegistry.commands_.length = 255 ∧
    (⟨[66, 66], [], false⟩ : SerialCommand) ∉ fullRegistry.commands_ ∧
    (⟨[66, 66], [], false⟩ : SerialCommand) ∉ fullRegistry.onek_cmds_ ∧
    (AddCommand fullRegistry ⟨[66, 66], [], false⟩).commands_ =
      fullRegistry.commands_ ++ [⟨[66, 66], [], false⟩] ∧
    (AddCommand fullRegistry ⟨[66, 66], [], false⟩).commands_count_ = 0 ∧
    (AddCommand fullRegistry ⟨[66, 66], [], false⟩).commands_count_ ≠
      fullRegistry.commands_count_ + 1 := by
  decide

/-- Claim C17 as amended. For a descriptor `d` that is not registered yet,
`AddCommand(d)` appends `d` at the end of the one-key list when `d.one_key` is
set and at the end of the regular list otherwise, keeping the earlier elements
in their order; that list's count becomes the old count plus one modulo 256
(the counts are `uint8_t`), which is the old count plus one when the old count
is below 255; nothing else changes: not the other list, the other count, the
default handler, the array, the cursors or the trace. -/
theorem registration_appends_to_one_list (s : SerialCommands) (d : SerialCommand)
    (_hfresh : d ∉ s.commands_ ∧ d ∉ s.onek_cmds_) :
    (d.one_key = true →
      AddCommand s d = { s with onek_cmds_ := s.onek_cmds_ ++ [d],
                                onek_cmds_count_ := (s.onek_cmds_count_ + 1) % 256 } ∧
      (s.onek_cmds_count_ < 255 →
        (AddCommand s d).onek_cmds_count_ = s.onek_cmds_count_ + 1)) ∧
    (d.one_key = false →
      AddCommand s d = { s with commands_ := s.commands_ ++ [d],
                                commands_count_ := (s.commands_count_ + 1) % 256 } ∧
      (s.commands_count_ < 255 →
        (AddCommand s d).commands_count_ = s.commands_count_ + 1)) := by
  constructor
  · intro h
    refine ⟨by simp [AddCommand, h], fun hc => ?_⟩
    simp only [AddCommand, h, if_true]
    omega
  · intro h
    refine ⟨by simp [AddCommand, h], fun hc => ?_⟩
    simp only [AddCommand, h, Bool.false_eq_true, if_false]
    omega

theorem registration_appends_to_one_list_witness :
    ((⟨[120], [], true⟩ : SerialCommand) ∉ scenario1.commands_ ∧
      (⟨[120], [], true⟩ : SerialCommand) ∉ scenario1.onek_cmds_) ∧
    ((⟨[120], [], true⟩ : SerialCommand).one_key = true →
      AddCommand scenario1 ⟨[120], [], true⟩ =
        { scenario1 with onek_cmds_ := scenario1.onek_cmds_ ++ [⟨[120], [], true⟩],
                         onek_cmds_count_ := (scenario1.onek_cmds_count_ + 1) % 256 } ∧
      (scenario1.onek_cmds_count_ < 255 →
        (AddCommand scenario1 ⟨[120], [], true⟩).onek_cmds_count_ =
          scenario1.onek_cmds_count_ + 1)) ∧
    ((⟨[120], [], true⟩ : SerialCommand).one_key = false →
      AddCommand scenario1 ⟨[120], [], true⟩ =
        { scenario1 with commands_ := scenario1.commands_ ++ [⟨[120], [], true⟩],
                         commands_count_ := (scenario1.commands_count_ + 1) % 256 } ∧
      (scenario1.commands_count_ < 255 →
        (AddCommand scenario1 ⟨[120], [], true⟩).commands_count_ =
          scenario1.commands_count_ + 1)) :=
  ⟨by decide, registration_appends_to_one_list scenario1 ⟨[120], [], true⟩ (by decide)⟩

end SerialCommands

/-! ## The write cursor stays inside the array -/

namespace SerialCommands

theorem ProcessBuffer_pos (run : Handler → SerialCommands → SerialCommands) (s : SerialCommands) :
    (ProcessBuffer run s).buffer_pos_ = 0 ∧ (ProcessBuffer run s).term_pos_ = 0 := by
  unfold ProcessBuffer
  simp only
  split
  · exact ⟨rfl, rfl⟩
  · split
    · exact ⟨rfl, rfl⟩
    · split <;> exact ⟨rfl, rfl⟩

/-- The paths through the body of the `ReadSerial` loop. -/
theorem ReadSerialBody_cases (s : SerialCommands) (ch : Int) :
    (ch ≤ 0 ∧ ReadSerialBody s ch = (none, s)) ∨
    (0 < ch ∧ ¬ s.buffer_pos_ < s.buffer_len_ ∧
      ReadSerialBody s ch =
        (some SERIAL_COMMANDS_ERRORS.SERIAL_COMMANDS_ERROR_BUFFER_FULL, ClearBuffer s)) ∨
    (0 < ch ∧ s.buffer_pos_ < s.buffer_len_ ∧ s.buffer_pos_ = 0 ∧
      ∃ cx cmd, matchOneKey ((storeByte s ch).buffer_.getD 0 0) s.onek_cmds_ 0 = some (cx, cmd) ∧
        ReadSerialBody s ch =
          (some SERIAL_COMMANDS_ERRORS.SERIAL_COMMANDS_SUCCESS,
            ClearBuffer (runHandler 2 cmd.function
              { storeByte s ch with trace := s.trace ++ [Event.one_key cx] }))) ∨
    (0 < ch ∧ s.buffer_pos_ < s.buffer_len_ ∧
      charToInt s.char_signed (termByte s.term_ s.term_pos_) ≠ ch ∧
      ReadSerialBody s ch = (none, { storeByte s ch with term_pos_ := 0 })) ∨
    (0 < ch ∧ s.buffer_pos_ < s.buffer_len_ ∧
      charToInt s.char_signed (termByte s.term_ s.term_pos_) = ch ∧
      termByte s.term_ (int8 (s.term_pos_ + 1)) ≠ 0 ∧
      ReadSerialBody s ch = (none, { storeByte s ch with term_pos_ := int8 (s.term_pos_ + 1) })) ∨
    (0 < ch ∧ s.buffer_pos_ < s.buffer_len_ ∧
      charToInt s.char_signed (termByte s.term_ s.term_pos_) = ch ∧
      termByte s.term_ (int8 (s.term_pos_ + 1)) = 0 ∧
      ReadSerialBody s ch = (none, ProcessBuffer (runHandler 2)
        { storeByte s ch with
            buffer_ := (storeByte s ch).buffer_.set (s.buffer_pos_ + 1 - strlen s.term_) 0,
            term_pos_ := int8 (s.term_pos_ + 1) })) := by
  by_cases h0 : ch ≤ 0
  · left
    exact ⟨h0, by simp only [ReadSerialBody, h0, if_true]⟩
  right
  have h0p : 0 < ch := by omega
  by_cases hlt : s.buffer_pos_ < s.buffer_len_
  swap
  · left
    exact ⟨h0p, hlt, by simp only [ReadSerialBody, h0, if_false, hlt]⟩
  right
  by_cases hp : s.buffer_pos_ = 0
  · have hl0 : 0 < s.buffer_len_ := by omega
    cases hm : matchOneKey ((storeByte s ch).buffer_.getD 0 0) s.onek_cmds_ 0 with
    | some r =>
      left
      obtain ⟨cx, cmd⟩ := r
      refine ⟨h0p, hlt, hp, cx, cmd, rfl, ?_⟩
      simp only [storeByte] at hm
      simp only [hp] at hm
      simp only [hl0, ReadSerialBody, h0, if_false, hlt, if_true, hp, Nat.zero_add,
        CheckOneKeyCmd, storeByte, hm]
    | none =>
      right
      simp only [storeByte] at hm
      simp only [hp] at hm
      by_cases ht : charToInt s.char_signed (termByte s.term_ s.term_pos_) ≠ ch
      · left
        refine ⟨h0p, hlt, ht, ?_⟩
        simp only [hl0, ReadSerialBody, h0, if_false, hlt, if_true, hp, Nat.zero_add,
          CheckOneKeyCmd, storeByte, hm, termAt]
        simp [ht]
      · right
        have ht1 := not_not.1 ht
        by_cases hz : termByte s.term_ (int8 (s.term_pos_ + 1)) = 0
        · right
          refine ⟨h0p, hlt, ht1, hz, ?_⟩
          simp only [hl0, ReadSerialBody, h0, if_false, hlt, if_true, hp, Nat.zero_add,
            CheckOneKeyCmd, storeByte, hm, termAt]
          simp [ht1, hz]
        · left
          refine ⟨h0p, hlt, ht1, hz, ?_⟩
          simp only [hl0, ReadSerialBody, h0, if_false, hlt, if_true, hp, Nat.zero_add,
            CheckOneKeyCmd, storeByte, hm, termAt]
          simp [ht1, hz]
  · right
    have h1 : ¬ (s.buffer_pos_ + 1 = 1) := by omega
    by_cases ht : charToInt s.char_signed (termByte s.term_ s.term_pos_) ≠ ch
    · left
      refine ⟨h0p, hlt, ht, ?_⟩
      simp only [ReadSerialBody, h0, if_false, hlt, if_true, h1, storeByte, termAt]
      simp [ht]
    · right
      have ht1 := not_not.1 ht
      by_cases hz : termByte s.term_ (int8 (s.term_pos_ + 1)) = 0
      · right
        refine ⟨h0p, hlt, ht1, hz, ?_⟩
        simp only [ReadSerialBody, h0, if_false, hlt, if_true, h1, storeByte, termAt]
        simp [ht1, hz]
      · left
        refine ⟨h0p, hlt, ht1, hz, ?_⟩
        simp only [ReadSerialBody, h0, if_false, hlt, if_true, h1, storeByte, termAt]
        simp [ht1, hz]

theorem Bounded_of_Frame {P : Event → Prop} {cap : Nat} {s t : SerialCommands}
    (h : Frame P s t) (hs : Bounded cap s) (hpos : t.buffer_pos_ ≤ s.buffer_len_) :
    Bounded cap t :=
  ⟨h.buffer_len_eq.trans hs.1, h.length_eq.trans hs.2.1, hs.1 ▸ hpos⟩

theorem ReadSerialBody_pos_le (s : SerialCommands) (ch : Int)
    (h : s.buffer_pos_ ≤ s.buffer_len_) :
    (ReadSerialBody s ch).2.buffer_pos_ ≤ s.buffer_len_ := by
  rcases ReadSerialBody_cases s ch with
    ⟨_, e⟩ | ⟨_, _, e⟩ | ⟨_, _, _, cx, cmd, _, e⟩ | ⟨_, hlt, _, e⟩ | ⟨_, hlt, _, _, e⟩ |
    ⟨_, _, _, _, e⟩
  · rw [e]; exact h
  · rw [e]; exact Nat.zero_le _
  · rw [e]; exact Nat.zero_le _
  · rw [e]; exact hlt
  · rw [e]; exact hlt
  · rw [e]
    simp only [(ProcessBuffer_pos _ _).1]
    exact Nat.zero_le _

theorem Bounded_ReadSerialBody {cap : Nat} {s : SerialCommands} (hs : Bounded cap s) (ch : Int) :
    Bounded cap (ReadSerialBody s ch).2 :=
  Bounded_of_Frame (Frame_ReadSerialBody s ch) hs
    (ReadSerialBody_pos_le s ch (hs.1 ▸ hs.2.2))

theorem Bounded_ReadSerialLoop {cap : Nat} (avail : List Int) {s : SerialCommands}
    (hs : Bounded cap s) : Bounded cap (ReadSerialLoop s avail).2 := by
  induction avail generalizing s with
  | nil => exact hs
  | cons ch rest ih =>
    have hb : Bounded cap (ReadSerialBody { s with serial_ := some rest } ch).2 :=
      Bounded_ReadSerialBody (s := { s with serial_ := some rest }) hs ch
    unfold ReadSerialLoop
    cases hr : ReadSerialBody { s with serial_ := some rest } ch with
    | mk r s1 =>
      rw [hr] at hb
      cases r with
      | some r => exact hb
      | none => exact ih hb

theorem Bounded_apply {cap : Nat} {s : SerialCommands} (hs : Bounded cap s) (op : Op) :
    Bounded cap (op.apply s) := by
  cases op with
  | AddCommand c =>
    show Bounded cap (s.AddCommand c)
    unfold AddCommand
    split_ifs <;> exact hs
  | SetDefaultHandler h => exact hs
  | ReadSerial src =>
    show Bounded cap (ReadSerial { s with serial_ := src }).2
    unfold ReadSerial
    cases src with
    | none => exact hs
    | some avail => exact Bounded_ReadSerialLoop avail (s := { s with serial_ := some avail }) hs
  | ProcessCommandLine line =>
    show Bounded cap (ProcessCommandLineWith (runHandler 1) line s).2
    by_cases hacc : (ProcessCommandLineWith (runHandler 1) line s).1 = true
    · have hfr := Frame_ProcessCommandLineWith anyEvent (fun _ => trivial) (fun _ => trivial)
        (runHandler 1) (Frame_runHandler anyEvent (fun _ => trivial) (fun _ => trivial)
          (fun _ => trivial) (fun _ => trivial) 1) line s
      refine Bounded_of_Frame hfr hs ?_
      obtain ⟨s4, -, -, hst⟩ := ProcessCommandLineWith_shape (runHandler 1) line s hacc
      rw [hst (runHandler 1)]
      simp only [(ProcessBuffer_pos _ _).1]
      exact Nat.zero_le _
    · rw [ProcessCommandLineWith_rejected (runHandler 1) line s (by simpa using hacc)]
      exact hs
  | ClearBuffer =>
    show Bounded cap (ClearBuffer s)
    exact ⟨hs.1, by simpa [ClearBuffer] using hs.2.1, Nat.zero_le _⟩

theorem Bounded_new (serial : Option (List Int)) (buffer : List Nat) (term delim : List Nat)
    (sg : Bool) (hcap : 1 ≤ buffer.length) :
    Bounded buffer.length (new serial (some buffer) buffer.length term delim sg) := by
  refine ⟨?_, rfl, Nat.zero_le _⟩
  have h : (0 : Int) < (buffer.length : Int) := by omega
  simp only [new, Option.isSome_some, Bool.true_and, decide_eq_true_eq, h, if_true]
  omega

theorem Bounded_foldl {cap : Nat} (ops : List Op) {s : SerialCommands} (hs : Bounded cap s) :
    Bounded cap (ops.foldl Op.apply s) := by
  induction ops generalizing s with
  | nil => exact hs
  | cons op rest ih => exact ih (Bounded_apply hs op)

/-- The write cursor stays inside the usable part of the array. In every state
reached from the constructor on an array of 2 to 32767 bytes by any sequence
of `AddCommand`, `SetDefaultHandler`, `ReadSerial` (over any source contents),
`ProcessCommandLine` and `ClearBuffer` calls, with any handlers:
`buffer_pos_ <= capacity - 1`, the usable length is still `capacity - 1` and
the array still has `capacity` bytes; at `buffer_pos_ = capacity - 1` the body
of `ReadSerial` stores nothing, clears the buffer and returns `BUFFER_FULL`. -/
theorem write_cursor_bounded (serial : Option (List Int)) (buffer term delim : List Nat)
    (sg : Bool) (ops : List Op) (hcap : 2 ≤ buffer.length) (_hsz : buffer.length ≤ 32767) :
    (ops.foldl Op.apply (new serial (some buffer) buffer.length term delim sg)).buffer_pos_
        ≤ buffer.length - 1 ∧
    (ops.foldl Op.apply (new serial (some buffer) buffer.length term delim sg)).buffer_len_
        = buffer.length - 1 ∧
    (ops.foldl Op.apply (new serial (some buffer) buffer.length term delim sg)).buffer_.length
        = buffer.length ∧
    ∀ ch : Int, 0 < ch →
      (ops.foldl Op.apply (new serial (some buffer) buffer.length term delim sg)).buffer_pos_
          = buffer.length - 1 →
      ReadSerialBody (ops.foldl Op.apply (new serial (some buffer) buffer.length term delim sg)) ch
        = (some SERIAL_COMMANDS_ERRORS.SERIAL_COMMANDS_ERROR_BUFFER_FULL,
            ClearBuffer
              (ops.foldl Op.apply (new serial (some buffer) buffer.length term delim sg))) := by
  have hb := Bounded_foldl ops (Bounded_new serial buffer term delim sg (by omega))
  generalize ops.foldl Op.apply (new serial (some buffer) buffer.length term delim sg) = s at hb ⊢
  obtain ⟨h1, h2, h3⟩ := hb
  refine ⟨h3, h1, h2, fun ch hch hp => ?_⟩
  have hfull : ¬ s.buffer_pos_ < s.buffer_len_ := by omega
  have h0 : ¬ ch ≤ 0 := by omega
  simp only [ReadSerialBody, h0, if_false, hfull]

end SerialCommands

/-! ## One-pass terminator matching -/

namespace SerialCommands

theorem int8_succ {tp : Int} (h0 : 0 ≤ tp) (h : tp < 127) : int8 (tp + 1) = tp + 1 := by
  unfold int8
  omega

theorem charToInt_byte_eq {sg : Bool} {c b : Nat} (h : sg = false ∨ c < 128) :
    charToInt sg c = (b : Int) ↔ c = b := by
  unfold charToInt
  rcases h with h | h
  · subst h
    simp
  · have : ¬ 128 ≤ c := by omega
    simp [this]

theorem charToInt_signed_ne {c b : Nat} (h : 128 ≤ c) (hc : c < 256) :
    charToInt true c ≠ (b : Int) := by
  unfold charToInt
  simp only [Bool.true_and, decide_eq_true_eq, h, if_true]
  omega

/-- Claim C18 fails on the code as a rule of byte equality: line 101 compares
the plain `char` `term_[term_pos_]`, promoted to `int`, with the value read
(0 to 255). On a build with signed `char` a terminator byte of 128 or more is
negative after promotion and never equal to a received value. With the
terminator `0xFF` and signed `char`, the bytes `A 0xFF` are stored, the stored
byte `0xFF` equals `term_[0]`, and yet the cursor stays 0 and nothing is
dispatched; with unsigned `char` the same bytes dispatch `A`. -/
theorem signed_terminator_byte_counterexample :
    (highTermDemo true).term_pos_ = 0 ∧
    (feed (highTermDemo true) (toStream [65, 255])).2.buffer_.take 2 = [65, 255] ∧
    (feed (highTermDemo true) (toStream [65, 255])).2.buffer_[1]? =
      some (termByte (highTermDemo true).term_ 0) ∧
    (feed (highTermDemo true) (toStream [65, 255])).2.term_pos_ = 0 ∧
    (feed (highTermDemo true) (toStream [65, 255])).2.buffer_pos_ = 2 ∧
    (feed (highTermDemo true) (toStream [65, 255])).2.trace = [] ∧
    (feed (highTermDemo false) (toStream [65, 255])).2.trace = [Event.command 0] ∧
    (feed (highTermDemo false) (toStream [65, 255])).2.buffer_pos_ = 0 := by
  decide

/-- Claim C18 as amended (one-pass terminator matching). For a stored byte
`b` that is no one-key command, a cursor `0 <= term_pos_ < 127` and the
terminator byte `c = term_[term_pos_]`: where plain `char` is unsigned or
`c < 128`, the cursor becomes 0 when `b` differs from `c` (`b` is not compared
with `term_[0]`) and `term_pos_ + 1` when `b` equals `c`, and the line is
dispatched exactly when `term_[term_pos_ + 1]` is the NUL; where plain `char`
is signed and `c >= 128`, the cursor becomes 0 whatever `b` is, also when `b`
equals `c`. Hence with the terminator `aab`, no one-key command and an array
of 16 bytes, the bytes `a a a b` fed to a cleared scanner (in one call or one
call per byte) invoke no handler and leave `buffer_pos_ = 4`, `term_pos_ = 0`
(the cursor is 1, 2, 0 after the first three bytes), although `LEDaab`
dispatches `LED`. -/
theorem one_pass_terminator_matching (s : SerialCommands) (b : Nat) (hb0 : 0 < b)
    (hb : b ≤ 255) (hlt : s.buffer_pos_ < s.buffer_len_) (hbuf : 0 < s.buffer_.length)
    (hkey : s.buffer_pos_ = 0 → matchOneKey b s.onek_cmds_ 0 = none)
    (htp0 : 0 ≤ s.term_pos_) (htp : s.term_pos_ < 127)
    (hc : termByte s.term_ s.term_pos_ < 256) :
    ((s.char_signed = false ∨ termByte s.term_ s.term_pos_ < 128) →
      (termByte s.term_ s.term_pos_ ≠ b →
        ReadSerialBody s b =
          (none, { s with buffer_ := s.buffer_.set s.buffer_pos_ b,
                          buffer_pos_ := s.buffer_pos_ + 1, term_pos_ := 0 })) ∧
      (termByte s.term_ s.term_pos_ = b →
        termByte s.term_ (s.term_pos_ + 1) ≠ 0 →
        ReadSerialBody s b =
          (none, { s with buffer_ := s.buffer_.set s.buffer_pos_ b,
                          buffer_pos_ := s.buffer_pos_ + 1,
                          term_pos_ := s.term_pos_ + 1 })) ∧
      (termByte s.term_ s.term_pos_ = b →
        termByte s.term_ (s.term_pos_ + 1) = 0 →
        ReadSerialBody s b =
          (none, ProcessBuffer (runHandler 2)
            { s with buffer_ := (s.buffer_.set s.buffer_pos_ b).set
                                  (s.buffer_pos_ + 1 - strlen s.term_) 0,
                     buffer_pos_ := s.buffer_pos_ + 1,
                     term_pos_ := s.term_pos_ + 1 }))) ∧
    (s.char_signed = true → 128 ≤ termByte s.term_ s.term_pos_ →
      ReadSerialBody s b =
        (none, { s with buffer_ := s.buffer_.set s.buffer_pos_ b,
                        buffer_pos_ := s.buffer_pos_ + 1, term_pos_ := 0 })) ∧
    (feed aabDemo (toStream [97])).2.term_pos_ = 1 ∧
    (feed aabDemo (toStream [97, 97])).2.term_pos_ = 2 ∧
    (feed aabDemo (toStream [97, 97, 97])).2.term_pos_ = 0 ∧
    (feed aabDemo (toStream [97, 97, 97, 98])).2.trace = [] ∧
    (feed aabDemo (toStream [97, 97, 97, 98])).2.buffer_pos_ = 4 ∧
    (feed aabDemo (toStream [97, 97, 97, 98])).2.term_pos_ = 0 ∧
    (feed aabDemo (toStream [97, 97, 97, 98])).2.buffer_.take 4 = [97, 97, 97, 98] ∧
    (feedEach aabDemo (toStream [97, 97, 97, 98])).2 =
      (feed aabDemo (toStream [97, 97, 97, 98])).2 ∧
    (feed aabDemo (toStream [76, 69, 68, 97, 97, 98])).2.trace =
      [Event.command 0, Event.next none] := by
  have h8 := int8_succ htp0 htp
  refine ⟨fun hreg => ⟨fun h => ?_, fun h hnz => ?_, fun h hz => ?_⟩, fun hsg hhi => ?_,
    by decide, by decide, by decide, by decide, by decide, by decide, by decide,
    by decide, by decide⟩
  · exact ReadSerialBody_plain s b hb0 hb hlt hbuf hkey
      (fun he => h ((charToInt_byte_eq hreg).1 he))
  · have := ReadSerialBody_advance s b hb0 hb hlt hbuf hkey ((charToInt_byte_eq hreg).2 h)
      (by rw [h8]; exact hnz)
    rw [h8] at this
    exact this
  · have := ReadSerialBody_complete s b hb0 hb hlt hbuf hkey ((charToInt_byte_eq hreg).2 h)
      (by rw [h8]; exact hz)
    rw [h8] at this
    exact this
  · refine ReadSerialBody_plain s b hb0 hb hlt hbuf hkey ?_
    rw [hsg]
    exact charToInt_signed_ne hhi hc

theorem one_pass_terminator_matching_witness :
    (feed (highTermDemo true) (toStream [65])).1 = SERIAL_COMMANDS_ERRORS.SERIAL_COMMANDS_SUCCESS ∧
    ((feed (highTermDemo true) (toStream [65])).2.char_signed = true →
      128 ≤ termByte (feed (highTermDemo true) (toStream [65])).2.term_
        (feed (highTermDemo true) (toStream [65])).2.term_pos_ →
      ReadSerialBody (feed (highTermDemo true) (toStream [65])).2 (255 : Nat) =
        (none, { (feed (highTermDemo true) (toStream [65])).2 with
                   buffer_ := (feed (highTermDemo true) (toStream [65])).2.buffer_.set
                     (feed (highTermDemo true) (toStream [65])).2.buffer_pos_ 255,
                   buffer_pos_ := (feed (highTermDemo true) (toStream [65])).2.buffer_pos_ + 1,
                   term_pos_ := 0 })) :=
  ⟨by decide,
   (one_pass_terminator_matching (feed (highTermDemo true) (toStream [65])).2 255 (by decide)
    (by decide) (by decide) (by decide) (by decide) (by decide) (by decide) (by decide)).2.1⟩

end SerialCommands

/-! ## Next after a completed dispatch -/

/-- The save pointer of `strtok_r` never moves back, and moves forward when a
token is returned. -/
theorem strtok_r_save_mono {buf delim : List Nat} {str save : Option Nat} {q : Nat}
    (hq : (str <|> save) = some q) {p : Option Nat} {buf1 : List Nat} {q1 : Nat}
    (h : strtok_r buf str delim save = (p, buf1, some q1)) :
    q ≤ q1 ∧ (p.isSome = true → q < q1) := by
  unfold strtok_r at h
  rw [hq] at h
  simp only at h
  by_cases h1 : buf.getD (q + strspn delim (buf.drop q)) 0 = 0
  · rw [if_pos h1] at h
    simp only [Prod.mk.injEq, Option.some.injEq] at h
    obtain ⟨hp, -, hq1⟩ := h
    subst hp
    exact ⟨by omega, by simp⟩
  · rw [if_neg h1] at h
    by_cases h2 : buf.getD (q + strspn delim (buf.drop q)
        + strcspn delim (buf.drop (q + strspn delim (buf.drop q)))) 0 = 0
    · rw [if_pos h2] at h
      simp only [Prod.mk.injEq, Option.some.injEq] at h
      obtain ⟨-, -, hq1⟩ := h
      have hne : strcspn delim (buf.drop (q + strspn delim (buf.drop q))) ≠ 0 := by
        intro h0
        rw [h0, Nat.add_zero] at h2
        exact h1 h2
      exact ⟨by omega, fun _ => by omega⟩
    · rw [if_neg h2] at h
      simp only [Prod.mk.injEq, Option.some.injEq] at h
      obtain ⟨-, -, hq1⟩ := h
      exact ⟨by omega, fun _ => by omega⟩

/-- `strtok_r_step` with the position of the new save pointer. -/
theorem strtok_r_step_pos (delim : List Nat) {buf w : List Nat} {q : Nat} (h : TokState buf q w)
    (str save : Option Nat) (hq : (str <|> save) = some q) :
    ∃ p buf1 q1 w1, strtok_r buf str delim save = (p, buf1, some q1) ∧
      TokState buf1 q1 w1 ∧ buf1.length = buf.length ∧
      p.map (fun b => cstr (buf1.drop b)) = (tokens delim w).head? ∧
      tokens delim w1 = (tokens delim w).tail ∧ q ≤ q1 ∧ (p.isSome = true → q < q1) := by
  obtain ⟨p, buf1, q1, w1, hst, ht1, hlen, hp, htl⟩ := strtok_r_step delim h str save hq
  exact ⟨p, buf1, q1, w1, hst, ht1, hlen, hp, htl, strtok_r_save_mono hq hst⟩

/-- Overwriting byte 0 does not touch a string that starts after it. -/
theorem TokState_set_zero {buf w : List Nat} {q : Nat} (h : TokState buf q w) (hq : 1 ≤ q)
    (v : Nat) : TokState (buf.set 0 v) q w := by
  obtain ⟨pre, rest, rfl, rfl, hw⟩ := h
  cases pre with
  | nil => simp at hq
  | cons a pre1 => exact ⟨v :: pre1, rest, by simp, by simp, hw⟩

namespace SerialCommands

/-- A handler that only calls `Next()` `k` times leaves the cursor at the rest
of the line after the first `k` tokens. -/
theorem runHandler_nexts_pos (d k : Nat) (s : SerialCommands) {q : Nat} {w : List Nat}
    (hq : s.last_token_ = some q) (ht : TokState s.buffer_ q w) :
    ∃ buf1 q1 w1, runHandler (d + 1) (List.replicate k Action.Next) s =
        { s with buffer_ := buf1, last_token_ := some q1,
                 trace := s.trace ++
                   (List.range k).map (fun i => Event.next ((tokens s.delim_ w)[i]?)) } ∧
      TokState buf1 q1 w1 ∧ tokens s.delim_ w1 = (tokens s.delim_ w).drop k ∧ q ≤ q1 ∧
      buf1.length = s.buffer_.length := by
  induction k generalizing s q w with
  | zero =>
    refine ⟨s.buffer_, q, w, ?_, ht, rfl, le_refl _, rfl⟩
    rw [List.replicate_zero, runHandler_nil]
    cases s
    simp only at hq
    subst hq
    simp
  | succ k ih =>
    obtain ⟨p, buf1, q1, w1, hst, ht1, hlen, hp, htl, hle, -⟩ :=
      strtok_r_step_pos s.delim_ ht none s.last_token_ (by simp [hq])
    have hex : execAction (runHandler d) s Action.Next =
        { s with buffer_ := buf1, last_token_ := some q1,
                 trace := s.trace ++ [Event.next (tokens s.delim_ w).head?] } := by
      simp only [execAction, Next, hst, strAt, hp]
    rw [List.replicate_succ, runHandler_cons, hex]
    obtain ⟨buf2, q2, w2, hrun, ht2, htl2, hle2, hlen2⟩ := ih
      { s with buffer_ := buf1, last_token_ := some q1,
               trace := s.trace ++ [Event.next (tokens s.delim_ w).head?] } (q := q1) (w := w1) rfl ht1
    refine ⟨buf2, q2, w2, ?_, ht2, ?_, le_trans hle hle2, by simpa [hlen] using hlen2⟩
    · rw [hrun]
      simp only [htl, List.append_assoc, List.singleton_append]
      congr 2
      rw [List.range_succ_eq_map, List.map_cons, List.map_map]
      congr 1
      · cases tokens s.delim_ w <;> simp
      · apply List.map_congr_left
        intro i _
        cases tokens s.delim_ w <;> simp
    · simp only at htl2
      rw [htl2, htl]
      cases tokens s.delim_ w <;> simp

/-- Claim C13 fails on the code: `ClearBuffer` resets `buffer_[0]`,
`buffer_pos_` and `term_pos_` but not the tokenizer cursor `last_token_`, and
`Next()` has no check of its own. In scenario 1 (handler of `LED` calls
`Next()` twice) the line `LED A B C` leaves `C` unread; after the `ReadSerial`
call has returned `SUCCESS` with the buffer cleared, and likewise after
`ProcessCommandLine("LED A B C")` has returned true, a `Next()` call returns
`C`, not `NULL`. -/
theorem next_after_dispatch_counterexample :
    (feed scenario1 (toStream [76, 69, 68, 32, 65, 32, 66, 32, 67, 13, 10])).1 =
      SERIAL_COMMANDS_ERRORS.SERIAL_COMMANDS_SUCCESS ∧
    (feed scenario1 (toStream [76, 69, 68, 32, 65, 32, 66, 32, 67, 13, 10])).2.buffer_pos_ = 0 ∧
    (feed scenario1 (toStream [76, 69, 68, 32, 65, 32, 66, 32, 67, 13, 10])).2.buffer_[0]? =
      some 0 ∧
    (feed scenario1 (toStream [76, 69, 68, 32, 65, 32, 66, 32, 67, 13, 10])).2.trace =
      [Event.command 0, Event.next (some [65]), Event.next (some [66])] ∧
    (Next (feed scenario1 (toStream [76, 69, 68, 32, 65, 32, 66, 32, 67, 13, 10])).2).2.strAt
        (Next (feed scenario1 (toStream [76, 69, 68, 32, 65, 32, 66, 32, 67, 13, 10])).2).1 =
      some [67] ∧
    (ProcessCommandLine scenario1 (some [76, 69, 68, 32, 65, 32, 66, 32, 67])).1 = true ∧
    (Next (ProcessCommandLine scenario1 (some [76, 69, 68, 32, 65, 32, 66, 32, 67])).2).2.strAt
        (Next (ProcessCommandLine scenario1 (some [76, 69, 68, 32, 65, 32, 66, 32, 67])).2).1 =
      some [67] := by
  decide

end SerialCommands

/-! ## Tokens -/

theorem splitOnP_mem (p : Nat → Bool) (l : List Nat) :
    ∀ t ∈ l.splitOnP p, ∀ c ∈ t, p c = false ∧ c ∈ l := by
  induction l with
  | nil =>
    intro t ht c hc
    simp [List.splitOnP_nil] at ht
    subst ht
    simp at hc
  | cons a l ih =>
    intro t ht c hc
    rw [List.splitOnP_cons] at ht
    by_cases ha : p a = true
    · rw [if_pos ha] at ht
      rcases List.mem_cons.1 ht with h | h
      · subst h; simp at hc
      · exact ⟨(ih t h c hc).1, List.mem_cons_of_mem _ (ih t h c hc).2⟩
    · rw [if_neg ha] at ht
      cases hs : l.splitOnP p with
      | nil => exact absurd hs (List.splitOnP_ne_nil p l)
      | cons hd tl =>
        rw [hs] at ht ih
        simp only [List.modifyHead_cons] at ht
        rcases List.mem_cons.1 ht with h | h
        · subst h
          rcases List.mem_cons.1 hc with h1 | h1
          · subst h1
            exact ⟨by simpa using ha, List.mem_cons_self _ _⟩
          · have := ih hd (List.mem_cons_self _ _) c h1
            exact ⟨this.1, List.mem_cons_of_mem _ this.2⟩
        · have := ih t (List.mem_cons_of_mem _ h) c hc
          exact ⟨this.1, List.mem_cons_of_mem _ this.2⟩

/-- Every token is a non-empty string without NUL and without delimiter. -/
theorem tokens_mem (delim line : List Nat) :
    ∀ t ∈ tokens delim line, t ≠ [] ∧ ∀ c ∈ t, c ≠ 0 ∧ isDelim delim c = false := by
  intro t ht
  unfold tokens at ht
  rw [List.mem_filter] at ht
  obtain ⟨hmem, hne⟩ := ht
  refine ⟨by intro h; subst h; simp at hne, fun c hc => ?_⟩
  have := splitOnP_mem (isDelim delim) (cstr line) t hmem c hc
  refine ⟨fun h0 => ?_, this.1⟩
  subst h0
  exact zero_not_mem_cstr line this.2

/-! ## Where a ReadSerial call stops -/

namespace SerialCommands

theorem ReadSerialLoop_cons_some {s s1 : SerialCommands} {ch : Int} {rest : List Int}
    {r : SERIAL_COMMANDS_ERRORS}
    (h : ReadSerialBody { s with serial_ := some rest } ch = (some r, s1)) :
    ReadSerialLoop s (ch :: rest) = (r, s1) := by
  simp only [ReadSerialLoop, h]

theorem ReadSerialLoop_cons_none {s s1 : SerialCommands} {ch : Int} {rest : List Int}
    (h : ReadSerialBody { s with serial_ := some rest } ch = (none, s1)) :
    ReadSerialLoop s (ch :: rest) = ReadSerialLoop s1 rest := by
  simp only [ReadSerialLoop, h]

end SerialCommands

/-! ## The terminator cursor -/

theorem take_drop_set_succ {buf term : List Nat} {pos t b : Nat} (ht : t ≤ pos)
    (hpos : pos < buf.length) (hb : term[t]? = some b)
    (h : (buf.drop (pos - t)).take t = term.take t) :
    ((buf.set pos b).drop (pos + 1 - (t + 1))).take (t + 1) = term.take (t + 1) := by
  have e : pos + 1 - (t + 1) = pos - t := by omega
  rw [e]
  apply List.ext_getElem?
  intro i
  by_cases hi : i < t
  · have h1 := congrArg (fun l => l[i]?) h
    simp only [List.getElem?_take, hi, if_true, List.getElem?_drop] at h1
    have hi1 : i < t + 1 := by omega
    have hne : pos ≠ pos - t + i := by omega
    simp only [List.getElem?_take, hi1, if_true, List.getElem?_drop, List.getElem?_set, hne,
      if_false]
    exact h1
  · by_cases hit : i = t
    · subst hit
      have hi1 : i < i + 1 := by omega
      have heq : pos - i + i = pos := by omega
      simp only [List.getElem?_take, hi1, if_true, List.getElem?_drop, heq, List.getElem?_set,
        hpos, hb]
    · have hi1 : ¬ i < t + 1 := by omega
      simp only [List.getElem?_take, hi1, if_false]

theorem termByte_inside {term : List Nat} {tp : Int} (h0 : 0 ≤ tp) (h : tp < term.length) :
    term[tp.toNat]? = some (termByte term tp) := by
  have hlt : tp.toNat < term.length := by omega
  have hn : ¬ tp < 0 := by omega
  simp only [termByte, hn, if_false, List.getD_eq_getElem?_getD, List.getElem?_eq_getElem hlt,
    Option.getD_some]

theorem termByte_lt {term : List Nat} {tp : Int} (h0 : 0 ≤ tp) (h : termByte term tp ≠ 0) :
    tp < term.length := by
  by_contra hge
  apply h
  have hn : ¬ tp < 0 := by omega
  have hle : term.length ≤ tp.toNat := by omega
  simp only [termByte, hn, if_false, List.getD_eq_getElem?_getD, List.getElem?_eq_none hle,
    Option.getD_none]

theorem termByte_zero_ge {term : List Nat} {tp : Int} (h0 : 0 ≤ tp)
    (hchars : ∀ c ∈ term, c ≠ 0 ∧ c < 256) (h : termByte term tp = 0) :
    (term.length : Int) ≤ tp := by
  by_contra hlt
  have hin := termByte_inside h0 (not_le.1 hlt)
  rw [h] at hin
  exact (hchars 0 (List.getElem?_mem hin)).1 rfl

theorem charToInt_eq_pos {sg : Bool} {c : Nat} {ch : Int} (h : charToInt sg c = ch)
    (hch : 0 < ch) (hc : c < 256) : (ch % 256).toNat = c := by
  unfold charToInt at h
  split_ifs at h <;> omega

namespace SerialCommands

theorem TermCursorOk_reset {term : List Nat} {P : Event → Prop} {s t : SerialCommands}
    (hs : TermCursorOk term s) (hne : term ≠ []) (hfr : Frame P s t)
    (hp : t.buffer_pos_ = 0) (htp : t.term_pos_ = 0) : TermCursorOk term t := by
  obtain ⟨h1, -, -, -, -, h6, -⟩ := hs
  have hl : 0 < term.length := List.length_pos.2 hne
  refine ⟨hfr.term_eq.trans h1, by rw [htp], by rw [htp]; exact_mod_cast hl, by rw [htp]; simp,
    by rw [hp]; exact Nat.zero_le _, by rw [hfr.buffer_len_eq, hfr.length_eq]; exact h6, ?_⟩
  rw [htp]
  simp

/-- The body of the `ReadSerial` loop keeps the terminator cursor inside the
terminator. -/
theorem TermCursorOk_body {term : List Nat} {s : SerialCommands} (hs : TermCursorOk term s)
    (hne : term ≠ []) (hL : term.length ≤ 127) (hchars : ∀ c ∈ term, c ≠ 0 ∧ c < 256)
    (ch : Int) : TermCursorOk term (ReadSerialBody s ch).2 := by
  have hfr := Frame_ReadSerialBody s ch
  obtain ⟨h1, h2, h3, h4, h5, h6, h7⟩ := hs
  have hs0 : TermCursorOk term s := ⟨h1, h2, h3, h4, h5, h6, h7⟩
  rcases ReadSerialBody_cases s ch with
    ⟨_, e⟩ | ⟨_, _, e⟩ | ⟨_, _, _, cx, cmd, _, e⟩ | ⟨_, hlt, _, e⟩ | ⟨hch, hlt, hm, hnz, e⟩ |
    ⟨_, _, _, _, e⟩
  · rw [e]; exact hs0
  · rw [e] at hfr ⊢
    exact TermCursorOk_reset hs0 hne hfr rfl rfl
  · rw [e] at hfr ⊢
    exact TermCursorOk_reset hs0 hne hfr rfl rfl
  · rw [e]
    have hl : 0 < term.length := List.length_pos.2 hne
    refine ⟨h1, le_refl _, ?_, by simp, hlt, ?_, by simp⟩
    · show (0 : Int) < term.length
      exact_mod_cast hl
    · simp only [storeByte, List.length_set]
      exact h6
  · rw [e]
    have h8 : int8 (s.term_pos_ + 1) = s.term_pos_ + 1 := int8_succ h2 (by omega)
    rw [h8] at hnz
    rw [h1] at hnz hm
    have hlt1 : s.term_pos_ + 1 < term.length := termByte_lt (by omega) hnz
    have hin := termByte_inside h2 h3
    have hb : (ch % 256).toNat = termByte term s.term_pos_ :=
      charToInt_eq_pos hm hch (hchars _ (List.getElem?_mem hin)).2
    have htn : (s.term_pos_ + 1).toNat = s.term_pos_.toNat + 1 := by omega
    refine ⟨h1, ?_, ?_, ?_, hlt, ?_, ?_⟩
    · simp only [h8]; omega
    · simp only [h8]; exact hlt1
    · simp only [h8, storeByte, htn]; omega
    · simp only [storeByte, List.length_set]; exact h6
    · simp only [h8, storeByte, htn]
      rw [hb]
      exact take_drop_set_succ h4 (by omega) hin h7
  · rw [e] at hfr ⊢
    exact TermCursorOk_reset hs0 hne hfr (ProcessBuffer_pos _ _).1 (ProcessBuffer_pos _ _).2

theorem TermCursorOk_loop {term : List Nat} (hne : term ≠ []) (hL : term.length ≤ 127)
    (hchars : ∀ c ∈ term, c ≠ 0 ∧ c < 256) (avail : List Int) {s : SerialCommands}
    (hs : TermCursorOk term s) : TermCursorOk term (ReadSerialLoop s avail).2 := by
  induction avail generalizing s with
  | nil => exact hs
  | cons ch rest ih =>
    have hb : TermCursorOk term (ReadSerialBody { s with serial_ := some rest } ch).2 :=
      TermCursorOk_body (s := { s with serial_ := some rest }) hs hne hL hchars ch
    cases hr : ReadSerialBody { s with serial_ := some rest } ch with
    | mk r s1 =>
      rw [hr] at hb
      cases r with
      | some r => rw [ReadSerialLoop_cons_some hr]; exact hb
      | none => rw [ReadSerialLoop_cons_none hr]; exact ih hb

theorem TermCursorOk_apply {term : List Nat} (hne : term ≠ []) (hL : term.length ≤ 127)
    (hchars : ∀ c ∈ term, c ≠ 0 ∧ c < 256) {s : SerialCommands} (hs : TermCursorOk term s)
    (op : Op) : TermCursorOk term (op.apply s) := by
  cases op with
  | AddCommand c =>
    show TermCursorOk term (s.AddCommand c)
    unfold AddCommand
    split_ifs <;> exact hs
  | SetDefaultHandler h => exact hs
  | ReadSerial src =>
    show TermCursorOk term (ReadSerial { s with serial_ := src }).2
    unfold ReadSerial
    cases src with
    | none => exact hs
    | some avail =>
      exact TermCursorOk_loop hne hL hchars avail (s := { s with serial_ := some avail }) hs
  | ProcessCommandLine line =>
    show TermCursorOk term (ProcessCommandLineWith (runHandler 1) line s).2
    by_cases hacc : (ProcessCommandLineWith (runHandler 1) line s).1 = true
    · have hfr := Frame_ProcessCommandLineWith anyEvent (fun _ => trivial) (fun _ => trivial)
        (runHandler 1) (Frame_runHandler anyEvent (fun _ => trivial) (fun _ => trivial)
          (fun _ => trivial) (fun _ => trivial) 1) line s
      refine TermCursorOk_reset hs hne hfr ?_ ?_
      · obtain ⟨s4, -, -, hst⟩ := ProcessCommandLineWith_shape (runHandler 1) line s hacc
        rw [hst (runHandler 1)]
        exact (ProcessBuffer_pos _ _).1
      · obtain ⟨s4, -, -, hst⟩ := ProcessCommandLineWith_shape (runHandler 1) line s hacc
        rw [hst (runHandler 1)]
        exact (ProcessBuffer_pos _ _).2
    · rw [ProcessCommandLineWith_rejected (runHandler 1) line s (by simpa using hacc)]
      exact hs
  | ClearBuffer =>
    show TermCursorOk term (ClearBuffer s)
    exact TermCursorOk_reset hs hne (Frame_ClearBuffer anyEvent s) rfl rfl

theorem TermCursorOk_foldl {term : List Nat} (hne : term ≠ []) (hL : term.length ≤ 127)
    (hchars : ∀ c ∈ term, c ≠ 0 ∧ c < 256) (ops : List Op) {s : SerialCommands}
    (hs : TermCursorOk term s) : TermCursorOk term (ops.foldl Op.apply s) := by
  induction ops generalizing s with
  | nil => exact hs
  | cons op rest ih => exact ih (TermCursorOk_apply hne hL hchars hs op)

theorem TermCursorOk_new (serial : Option (List Int)) (buffer term delim : List Nat)
    (sg : Bool) (hcap : 1 ≤ buffer.length) (hne : term ≠ []) :
    TermCursorOk term (new serial (some buffer) buffer.length term delim sg) := by
  have hl : 0 < term.length := List.length_pos.2 hne
  have h : (0 : Int) < (buffer.length : Int) := by omega
  refine ⟨rfl, le_refl _, ?_, by simp [new], Nat.zero_le _, ?_, by simp [new]⟩
  · show (0 : Int) < term.length
    exact_mod_cast hl
  · simp only [new, Option.isSome_some, Bool.true_and, decide_eq_true_eq, h, if_true,
      Option.getD_some]
    omega

/-- Claim C19 (terminator-cursor safety invariant). For a terminator `term`
that is not empty, has at most 127 bytes, none of them NUL, and any handlers:
in every state `s` reached from the constructor (on an array of 2 to 32767
bytes, the length an `int16_t`; with a 1-byte array an accepted
`ProcessCommandLine` writes outside the array) by `AddCommand`,
`SetDefaultHandler`, `ReadSerial`, `ProcessCommandLine` and `ClearBuffer`
calls, and again after every byte the loop of `ReadSerial` handles, `0 <= term_pos_ < L`, `term_pos_ <= buffer_pos_` and the last
`term_pos_` stored bytes are the first `term_pos_` bytes of the terminator, so
`term_[term_pos_]` is a byte of the terminator string. When a byte completes
the terminator, `buffer_pos_` after the store is at least `L`, the truncation
index `buffer_pos_ - L` is inside the array, the `L` bytes from that index on
are the terminator, and the dispatched buffer holds the bytes stored before
them followed by a NUL. -/
theorem terminator_cursor_invariant (serial : Option (List Int))
    (buffer term delim : List Nat) (sg : Bool) (ops : List Op) (s : SerialCommands)
    (hcap : 2 ≤ buffer.length) (hsz : buffer.length ≤ 32767) (hne : term ≠ [])
    (hL : term.length ≤ 127) (hchars : ∀ c ∈ term, c ≠ 0 ∧ c < 256)
    (hs : s = ops.foldl Op.apply (new serial (some buffer) buffer.length term delim sg)) :
    (0 ≤ s.term_pos_ ∧ s.term_pos_ < term.length ∧ s.term_pos_.toNat ≤ s.buffer_pos_ ∧
      (s.buffer_.drop (s.buffer_pos_ - s.term_pos_.toNat)).take s.term_pos_.toNat =
        term.take s.term_pos_.toNat) ∧
    term[s.term_pos_.toNat]? = some (termByte s.term_ s.term_pos_) ∧
    (∀ ch : Int, TermCursorOk term (ReadSerialBody s ch).2) ∧
    (∀ ch : Int, 0 < ch → s.buffer_pos_ < s.buffer_len_ →
      (s.buffer_pos_ = 0 →
        matchOneKey ((storeByte s ch).buffer_.getD 0 0) s.onek_cmds_ 0 = none) →
      charToInt s.char_signed (termByte s.term_ s.term_pos_) = ch →
      termByte s.term_ (int8 (s.term_pos_ + 1)) = 0 →
        strlen s.term_ = term.length ∧ term.length ≤ s.buffer_pos_ + 1 ∧
        s.buffer_pos_ + 1 - term.length < s.buffer_.length ∧
        ((storeByte s ch).buffer_.drop (s.buffer_pos_ + 1 - term.length)).take term.length
          = term ∧
        (((storeByte s ch).buffer_.set (s.buffer_pos_ + 1 - term.length) 0).take
            (s.buffer_pos_ + 1 - term.length)
          = (storeByte s ch).buffer_.take (s.buffer_pos_ + 1 - term.length)) ∧
        ((storeByte s ch).buffer_.set (s.buffer_pos_ + 1 - term.length) 0)[
            s.buffer_pos_ + 1 - term.length]? = some 0 ∧
        ReadSerialBody s ch = (none, ProcessBuffer (runHandler 2)
          { storeByte s ch with
              buffer_ := (storeByte s ch).buffer_.set (s.buffer_pos_ + 1 - term.length) 0,
              term_pos_ := (term.length : Int) })) := by
  have hinv : TermCursorOk term s := by
    rw [hs]
    exact TermCursorOk_foldl hne hL hchars ops
      (TermCursorOk_new serial buffer term delim sg (by omega) hne)
  obtain ⟨h1, h2, h3, h4, h5, h6, h7⟩ := hinv
  have hs0 : TermCursorOk term s := ⟨h1, h2, h3, h4, h5, h6, h7⟩
  have hin := termByte_inside h2 h3
  refine ⟨⟨h2, h3, h4, h7⟩, by rw [h1]; exact hin, fun ch => TermCursorOk_body hs0 hne hL hchars ch,
    fun ch hch hlt hkey hm hz => ?_⟩
  have h8 : int8 (s.term_pos_ + 1) = s.term_pos_ + 1 := int8_succ h2 (by omega)
  have h0 : (0 : Nat) ∉ term := fun h => (hchars 0 h).1 rfl
  have hlen : strlen s.term_ = term.length := by
    rw [h1]
    unfold strlen
    rw [cstr_of_not_mem h0]
  have hz1 := hz
  rw [h8, h1] at hz1
  have hge := termByte_zero_ge (by omega) hchars hz1
  have htL : s.term_pos_ + 1 = (term.length : Int) := by omega
  have htn : s.term_pos_.toNat + 1 = term.length := by omega
  have hm1 := hm
  rw [h1] at hm1
  have hb : (ch % 256).toNat = termByte term s.term_pos_ :=
    charToInt_eq_pos hm1 hch (hchars _ (List.getElem?_mem hin)).2
  have hcontent := take_drop_set_succ (b := termByte term s.term_pos_) h4
    (show s.buffer_pos_ < s.buffer_.length by omega) hin h7
  rw [htn, List.take_of_length_le (le_refl _)] at hcontent
  have hidx : s.buffer_pos_ + 1 - term.length < s.buffer_.length := by omega
  refine ⟨hlen, by omega, hidx, ?_, take_set_of_le _ _ (le_refl _), ?_, ?_⟩
  · simp only [storeByte]
    rw [hb]
    exact hcontent
  · simp only [storeByte, List.getElem?_set, List.length_set, hidx, if_true]
  · rcases ReadSerialBody_cases s ch with
      ⟨hle, _⟩ | ⟨_, hfull, _⟩ | ⟨_, _, hp0, cx, cmd, hmk, _⟩ | ⟨_, _, hmis, _⟩ |
      ⟨_, _, _, hnz, _⟩ | ⟨_, _, _, _, e⟩
    · omega
    · exact absurd hlt hfull
    · rw [hkey hp0] at hmk
      exact absurd hmk (by simp)
    · exact absurd hm hmis
    · exact absurd hz hnz
    · rw [e, h8, htL, hlen]

theorem terminator_cursor_invariant_witness :
    0 ≤ (([Op.AddCommand ⟨[76], [Action.Next], false⟩, Op.ReadSerial (some [76, 13])] :
          List Op).foldl Op.apply
        (new (some []) (some [0, 0, 0, 0, 0, 0, 0, 0]) ([0, 0, 0, 0, 0, 0, 0, 0] : List Nat).length
          [13, 10] [32] true)).term_pos_ ∧
    (([Op.AddCommand ⟨[76], [Action.Next], false⟩, Op.ReadSerial (some [76, 13])] :
          List Op).foldl Op.apply
        (new (some []) (some [0, 0, 0, 0, 0, 0, 0, 0]) ([0, 0, 0, 0, 0, 0, 0, 0] : List Nat).length
          [13, 10] [32] true)).term_pos_ < ([13, 10] : List Nat).length :=
  ⟨(terminator_cursor_invariant (some []) [0, 0, 0, 0, 0, 0, 0, 0] [13, 10] [32] true
      [Op.AddCommand ⟨[76], [Action.Next], false⟩, Op.ReadSerial (some [76, 13])] _
      (by decide) (by decide) (by decide) (by decide) (by decide) rfl).1.1,
   (terminator_cursor_invariant (some []) [0, 0, 0, 0, 0, 0, 0, 0] [13, 10] [32] true
      [Op.AddCommand ⟨[76], [Action.Next], false⟩, Op.ReadSerial (some [76, 13])] _
      (by decide) (by decide) (by decide) (by decide) (by decide) rfl).1.2.1⟩

end SerialCommands

/-! ## Chunking independence -/

namespace SerialCommands

theorem withSerial_ClearBuffer (x : Option (List Int)) (s : SerialCommands) :
    ClearBuffer (withSerial x s) = withSerial x (ClearBuffer s) := rfl

theorem withSerial_Next (x : Option (List Int)) (s : SerialCommands) :
    Next (withSerial x s) = ((Next s).1, withSerial x (Next s).2) := rfl

theorem withSerial_ProcessBuffer (x : Option (List Int))
    (run : Handler → SerialCommands → SerialCommands)
    (hrun : ∀ h t, run h (withSerial x t) = withSerial x (run h t)) (s : SerialCommands) :
    ProcessBuffer run (withSerial x s) = withSerial x (ProcessBuffer run s) := by
  unfold ProcessBuffer
  simp only [withSerial]
  split
  · rfl
  · split
    · exact congrArg ClearBuffer
        (hrun _ { s with buffer_ := _, last_token_ := _, trace := _ })
    · split
      · exact congrArg ClearBuffer
          (hrun _ { s with buffer_ := _, last_token_ := _, trace := _ })
      · rfl

theorem withSerial_ProcessCommandLineWith (x : Option (List Int))
    (run : Handler → SerialCommands → SerialCommands)
    (hrun : ∀ h t, run h (withSerial x t) = withSerial x (run h t))
    (line : Option (List Nat)) (s : SerialCommands) :
    ProcessCommandLineWith run line (withSerial x s) =
      ((ProcessCommandLineWith run line s).1,
        withSerial x (ProcessCommandLineWith run line s).2) := by
  cases line with
  | none => rfl
  | some l =>
    unfold ProcessCommandLineWith
    simp only
    by_cases h1 : strlen l = 0
    · rw [if_pos h1, if_pos h1]
    · rw [if_neg h1, if_neg h1]
      by_cases h2 : intToSize ((s.buffer_len_ : Int) - 1) ≤ strlen l
      · rw [if_pos h2, if_pos (show intToSize (((withSerial x s).buffer_len_ : Int) - 1) ≤ strlen l
          from h2)]
      · rw [if_neg h2, if_neg (show ¬ intToSize (((withSerial x s).buffer_len_ : Int) - 1) ≤
          strlen l from h2)]
        by_cases h3 : s.is_processing_cmdline_ = true
        · rw [if_pos h3, if_pos (show (withSerial x s).is_processing_cmdline_ = true from h3)]
        · rw [if_neg h3, if_neg (show ¬ (withSerial x s).is_processing_cmdline_ = true from h3)]
          exact congrArg
            (fun t : SerialCommands => (true, { t with is_processing_cmdline_ := false }))
            (withSerial_ProcessBuffer x run hrun
              { s with is_processing_cmdline_ := true,
                       buffer_ := _, buffer_pos_ := 0, term_pos_ := 0 })

theorem withSerial_execAction (x : Option (List Int))
    (run : Handler → SerialCommands → SerialCommands)
    (hrun : ∀ h t, run h (withSerial x t) = withSerial x (run h t))
    (s : SerialCommands) (a : Action) :
    execAction run (withSerial x s) a = withSerial x (execAction run s a) := by
  cases a with
  | Next => rfl
  | ProcessCommandLine line =>
    unfold execAction
    simp only
    rw [withSerial_ProcessCommandLineWith x run hrun line s]
    rfl

theorem withSerial_runHandler (x : Option (List Int)) (d : Nat) :
    ∀ (h : Handler) (s : SerialCommands),
      runHandler d h (withSerial x s) = withSerial x (runHandler d h s) := by
  induction d with
  | zero => intro h s; rfl
  | succ d ih =>
    intro h
    induction h with
    | nil => intro s; rfl
    | cons a rest ihh =>
      intro s
      rw [runHandler_cons, runHandler_cons, withSerial_execAction x (runHandler d) ih s a, ihh]

theorem withSerial_CheckOneKeyCmd (x : Option (List Int)) (s : SerialCommands) :
    CheckOneKeyCmd (withSerial x s) =
      ((CheckOneKeyCmd s).1, withSerial x (CheckOneKeyCmd s).2) := by
  unfold CheckOneKeyCmd
  simp only [withSerial]
  split
  · rename_i cx cmd _
    have h := withSerial_runHandler x 2 cmd.function
      { s with trace := s.trace ++ [Event.one_key cx] }
    simp only [withSerial] at h
    rw [h]
    rfl
  · rfl

/-- The body for a first value that names a one-key command. -/
theorem ReadSerialBody_one_key (s : SerialCommands) (ch : Int) (h0 : 0 < ch)
    (hlt : s.buffer_pos_ < s.buffer_len_) (hp : s.buffer_pos_ = 0) {cx : Nat}
    {cmd : SerialCommand}
    (hm : matchOneKey ((storeByte s ch).buffer_.getD 0 0) s.onek_cmds_ 0 = some (cx, cmd)) :
    ReadSerialBody s ch =
      (some SERIAL_COMMANDS_ERRORS.SERIAL_COMMANDS_SUCCESS,
        ClearBuffer (runHandler 2 cmd.function
          { storeByte s ch with trace := s.trace ++ [Event.one_key cx] })) := by
  have hl0 : 0 < s.buffer_len_ := by omega
  have h0n : ¬ ch ≤ 0 := by omega
  simp only [storeByte] at hm
  simp only [hp] at hm
  simp only [hl0, ReadSerialBody, h0n, if_false, hlt, if_true, hp, Nat.zero_add,
    CheckOneKeyCmd, storeByte, hm]

/-- The loop body does not look at the source. -/
theorem withSerial_ReadSerialBody (x : Option (List Int)) (s : SerialCommands) (ch : Int) :
    ReadSerialBody (withSerial x s) ch =
      ((ReadSerialBody s ch).1, withSerial x (ReadSerialBody s ch).2) := by
  rcases ReadSerialBody_cases s ch with
    ⟨h0, e⟩ | ⟨h0, hfull, e⟩ | ⟨h0, hlt, hp, cx, cmd, hm, e⟩ | ⟨h0, hlt, hmis, e⟩ |
    ⟨h0, hlt, hmt, hnz, e⟩ | ⟨h0, hlt, hmt, hz, e⟩ <;>
  rcases ReadSerialBody_cases (withSerial x s) ch with
    ⟨h0', e'⟩ | ⟨h0', hfull', e'⟩ | ⟨h0', hlt', hp', cx', cmd', hm', e'⟩ | ⟨h0', hlt', hmis', e'⟩ |
    ⟨h0', hlt', hmt', hnz', e'⟩ | ⟨h0', hlt', hmt', hz', e'⟩
  all_goals first
    | (exfalso; omega)
    | exact absurd hlt hfull'
    | exact absurd hlt' hfull
    | exact absurd hmt hmis'
    | exact absurd hmt' hmis
    | exact absurd hz hnz'
    | exact absurd hz' hnz
    | (rw [e, e']; rfl)
    | (rw [e, e']; done)
    | (exfalso
       have h := ReadSerialBody_one_key (withSerial x s) ch h0 hlt hp hm
       rw [e'] at h
       simp at h
       done)
    | (exfalso
       have h := ReadSerialBody_one_key s ch h0 hlt hp' hm'
       rw [e] at h
       simp at h
       done)
    | skip
  · have hm2 : matchOneKey ((storeByte s ch).buffer_.getD 0 0) s.onek_cmds_ 0 =
        some (cx', cmd') := hm'
    rw [hm] at hm2
    simp only [Option.some.injEq, Prod.mk.injEq] at hm2
    obtain ⟨rfl, rfl⟩ := hm2
    rw [e, e']
    exact congrArg (fun t => (some SERIAL_COMMANDS_ERRORS.SERIAL_COMMANDS_SUCCESS, ClearBuffer t))
      (withSerial_runHandler x 2 cmd.function
        { storeByte s ch with trace := s.trace ++ [Event.one_key cx] })
  · rw [e, e']
    exact congrArg (fun t => ((none : Option SERIAL_COMMANDS_ERRORS), t))
      (withSerial_ProcessBuffer x (runHandler 2) (withSerial_runHandler x 2)
        { storeByte s ch with
            buffer_ := (storeByte s ch).buffer_.set (s.buffer_pos_ + 1 - strlen s.term_) 0,
            term_pos_ := int8 (s.term_pos_ + 1) })

theorem withSerial_withSerial (x y : Option (List Int)) (s : SerialCommands) :
    withSerial x (withSerial y s) = withSerial x s := rfl

theorem bodyAll_cons (s : SerialCommands) (ch : Int) (l : List Int) :
    bodyAll s (ch :: l) = bodyAll (ReadSerialBody s ch).2 l := rfl

theorem bodyAll_append (s : SerialCommands) (a b : List Int) :
    bodyAll s (a ++ b) = bodyAll (bodyAll s a) b := by
  simp [bodyAll, List.foldl_append]

theorem withSerial_bodyAll (x : Option (List Int)) (l : List Int) (s : SerialCommands) :
    bodyAll (withSerial x s) l = withSerial x (bodyAll s l) := by
  induction l generalizing s with
  | nil => rfl
  | cons ch rest ih =>
    rw [bodyAll_cons, bodyAll_cons, withSerial_ReadSerialBody]
    exact ih _

/-- One `ReadSerial` call handles a non-empty part `used` of the available
values with the loop body and leaves the rest in the source. -/
theorem ReadSerialLoop_bodyAll (l : List Int) (s : SerialCommands) :
    ∃ used rest, l = used ++ rest ∧ (l ≠ [] → used ≠ []) ∧
      (ReadSerialLoop (withSerial (some l) s) l).2 = withSerial (some rest) (bodyAll s used) := by
  induction l generalizing s with
  | nil => exact ⟨[], [], rfl, fun h => h, rfl⟩
  | cons ch rest0 ih =>
    have hb : ReadSerialBody { withSerial (some (ch :: rest0)) s with serial_ := some rest0 } ch =
        ((ReadSerialBody s ch).1, withSerial (some rest0) (ReadSerialBody s ch).2) :=
      withSerial_ReadSerialBody (some rest0) s ch
    cases hr : (ReadSerialBody s ch).1 with
    | some r =>
      rw [hr] at hb
      rw [ReadSerialLoop_cons_some hb]
      exact ⟨[ch], rest0, rfl, fun _ => by simp, rfl⟩
    | none =>
      rw [hr] at hb
      rw [ReadSerialLoop_cons_none hb]
      obtain ⟨used, rest, h1, -, h3⟩ := ih (ReadSerialBody s ch).2
      exact ⟨ch :: used, rest, by rw [h1]; rfl, fun _ => by simp, h3⟩

/-- Calling `ReadSerial` until the source is empty handles every available
value with the loop body, in order; as many calls as there are values are
enough. -/
theorem drain_eq (n : Nat) (l : List Int) (s : SerialCommands) (h : l.length ≤ n) :
    drain n (withSerial (some l) s) = withSerial (some []) (bodyAll s l) := by
  induction n generalizing l s with
  | zero =>
    have : l = [] := List.length_eq_zero.1 (Nat.le_zero.1 h)
    subst this
    rfl
  | succ n ih =>
    cases l with
    | nil => rfl
    | cons ch rest0 =>
      obtain ⟨used, rest, h1, h2, h3⟩ := ReadSerialLoop_bodyAll (ch :: rest0) s
      have hne : used ≠ [] := h2 (by simp)
      have hlen : rest.length ≤ n := by
        have := congrArg List.length h1
        simp only [List.length_cons, List.length_append] at this h
        have : 0 < used.length := List.length_pos.2 hne
        omega
      have hstep : drain (n + 1) (withSerial (some (ch :: rest0)) s) =
          drain n (ReadSerialLoop (withSerial (some (ch :: rest0)) s) (ch :: rest0)).2 := rfl
      rw [hstep, h3, ih rest (bodyAll s used) hlen, ← bodyAll_append, ← h1]

theorem receive_eq (s : SerialCommands) (bytes : List Int) :
    receive s bytes = withSerial (some []) (bodyAll s (s.serial_.getD [] ++ bytes)) :=
  drain_eq _ _ s (le_refl _)

/-- Claim C15 (chunking independence). For every state `s`, all value
sequences `A` and `B` and all handlers: making `A` available and calling
`ReadSerial` until the source is empty, then the same with `B`, ends in the
same state (same trace of handler invocations and `Next()` results, same
`buffer_pos_`, `term_pos_`, array, every field) as making `A ++ B` available
and calling `ReadSerial` until the source is empty. The calls do empty the
source, and further calls change nothing. In scenario 1 the line `LED ON`
whose terminator CR LF is split between two deliveries is dispatched as when
it arrives whole. -/
theorem chunking_independence (s : SerialCommands) (A B : List Int) :
    receive (receive s A) B = receive s (A ++ B) ∧
    (receive s A).serial_ = some [] ∧
    (∀ k, drain ((s.serial_.getD [] ++ A).length + k)
        { s with serial_ := some (s.serial_.getD [] ++ A) } = receive s A) ∧
    (receive (receive scenario1 (toStream [76, 69, 68, 32, 79, 78, 13])) (toStream [10])).trace =
      [Event.command 0, Event.next (some [79, 78]), Event.next none] ∧
    (receive scenario1 (toStream [76, 69, 68, 32, 79, 78, 13, 10])).trace =
      [Event.command 0, Event.next (some [79, 78]), Event.next none] := by
  refine ⟨?_, ?_, fun k => ?_, by decide, by decide⟩
  · rw [receive_eq (receive s A) B, receive_eq s A, receive_eq s (A ++ B)]
    show withSerial (some []) (bodyAll (withSerial (some []) _) ([] ++ B)) = _
    rw [List.nil_append, withSerial_bodyAll, withSerial_withSerial, ← bodyAll_append,
      List.append_assoc]
  · rw [receive_eq]
    rfl
  · rw [receive_eq]
    exact drain_eq _ _ s (Nat.le_add_right _ _)

end SerialCommands

/-! ## ProcessCommandLine on an array of one byte -/

namespace SerialCommands

/-- With a usable length of 1 to 32766 in an array that has a byte more, the
stores of `ProcessCommandLine` are inside the array. -/
theorem ProcessCommandLineChecked_eq (s : SerialCommands) (line : Option (List Nat))
    (hcap : 1 ≤ s.buffer_len_) (hsz : s.buffer_len_ ≤ 32766)
    (hbuf : s.buffer_len_ < s.buffer_.length) :
    ProcessCommandLineChecked s line = some (ProcessCommandLine s line) := by
  have h1 : cmdlineCopyLen s = s.buffer_len_ - 1 := by
    unfold cmdlineCopyLen intToSize
    omega
  have h2 : cmdlineNulIndex s = (s.buffer_len_ : Int) - 1 := rfl
  unfold ProcessCommandLineChecked
  rw [if_neg]
  intro h
  apply h.2
  refine ⟨by omega, by omega, by omega, by omega⟩

/-- Claim C12 fails on the code for an array of one byte. The constructor
sets `buffer_len_ = 0`; in `ProcessCommandLine("x")` the guard of line 172
compares `strlen` with `buffer_len_ - 1 = -1` converted to `size_t`, so the
line is accepted, `strncpy` is called with the count 65535 (`SIZE_MAX`) on the
1-byte array and the final NUL goes to index -1: stores at indices that are
not below `capacity - 1 = 0`, outside the array. On an array of two bytes the
same call is rejected. -/
theorem cmdline_overruns_one_byte_array :
    oneByteDemo.buffer_.length = 1 ∧ oneByteDemo.buffer_len_ = 0 ∧
    oneByteDemo.buffer_pos_ = 0 ∧
    (ProcessCommandLine oneByteDemo (some [120])).1 = true ∧
    cmdlineCopyLen oneByteDemo = 65535 ∧ cmdlineNulIndex oneByteDemo = -1 ∧
    ProcessCommandLineChecked oneByteDemo (some [120]) = none ∧
    (ProcessCommandLine twoByteDemo (some [120])).1 = false ∧
    ProcessCommandLineChecked twoByteDemo (some [120]) = some (false, twoByteDemo) := by
  decide

end SerialCommands

/-! ## Dispatch of any line to Next-only handlers -/

theorem matchCommand_eq_lookupName {mem name : List Nat} (h : cstr mem = name)
    (cmds : List SerialCommand) (k : Nat) :
    SerialCommands.matchCommand mem cmds k = lookupName name cmds k := by
  induction cmds generalizing k with
  | nil => rfl
  | cons cmd rest ih =>
    unfold SerialCommands.matchCommand lookupName
    by_cases hc : cstr cmd.command = name
    · have : strncmp_eq mem cmd.command (strlen cmd.command + 1) = true :=
        (strncmp_eq_iff cmd.command mem).2 (h.trans hc.symm)
      rw [if_pos this, if_pos hc]
    · have : ¬ strncmp_eq mem cmd.command (strlen cmd.command + 1) = true := by
        intro h1
        exact hc (((strncmp_eq_iff cmd.command mem).1 h1).symm.trans h)
      rw [if_neg this, if_neg hc]
      exact ih (k + 1)

/-- Overwriting byte 0 of a buffer whose cursor is at index 0 leaves the
cursor at an empty string. -/
theorem TokState_set_zero_at_zero {buf w : List Nat} (h : TokState buf 0 w) :
    TokState (buf.set 0 0) 0 [] := by
  obtain ⟨pre, rest, hb, hp, -⟩ := h
  have : pre = [] := List.length_eq_zero.1 hp
  subst this
  cases w with
  | nil => exact ⟨[], rest, by rw [hb]; rfl, rfl, by simp⟩
  | cons a w1 => exact ⟨[], w1 ++ 0 :: rest, by rw [hb]; rfl, rfl, by simp⟩

theorem nextOnly_eq_replicate {h : Handler} (hn : ∀ a ∈ h, a = Action.Next) :
    h = List.replicate h.length Action.Next :=
  List.eq_replicate_iff.2 ⟨rfl, hn⟩

theorem dispatchTarget_cstr (s : SerialCommands) (l : List Nat) :
    dispatchTarget s (cstr l) = dispatchTarget s l := by
  unfold dispatchTarget
  rw [tokens_cstr]

namespace SerialCommands

/-- `ProcessBuffer` on a line with a first token: the lookup runs on that
token and the cursor has moved past it. -/
theorem ProcessBuffer_first_token_pos (s : SerialCommands) {w tok : List Nat}
    {ts : List (List Nat)} (ht : TokState s.buffer_ 0 w) (hw : tokens s.delim_ w = tok :: ts) :
    ∃ buf1 q1 w1, TokState buf1 q1 w1 ∧ tokens s.delim_ w1 = ts ∧ 1 ≤ q1 ∧
      ∀ run : Handler → SerialCommands → SerialCommands, ProcessBuffer run s =
        match lookupName tok s.commands_ 0 with
        | some (cx, cmd) =>
          ClearBuffer (run cmd.function { s with buffer_ := buf1, last_token_ := some q1,
                                                 trace := s.trace ++ [Event.command cx] })
        | none =>
          match s.default_handler_ with
          | some h =>
            ClearBuffer (run h { s with buffer_ := buf1, last_token_ := some q1,
                                        trace := s.trace ++ [Event.default_handler (some tok)] })
          | none => ClearBuffer { s with buffer_ := buf1, last_token_ := some q1 } := by
  obtain ⟨p, buf1, q1, w1, hst, ht1, hlen, hp, htl, -, hlt⟩ :=
    strtok_r_step_pos s.delim_ ht (some 0) s.last_token_ (by simp)
  rw [hw] at hp htl
  cases p with
  | none => simp at hp
  | some b =>
    simp only [Option.map_some', List.head?_cons, Option.some.injEq] at hp
    refine ⟨buf1, q1, w1, ht1, htl, hlt rfl, fun run => ?_⟩
    rw [← matchCommand_eq_lookupName hp s.commands_ 0]
    simp only [ProcessBuffer, hst, strAt, Option.map_some', hp]

/-- `ProcessBuffer` on a line without token: nothing is called, the cursor is
left at an empty string. -/
theorem ProcessBuffer_no_token_pos (s : SerialCommands) {w : List Nat}
    (ht : TokState s.buffer_ 0 w) (hw : tokens s.delim_ w = []) :
    ∃ buf2 q2, TokState buf2 q2 [] ∧ buf2.getD 0 0 = 0 ∧
      ∀ run : Handler → SerialCommands → SerialCommands, ProcessBuffer run s =
        { s with buffer_ := buf2, last_token_ := some q2, buffer_pos_ := 0, term_pos_ := 0 } := by
  obtain ⟨pre, rest, hb, hp, h0⟩ := ht
  have hpre : pre = [] := List.length_eq_zero.1 hp
  subst hpre
  rw [List.nil_append] at hb
  rcases line_cases s.delim_ w h0 with hds | ⟨ds, tok, rfl, hds, htok, hne⟩ |
      ⟨ds, tok, d, w3, rfl, hds, htok, hne, hd0, hdd, hw3⟩
  · have hst := strtok_r_none s.delim_ [] w rest (some 0) s.last_token_ (by simp) hds
    simp only [List.nil_append, List.length_nil, Nat.zero_add] at hst
    rw [← hb] at hst
    cases w with
    | nil =>
      refine ⟨s.buffer_.set 0 0, 0, ⟨[], rest, by rw [hb]; rfl, rfl, by simp⟩, ?_, fun run => ?_⟩
      · rw [hb]; rfl
      · simp only [ProcessBuffer, hst, ClearBuffer]
        rfl
    | cons a w1 =>
      refine ⟨s.buffer_.set 0 0, (a :: w1).length,
        ⟨0 :: w1, rest, by rw [hb]; simp, by simp, by simp⟩, ?_, fun run => ?_⟩
      · rw [hb]; rfl
      · simp only [ProcessBuffer, hst, ClearBuffer]
  · exfalso
    rw [tokens_delims_append hds (fun h => (htok 0 h).1 rfl), tokens_single htok hne] at hw
    exact absurd hw (by simp)
  · exfalso
    have h0' : 0 ∉ tok ++ d :: w3 := by
      intro h
      rcases List.mem_append.1 h with h | h
      · exact (htok 0 h).1 rfl
      · rcases List.mem_cons.1 h with h | h
        · exact hd0 h.symm
        · exact hw3 h
    rw [tokens_delims_append hds h0', tokens_cons_token htok hne hd0 hdd hw3] at hw
    exact absurd hw (by simp)

/-- The dispatch of a line `w` whose handler, if one is called, only calls
`Next()`: the state `ProcessBuffer` returns. -/
theorem ProcessBuffer_dispatch (d : Nat) (s : SerialCommands) {w : List Nat}
    (ht : TokState s.buffer_ 0 w)
    (hnext : ∀ a ∈ dispatchHandler s w, a = Action.Next) :
    ∃ buf2 q2 w2, ProcessBuffer (runHandler (d + 1)) s =
        { s with buffer_ := buf2, last_token_ := some q2, buffer_pos_ := 0, term_pos_ := 0,
                 trace := s.trace ++ dispatchEvents s w } ∧
      TokState buf2 q2 w2 ∧
      tokens s.delim_ w2 = (tokens s.delim_ w).drop (1 + nextCalls s w) ∧
      buf2.getD 0 0 = 0 := by
  cases htk : tokens s.delim_ w with
  | nil =>
    have hT : dispatchTarget s w = none := by simp [dispatchTarget, htk]
    obtain ⟨buf2, q2, ht2, hz, hpb⟩ := ProcessBuffer_no_token_pos s ht htk
    refine ⟨buf2, q2, [], ?_, ht2, by simp [tokens_nil], hz⟩
    rw [hpb]
    simp [dispatchEvents, hT]
  | cons t1 ts =>
    obtain ⟨buf1, q1, w1, ht1, htl, hq1, hpb⟩ := ProcessBuffer_first_token_pos s ht htk
    rw [hpb]
    have hset : ∀ buf : List Nat, 0 < buf.length → (buf.set 0 0).getD 0 0 = 0 := by
      intro buf hb
      cases buf with
      | nil => simp at hb
      | cons a tl => simp
    have hlen : ∀ {buf : List Nat} {q : Nat} {v : List Nat}, TokState buf q v → 0 < buf.length := by
      intro buf q v h
      obtain ⟨pre, rest, hb, -, -⟩ := h
      rw [hb]
      simp
    have hrun : ∀ (e : Event) (h : Handler), (∀ a ∈ h, a = Action.Next) →
        ∃ buf2 q2 w2, ClearBuffer (runHandler (d + 1) h
            { s with buffer_ := buf1, last_token_ := some q1, trace := s.trace ++ [e] }) =
          { s with buffer_ := buf2, last_token_ := some q2, buffer_pos_ := 0, term_pos_ := 0,
                   trace := s.trace ++ e ::
                     (List.range h.length).map (fun i => Event.next ((t1 :: ts)[i + 1]?)) } ∧
          TokState buf2 q2 w2 ∧ tokens s.delim_ w2 = (t1 :: ts).drop (1 + h.length) ∧
          buf2.getD 0 0 = 0 := by
      intro e h hn
      obtain ⟨buf2, q2, w2, hr, ht2, htl2, hle2, -⟩ := runHandler_nexts_pos d h.length
        { s with buffer_ := buf1, last_token_ := some q1, trace := s.trace ++ [e] }
        (q := q1) (w := w1) rfl ht1
      rw [← nextOnly_eq_replicate hn] at hr
      simp only at hr htl2
      refine ⟨buf2.set 0 0, q2, w2, ?_, TokState_set_zero ht2 (le_trans hq1 hle2) 0, ?_,
        hset _ (hlen ht2)⟩
      · rw [hr]
        simp only [ClearBuffer, htl, List.append_assoc, List.singleton_append,
          List.getElem?_cons_succ]
      · rw [htl2, htl, Nat.add_comm, List.drop_succ_cons]
    cases hl : lookupName t1 s.commands_ 0 with
    | some r =>
      obtain ⟨cx, cmd⟩ := r
      have hT : dispatchTarget s w = some (Event.command cx, cmd.function) := by
        simp [dispatchTarget, htk, hl]
      have hH : dispatchHandler s w = cmd.function := by simp [dispatchHandler, hT]
      obtain ⟨buf2, q2, w2, h1, h2, h3, h4⟩ := hrun (Event.command cx) cmd.function
        (hH ▸ hnext)
      refine ⟨buf2, q2, w2, ?_, h2, ?_, h4⟩
      · simp only [h1, dispatchEvents, hT, htk]
      · simp only [nextCalls, hH, h3]
    | none =>
      simp only
      split
      · rename_i h hd
        have hT : dispatchTarget s w = some (Event.default_handler (some t1), h) := by
          simp [dispatchTarget, htk, hl, hd]
        have hH : dispatchHandler s w = h := by simp [dispatchHandler, hT]
        obtain ⟨buf2, q2, w2, h1, h2, h3, h4⟩ := hrun (Event.default_handler (some t1)) h
          (hH ▸ hnext)
        refine ⟨buf2, q2, w2, ?_, h2, ?_, h4⟩
        · simp only [h1, dispatchEvents, hT, htk]
        · simp only [nextCalls, hH, h3]
      · rename_i hd
        have hT : dispatchTarget s w = none := by
          simp [dispatchTarget, htk, hl, hd]
        refine ⟨buf1.set 0 0, q1, w1, ?_, TokState_set_zero ht1 hq1 0, ?_, hset _ (hlen ht1)⟩
        · simp [ClearBuffer, dispatchEvents, hT]
        · simp [nextCalls, dispatchHandler, hT, htl]

/-- An accepted `ProcessCommandLine(l)` whose handler, if one is called, only
calls `Next()`: the events of the call, and what a `Next()` call made after
the call has returned gives. -/
theorem Next_after_cmdline (s : SerialCommands) (l : List Nat)
    (hacc : (ProcessCommandLine s (some l)).1 = true)
    (hcap : 1 ≤ s.buffer_len_) (hsz : s.buffer_len_ ≤ 32766)
    (hbuf : s.buffer_len_ < s.buffer_.length)
    (hnext : ∀ a ∈ dispatchHandler s l, a = Action.Next) :
    (ProcessCommandLine s (some l)).2.trace = s.trace ++ dispatchEvents s l ∧
    (ProcessCommandLine s (some l)).2.buffer_pos_ = 0 ∧
    (Next (ProcessCommandLine s (some l)).2).2.strAt (Next (ProcessCommandLine s (some l)).2).1 =
      (tokens s.delim_ l)[1 + nextCalls s l]? := by
  obtain ⟨buf0, ht0, -, heq⟩ := ProcessCommandLineWith_accepted (runHandler 1) l s hcap hsz hbuf hacc
  have hT : dispatchTarget
      { s with is_processing_cmdline_ := true, buffer_ := buf0, buffer_pos_ := 0, term_pos_ := 0 }
      (cstr l) = dispatchTarget s l :=
    dispatchTarget_cstr s l
  have hH : dispatchHandler
      { s with is_processing_cmdline_ := true, buffer_ := buf0, buffer_pos_ := 0, term_pos_ := 0 }
      (cstr l) = dispatchHandler s l := by
    unfold dispatchHandler
    rw [hT]
  have hE : dispatchEvents
      { s with is_processing_cmdline_ := true, buffer_ := buf0, buffer_pos_ := 0, term_pos_ := 0 }
      (cstr l) = dispatchEvents s l := by
    unfold dispatchEvents
    rw [hT]
    simp only [tokens_cstr]
  have hN : nextCalls
      { s with is_processing_cmdline_ := true, buffer_ := buf0, buffer_pos_ := 0, term_pos_ := 0 }
      (cstr l) = nextCalls s l := by
    unfold nextCalls
    rw [hH]
  obtain ⟨buf2, q2, w2, hpb, ht2, htl2, -⟩ := ProcessBuffer_dispatch 0
    { s with is_processing_cmdline_ := true, buffer_ := buf0, buffer_pos_ := 0, term_pos_ := 0 }
    (w := cstr l) ht0 (by rw [hH]; exact hnext)
  rw [hE] at hpb
  rw [hN] at htl2
  simp only [tokens_cstr] at htl2
  simp only at hpb htl2
  obtain ⟨p, buf3, q3, w3, hst, -, -, hp, -⟩ :=
    strtok_r_step s.delim_ ht2 none (some q2) (by simp)
  rw [htl2, List.head?_drop] at hp
  unfold ProcessCommandLine
  rw [heq]
  simp only [Nat.zero_add] at hpb
  rw [hpb]
  refine ⟨rfl, rfl, ?_⟩
  simp only [Next, hst, strAt]
  exact hp

/-- Claim C13 as amended. After the dispatch of a line `w` has completed and
the buffer is cleared (`buffer_pos_ = 0`, `buffer_[0] = 0`), where the handler
the dispatch called, if any (a regular command's or the default handler),
only called `Next()`, a `Next()` call is not inert: it returns the first token
of the line that neither the command lookup nor the handler's `Next()` calls
have read, token `1 + n` of the line (counted from 0) after `n` calls of the
handler, token 1 when no handler was called; it returns `NULL` exactly when
the line has no such token. The same holds for the state an accepted
`ProcessCommandLine` call returns, and in scenario 1 after `ReadSerial` has
returned: `FOO BAR` without default handler leaves `BAR`, `FOO A B` with a
default handler that calls `Next()` once leaves `B`, a line of one space
leaves nothing. -/
theorem next_after_dispatch_returns_unread (d : Nat) (s : SerialCommands) (w : List Nat)
    (ht : TokState s.buffer_ 0 w) (hnext : ∀ a ∈ dispatchHandler s w, a = Action.Next) :
    (ProcessBuffer (runHandler (d + 1)) s).buffer_pos_ = 0 ∧
    (ProcessBuffer (runHandler (d + 1)) s).buffer_.getD 0 0 = 0 ∧
    (ProcessBuffer (runHandler (d + 1)) s).trace = s.trace ++ dispatchEvents s w ∧
    (Next (ProcessBuffer (runHandler (d + 1)) s)).2.strAt
        (Next (ProcessBuffer (runHandler (d + 1)) s)).1 =
      (tokens s.delim_ w)[1 + nextCalls s w]? ∧
    ((Next (ProcessBuffer (runHandler (d + 1)) s)).1 = none ↔
      (tokens s.delim_ w).length ≤ 1 + nextCalls s w) ∧
    (∀ (s0 : SerialCommands) (l : List Nat), (ProcessCommandLine s0 (some l)).1 = true →
      1 ≤ s0.buffer_len_ → s0.buffer_len_ ≤ 32766 → s0.buffer_len_ < s0.buffer_.length →
      (∀ a ∈ dispatchHandler s0 l, a = Action.Next) →
      (ProcessCommandLine s0 (some l)).2.trace = s0.trace ++ dispatchEvents s0 l ∧
      (ProcessCommandLine s0 (some l)).2.buffer_pos_ = 0 ∧
      (Next (ProcessCommandLine s0 (some l)).2).2.strAt
          (Next (ProcessCommandLine s0 (some l)).2).1 =
        (tokens s0.delim_ l)[1 + nextCalls s0 l]?) ∧
    (feed scenario1 (toStream [70, 79, 79, 32, 66, 65, 82, 13, 10])).2.trace = [] ∧
    (Next (feed scenario1 (toStream [70, 79, 79, 32, 66, 65, 82, 13, 10])).2).2.strAt
        (Next (feed scenario1 (toStream [70, 79, 79, 32, 66, 65, 82, 13, 10])).2).1 =
      some [66, 65, 82] ∧
    (feed (scenario1.SetDefaultHandler (some [Action.Next]))
        (toStream [70, 79, 79, 32, 65, 32, 66, 13, 10])).2.trace =
      [Event.default_handler (some [70, 79, 79]), Event.next (some [65])] ∧
    (Next (feed (scenario1.SetDefaultHandler (some [Action.Next]))
        (toStream [70, 79, 79, 32, 65, 32, 66, 13, 10])).2).2.strAt
        (Next (feed (scenario1.SetDefaultHandler (some [Action.Next]))
          (toStream [70, 79, 79, 32, 65, 32, 66, 13, 10])).2).1 = some [66] ∧
    (Next (feed scenario1 (toStream [32, 13, 10])).2).1 = none := by
  have main : (ProcessBuffer (runHandler (d + 1)) s).buffer_pos_ = 0 ∧
      (ProcessBuffer (runHandler (d + 1)) s).buffer_.getD 0 0 = 0 ∧
      (ProcessBuffer (runHandler (d + 1)) s).trace = s.trace ++ dispatchEvents s w ∧
      (Next (ProcessBuffer (runHandler (d + 1)) s)).2.strAt
          (Next (ProcessBuffer (runHandler (d + 1)) s)).1 =
        (tokens s.delim_ w)[1 + nextCalls s w]? ∧
      ((Next (ProcessBuffer (runHandler (d + 1)) s)).1 = none ↔
        (tokens s.delim_ w).length ≤ 1 + nextCalls s w) := by
    obtain ⟨buf2, q2, w2, hpb, ht2, htl2, hz⟩ := ProcessBuffer_dispatch d s ht hnext
    obtain ⟨p, buf3, q3, w3, hst, -, -, hp, -⟩ :=
      strtok_r_step s.delim_ ht2 none (some q2) (by simp)
    rw [htl2] at hp
    have hnx : Next (ProcessBuffer (runHandler (d + 1)) s) =
        (p, { ProcessBuffer (runHandler (d + 1)) s with
                buffer_ := buf3, last_token_ := some q3 }) := by
      rw [hpb]
      simp only [Next, hst]
    have hk : ((tokens s.delim_ w).drop (1 + nextCalls s w)).head? =
        (tokens s.delim_ w)[1 + nextCalls s w]? := by
      rw [List.head?_drop]
    rw [hnx]
    refine ⟨by rw [hpb], by rw [hpb]; exact hz, by rw [hpb], ?_, ?_⟩
    · simp only [strAt]
      rw [hp, hk]
    · rw [hk] at hp
      cases p with
      | none =>
        simp only [Option.map_none'] at hp
        simpa using List.getElem?_eq_none_iff.1 hp.symm
      | some b =>
        simp only [Option.map_some'] at hp
        have hlt : 1 + nextCalls s w < (tokens s.delim_ w).length := by
          by_contra hge
          rw [List.getElem?_eq_none_iff.2 (Nat.le_of_not_lt hge)] at hp
          exact absurd hp (by simp)
        simp only [reduceCtorEq, false_iff, not_le]
        exact hlt
  exact ⟨main.1, main.2.1, main.2.2.1, main.2.2.2.1, main.2.2.2.2,
    fun s0 l hacc hcap hsz hbuf hn => Next_after_cmdline s0 l hacc hcap hsz hbuf hn,
    by decide, by decide, by decide, by decide, by decide⟩

theorem next_after_dispatch_returns_unread_witness :
    (ProcessBuffer (runHandler (1 + 1)) unreadDemo).buffer_pos_ = 0 ∧
    (ProcessBuffer (runHandler (1 + 1)) unreadDemo).buffer_.getD 0 0 = 0 ∧
    (ProcessBuffer (runHandler (1 + 1)) unreadDemo).trace =
      unreadDemo.trace ++ dispatchEvents unreadDemo [76, 69, 68, 32, 65, 32, 66, 32, 67] ∧
    (Next (ProcessBuffer (runHandler (1 + 1)) unreadDemo)).2.strAt
        (Next (ProcessBuffer (runHandler (1 + 1)) unreadDemo)).1 =
      (tokens unreadDemo.delim_ [76, 69, 68, 32, 65, 32, 66, 32, 67])[
        1 + nextCalls unreadDemo [76, 69, 68, 32, 65, 32, 66, 32, 67]]? ∧
    dispatchEvents unreadDemo [76, 69, 68, 32, 65, 32, 66, 32, 67] =
      [Event.command 0, Event.next (some [65]), Event.next (some [66])] ∧
    (tokens unreadDemo.delim_ [76, 69, 68, 32, 65, 32, 66, 32, 67])[
        1 + nextCalls unreadDemo [76, 69, 68, 32, 65, 32, 66, 32, 67]]? = some [67] :=
  ⟨(next_after_dispatch_returns_unread 1 unreadDemo [76, 69, 68, 32, 65, 32, 66, 32, 67]
      ⟨[], [10, 0, 0, 0, 0, 0], by decide, rfl, by decide⟩ (by decide)).1,
   (next_after_dispatch_returns_unread 1 unreadDemo [76, 69, 68, 32, 65, 32, 66, 32, 67]
      ⟨[], [10, 0, 0, 0, 0, 0], by decide, rfl, by decide⟩ (by decide)).2.1,
   (next_after_dispatch_returns_unread 1 unreadDemo [76, 69, 68, 32, 65, 32, 66, 32, 67]
      ⟨[], [10, 0, 0, 0, 0, 0], by decide, rfl, by decide⟩ (by decide)).2.2.1,
   (next_after_dispatch_returns_unread 1 unreadDemo [76, 69, 68, 32, 65, 32, 66, 32, 67]
      ⟨[], [10, 0, 0, 0, 0, 0], by decide, rfl, by decide⟩ (by decide)).2.2.2.1,
   by decide, by decide⟩

end SerialCommands

/-! ## Tokens handed to handlers -/

theorem drop_set_add (l : List Nat) (i n v : Nat) :
    (l.set (i + n) v).drop i = (l.drop i).set n v := by
  apply List.ext_getElem?
  intro k
  simp only [List.getElem?_drop, List.getElem?_set, List.length_drop]
  by_cases hk : n = k
  · subst hk
    simp only [if_true]
    by_cases hl : i + n < l.length
    · have : n < l.length - i := by omega
      simp [hl, this]
    · have : ¬ n < l.length - i := by omega
      simp [hl, this]
  · have : ¬ i + n = i + k := by omega
    simp [hk, this]

theorem getD_drop_add (l : List Nat) (i j : Nat) : (l.drop i).getD j 0 = l.getD (i + j) 0 := by
  simp [List.getD_eq_getElem?_getD]

theorem strspn_stop (delim l : List Nat) :
    l.getD (strspn delim l) 0 = 0 ∨ isDelim delim (l.getD (strspn delim l) 0) = false := by
  induction l with
  | nil => left; rfl
  | cons c m ih =>
    unfold strspn
    by_cases hc : (c != 0 && (cstr delim).contains c) = true
    · rw [if_pos hc]
      simpa using ih
    · rw [if_neg hc]
      simp only [Bool.and_eq_true, bne_iff_ne, ne_eq, not_and, Bool.not_eq_true] at hc
      by_cases h0 : c = 0
      · left; simp [h0]
      · right
        simpa [isDelim] using hc h0

theorem strcspn_take (delim l : List Nat) :
    ∀ c ∈ l.take (strcspn delim l), c ≠ 0 ∧ isDelim delim c = false := by
  induction l with
  | nil => intro c hc; simp at hc
  | cons a m ih =>
    unfold strcspn
    by_cases hc : (a != 0 && !(cstr delim).contains a) = true
    · rw [if_pos hc]
      intro c hmem
      simp only [List.take_succ_cons, List.mem_cons] at hmem
      rcases hmem with rfl | hmem
      · simp only [Bool.and_eq_true, bne_iff_ne, ne_eq, Bool.not_eq_true'] at hc
        exact ⟨hc.1, by simpa [isDelim] using hc.2⟩
      · exact ih c hmem
    · rw [if_neg hc]
      intro c hmem
      simp at hmem

theorem strcspn_pos {delim l : List Nat} (h0 : l.getD 0 0 ≠ 0)
    (hd : isDelim delim (l.getD 0 0) = false) : 0 < strcspn delim l := by
  cases l with
  | nil => simp at h0
  | cons a m =>
    simp only [List.getD_cons_zero] at h0 hd
    unfold strcspn
    have : (a != 0 && !(cstr delim).contains a) = true := by
      simp only [Bool.and_eq_true, bne_iff_ne, ne_eq, Bool.not_eq_true']
      exact ⟨h0, by simpa [isDelim] using hd⟩
    rw [if_pos this]
    omega

theorem cstr_eq_take (n : Nat) (m : List Nat) (h : ∀ c ∈ m.take n, c ≠ 0)
    (hz : m.getD n 0 = 0) : cstr m = m.take n := by
  induction n generalizing m with
  | zero =>
    cases m with
    | nil => rfl
    | cons a tl =>
      simp only [List.getD_cons_zero] at hz
      subst hz
      simp [cstr_cons_zero]
  | succ n ih =>
    cases m with
    | nil => rfl
    | cons a tl =>
      have ha : a ≠ 0 := h a (by simp)
      rw [cstr_cons_ne ha, List.take_succ_cons]
      congr 1
      apply ih
      · intro c hc
        exact h c (by simp [hc])
      · simpa using hz

/-- A token that `strtok_r` returns is a non-empty string without NUL and
without delimiter, whatever the array holds and wherever the cursor is. -/
theorem strtok_r_token {buf delim : List Nat} {str save sv : Option Nat} {b : Nat}
    {buf1 : List Nat} (h : strtok_r buf str delim save = (some b, buf1, sv)) :
    cstr (buf1.drop b) ≠ [] ∧ ∀ c ∈ cstr (buf1.drop b), c ≠ 0 ∧ isDelim delim c = false := by
  unfold strtok_r at h
  cases hq : (str <|> save) with
  | none =>
    rw [hq] at h
    simp at h
  | some p =>
    rw [hq] at h
    simp only at h
    by_cases h1 : buf.getD (p + strspn delim (buf.drop p)) 0 = 0
    · rw [if_pos h1] at h
      simp at h
    · rw [if_neg h1] at h
      have hstop := strspn_stop delim (buf.drop p)
      rw [getD_drop_add] at hstop
      have hnd : isDelim delim (buf.getD (p + strspn delim (buf.drop p)) 0) = false := by
        rcases hstop with h0 | h0
        · exact absurd h0 h1
        · exact h0
      generalize hb0 : p + strspn delim (buf.drop p) = b0 at h h1 hnd
      have hm0 : (buf.drop b0).getD 0 0 = buf.getD b0 0 := by
        rw [getD_drop_add, Nat.add_zero]
      have hpos : 0 < strcspn delim (buf.drop b0) :=
        strcspn_pos (by rw [hm0]; exact h1) (by rw [hm0]; exact hnd)
      have htake := strcspn_take delim (buf.drop b0)
      have hne : (buf.drop b0).take (strcspn delim (buf.drop b0)) ≠ [] := by
        intro he
        cases hd : buf.drop b0 with
        | nil => rw [hd] at hm0; exact h1 (by rw [← hm0]; rfl)
        | cons a tl =>
          rw [hd] at he hpos
          cases hn : strcspn delim (a :: tl) with
          | zero => omega
          | succ n => rw [hn] at he; simp at he
      by_cases h2 : buf.getD (b0 + strcspn delim (buf.drop b0)) 0 = 0
      · rw [if_pos h2] at h
        simp only [Prod.mk.injEq, Option.some.injEq] at h
        obtain ⟨rfl, rfl, -⟩ := h
        have hc := cstr_eq_take _ (buf.drop b0) (fun c hc => (htake c hc).1)
          (by rw [getD_drop_add]; exact h2)
        rw [hc]
        exact ⟨hne, htake⟩
      · rw [if_neg h2] at h
        simp only [Prod.mk.injEq, Option.some.injEq] at h
        obtain ⟨rfl, rfl, -⟩ := h
        rw [drop_set_add]
        have htk : ((buf.drop b0).set (strcspn delim (buf.drop b0)) 0).take
            (strcspn delim (buf.drop b0)) = (buf.drop b0).take (strcspn delim (buf.drop b0)) :=
          take_set_of_le _ _ (le_refl _)
        have hc := cstr_eq_take (strcspn delim (buf.drop b0))
          ((buf.drop b0).set (strcspn delim (buf.drop b0)) 0)
          (by rw [htk]; exact fun c hc => (htake c hc).1)
          (by
            simp only [List.getD_eq_getElem?_getD, List.getElem?_set, if_true]
            split_ifs <;> rfl)
        rw [hc, htk]
        exact ⟨hne, htake⟩

theorem TokTrace_refl (s : SerialCommands) : TokTrace s s :=
  ⟨rfl, [], by simp, by simp⟩

theorem TokTrace_trans {s t u : SerialCommands} (h1 : TokTrace s t) (h2 : TokTrace t u) :
    TokTrace s u := by
  obtain ⟨e1, he1, hp1⟩ := h1.trace_ext
  obtain ⟨e2, he2, hp2⟩ := h2.trace_ext
  refine ⟨h2.delim_eq.trans h1.delim_eq, e1 ++ e2, by rw [he2, he1, List.append_assoc],
    fun e he => (List.mem_append.1 he).elim (hp1 e) (fun h => ?_)⟩
  have := hp2 e h
  rw [h1.delim_eq] at this
  exact this

/-- A state change that leaves delimiters and trace alone. -/
theorem TokTrace_same {s t : SerialCommands} (hd : t.delim_ = s.delim_)
    (ht : t.trace = s.trace) : TokTrace s t :=
  ⟨hd, [], by simp [ht], by simp⟩

theorem TokTrace_event (s : SerialCommands) (e : Event) (he : tokenEvent s.delim_ e) :
    TokTrace s { s with trace := s.trace ++ [e] } :=
  ⟨rfl, [e], rfl, by simpa using he⟩

namespace SerialCommands

theorem TokTrace_Next (run : Handler → SerialCommands → SerialCommands) (s : SerialCommands) :
    TokTrace s (execAction run s Action.Next) := by
  have hst : strtok_r s.buffer_ none s.delim_ s.last_token_ =
      ((strtok_r s.buffer_ none s.delim_ s.last_token_).1,
        (strtok_r s.buffer_ none s.delim_ s.last_token_).2.1,
        (strtok_r s.buffer_ none s.delim_ s.last_token_).2.2) := rfl
  refine ⟨rfl, [Event.next ((Next s).2.strAt (Next s).1)], rfl, ?_⟩
  intro e he
  simp only [List.mem_singleton] at he
  subst he
  simp only [Next, strAt]
  cases hp : (strtok_r s.buffer_ none s.delim_ s.last_token_).1 with
  | none => trivial
  | some b =>
    rw [hp] at hst
    exact strtok_r_token hst

/-- In a dispatch every recorded event hands over a token when that holds in
the handler runs. -/
theorem TokTrace_ProcessBuffer (run : Handler → SerialCommands → SerialCommands)
    (hrun : ∀ h t, TokTrace t (run h t)) (s : SerialCommands) :
    TokTrace s (ProcessBuffer run s) := by
  have hst : strtok_r s.buffer_ (some 0) s.delim_ s.last_token_ =
      ((strtok_r s.buffer_ (some 0) s.delim_ s.last_token_).1,
        (strtok_r s.buffer_ (some 0) s.delim_ s.last_token_).2.1,
        (strtok_r s.buffer_ (some 0) s.delim_ s.last_token_).2.2) := rfl
  have h1 : TokTrace s (ClearBuffer { s with
      buffer_ := (strtok_r s.buffer_ (some 0) s.delim_ s.last_token_).2.1,
      last_token_ := (strtok_r s.buffer_ (some 0) s.delim_ s.last_token_).2.2 }) :=
    TokTrace_same rfl rfl
  have h2 : ∀ e, tokenEvent s.delim_ e → TokTrace s { s with
      buffer_ := (strtok_r s.buffer_ (some 0) s.delim_ s.last_token_).2.1,
      last_token_ := (strtok_r s.buffer_ (some 0) s.delim_ s.last_token_).2.2,
      trace := s.trace ++ [e] } :=
    fun e he => ⟨rfl, [e], rfl, by simpa using he⟩
  have hclear : ∀ t : SerialCommands, TokTrace t (ClearBuffer t) :=
    fun t => TokTrace_same rfl rfl
  unfold ProcessBuffer
  simp only
  split
  · exact h1
  · rename_i command hcmd
    rw [hcmd] at hst
    split
    · exact TokTrace_trans (TokTrace_trans (h2 (Event.command _) trivial) (hrun _ _)) (hclear _)
    · split
      · refine TokTrace_trans (TokTrace_trans (h2 (Event.default_handler _) ?_) (hrun _ _))
          (hclear _)
        exact ⟨_, rfl, strtok_r_token hst⟩
      · exact h1

theorem TokTrace_ProcessCommandLineWith (run : Handler → SerialCommands → SerialCommands)
    (hrun : ∀ h t, TokTrace t (run h t)) (line : Option (List Nat)) (s : SerialCommands) :
    TokTrace s (ProcessCommandLineWith run line s).2 := by
  cases hacc : (ProcessCommandLineWith run line s).1 with
  | false =>
    rw [ProcessCommandLineWith_rejected run line s hacc]
    exact TokTrace_refl s
  | true =>
    unfold ProcessCommandLineWith at hacc ⊢
    cases line with
    | none => simp at hacc
    | some l =>
      simp only at hacc ⊢
      by_cases h1 : strlen l = 0
      · rw [if_pos h1] at hacc; simp at hacc
      · rw [if_neg h1] at hacc ⊢
        by_cases h2 : intToSize ((s.buffer_len_ : Int) - 1) ≤ strlen l
        · rw [if_pos h2] at hacc; simp at hacc
        · rw [if_neg h2] at hacc ⊢
          by_cases h3 : s.is_processing_cmdline_ = true
          · rw [if_pos h3] at hacc; simp at hacc
          · rw [if_neg h3]
            have hpb := TokTrace_ProcessBuffer run hrun
              { s with
                is_processing_cmdline_ := true,
                buffer_ :=
                  if s.buffer_len_ = 0 then
                    strncpy (s.buffer_.set 0 0) l (intToSize ((s.buffer_len_ : Int) - 1))
                  else (strncpy (s.buffer_.set 0 0) l
                    (intToSize ((s.buffer_len_ : Int) - 1))).set (s.buffer_len_ - 1) 0,
                buffer_pos_ := 0, term_pos_ := 0 }
            obtain ⟨evs, hevs, hp⟩ := hpb.trace_ext
            exact ⟨hpb.delim_eq, evs, hevs, hp⟩

theorem TokTrace_execAction (run : Handler → SerialCommands → SerialCommands)
    (hrun : ∀ h t, TokTrace t (run h t)) (s : SerialCommands) (act : Action) :
    TokTrace s (execAction run s act) := by
  cases act with
  | Next => exact TokTrace_Next run s
  | ProcessCommandLine line =>
    exact TokTrace_trans (TokTrace_ProcessCommandLineWith run hrun line s)
      (TokTrace_event _ (Event.cmdline _) trivial)

/-- In a handler run, at any depth and whatever the handler calls, every
recorded event hands over a token. -/
theorem TokTrace_runHandler (d : Nat) :
    ∀ (h : Handler) (s : SerialCommands), TokTrace s (runHandler d h s) := by
  induction d with
  | zero => exact fun h s => TokTrace_refl s
  | succ d ih =>
    intro h
    induction h with
    | nil => exact fun s => TokTrace_refl s
    | cons act h ihh =>
      intro s
      rw [runHandler_cons]
      exact TokTrace_trans (TokTrace_execAction (runHandler d) ih s act) (ihh _)

/-- Claim C20 (tokens are never empty). For every dispatched line `w`, the
delimiter string of the scanner and any registry: every entry of `tokens w`
is a non-empty string without delimiter (and without NUL); whatever the
handlers do, the argument of the default handler and every value that a
`Next()` call returns during the dispatch, unless it is `NULL`, is such a
string; when the handler that is called only calls `Next()`, the events of
the dispatch are the lookup of the first entry of `tokens w` (first regular
command of that name, else the default handler with that entry, else nothing)
followed by the `Next()` results, the following entries in order, then
`NULL`. Leading delimiters are skipped and a run of delimiters separates like
one (`tokens (ds ++ l) = tokens l`, `tokens (tok ++ c :: l) = tok :: tokens l`,
`tokens tok = [tok]`), so `tokens w` is the list of maximal delimiter-free
runs. The line `  LED   ON` with delimiter space dispatches `LED`, and `Next()`
yields `ON`, then `NULL`; `  FOO   ON` goes to the default handler with `FOO`. -/
theorem dispatched_tokens_never_empty (d : Nat) (s : SerialCommands) (w : List Nat)
    (ht : TokState s.buffer_ 0 w) :
    (∀ t ∈ tokens s.delim_ w, tokenOk s.delim_ t) ∧
    (∃ evs, (ProcessBuffer (runHandler d) s).trace = s.trace ++ evs ∧
      ∀ e ∈ evs, tokenEvent s.delim_ e) ∧
    ((∀ a ∈ dispatchHandler s w, a = Action.Next) →
      (ProcessBuffer (runHandler (d + 1)) s).trace = s.trace ++ dispatchEvents s w) ∧
    (∀ ds l : List Nat, (∀ c ∈ ds, c ≠ 0 ∧ isDelim s.delim_ c = true) → 0 ∉ l →
      tokens s.delim_ (ds ++ l) = tokens s.delim_ l) ∧
    (∀ (tok l : List Nat) (c : Nat), (∀ c ∈ tok, c ≠ 0 ∧ isDelim s.delim_ c = false) → tok ≠ [] →
      c ≠ 0 → isDelim s.delim_ c = true → 0 ∉ l →
      tokens s.delim_ (tok ++ c :: l) = tok :: tokens s.delim_ l) ∧
    (∀ tok : List Nat, (∀ c ∈ tok, c ≠ 0 ∧ isDelim s.delim_ c = false) → tok ≠ [] →
      tokens s.delim_ tok = [tok]) ∧
    tokens [32] [32, 32, 76, 69, 68, 32, 32, 32, 79, 78] = [[76, 69, 68], [79, 78]] ∧
    (feed scenario1 (toStream [32, 32, 76, 69, 68, 32, 32, 32, 79, 78, 13, 10])).2.trace =
      [Event.command 0, Event.next (some [79, 78]), Event.next none] ∧
    (feed (scenario1.SetDefaultHandler (some [Action.Next, Action.Next]))
        (toStream [32, 32, 70, 79, 79, 32, 32, 32, 79, 78, 13, 10])).2.trace =
      [Event.default_handler (some [70, 79, 79]), Event.next (some [79, 78]),
        Event.next none] := by
  refine ⟨tokens_mem s.delim_ w,
    (TokTrace_ProcessBuffer (runHandler d) (TokTrace_runHandler d) s).trace_ext,
    fun hnext => ?_, fun ds l hds hl => tokens_delims_append hds hl,
    fun tok l c htok hne hc hd hl => tokens_cons_token htok hne hc hd hl,
    fun tok htok hne => tokens_single htok hne, by decide, by decide, by decide⟩
  obtain ⟨buf2, q2, w2, hpb, -, -, -⟩ := ProcessBuffer_dispatch d s ht hnext
  rw [hpb]

theorem dispatched_tokens_never_empty_witness :
    (∀ t ∈ tokens unreadDemo.delim_ [76, 69, 68, 32, 65, 32, 66, 32, 67],
      tokenOk unreadDemo.delim_ t) ∧
    (ProcessBuffer (runHandler (1 + 1)) unreadDemo).trace =
      unreadDemo.trace ++ dispatchEvents unreadDemo [76, 69, 68, 32, 65, 32, 66, 32, 67] ∧
    dispatchEvents unreadDemo [76, 69, 68, 32, 65, 32, 66, 32, 67] =
      [Event.command 0, Event.next (some [65]), Event.next (some [66])] :=
  ⟨(dispatched_tokens_never_empty 1 unreadDemo [76, 69, 68, 32, 65, 32, 66, 32, 67]
      ⟨[], [10, 0, 0, 0, 0, 0], by decide, rfl, by decide⟩).1,
   (dispatched_tokens_never_empty 1 unreadDemo [76, 69, 68, 32, 65, 32, 66, 32, 67]
      ⟨[], [10, 0, 0, 0, 0, 0], by decide, rfl, by decide⟩).2.2.1 (by decide),
   by decide⟩

end SerialCommands

end ArduinoSerialCommands
